import Mathlib

/-!
# The SSA Direct scheduler of the whole-cell simulator (wcs)

A shallow embedding of `src/sim_methods/ssa_direct.cpp` (class `SSA_Direct`), of the parts
of `Sim_Method` and `Network` it drives, and of `Trajectory::set_outfile`
(`src/utils/trajectory.cpp`), followed by theorems about the embedding.

Conventions of the embedding:

* `reaction_rate_t` and `sim_time_t` (C++ `double`) are the rationals: sums and quotients are
  exact; the product that `choose_reaction` compares with the cumulative values is rounded to
  the nearest `double` (`round_double`).
* `std::vector<priority_t>` is a `List`; a `priority_t&` is the index of the slot it refers to.
* `std::unordered_map<v_desc_t, size_t>` is a function into `Option Nat`.
* A C++ exception (and a read that the C++ standard leaves undefined) is `Except.error`.
* The two random number engines are opaque engine states (`Nat`); the draw function, the
  logarithm and the seeding are capabilities of the build, gathered in `Config`.
-/

namespace wcs

/-! ## Basic types -/

abbrev v_desc_t := Nat
abbrev reaction_rate_t := ℚ
abbrev sim_time_t := ℚ
abbrev sim_iter_t := Nat
abbrev stoic_t := Nat
abbrev species_cnt_t := Nat

/-- The pair `(cumulative propensity, reaction)` stored in the propensity vector. -/
abbrev priority_t := reaction_rate_t × v_desc_t

/-- The reverse map `m_pindices` from a reaction to its slot. -/
abbrev pindices_t := v_desc_t → Option Nat

/-- The ways an operation can raise. -/
inductive Err where
  | InvalidNetwork
  | NoEligibleReaction
  | OutOfRange
  | UndefinedRead
  | StoichiometryUnderflow
  | NoPriorEvent
  | NoFirstEvent
  | OutOfFuel
  | InvalidFragmentSize
  | CerealRequired
  deriving DecidableEq, Repr

/-- The result of `Sim_Method::schedule`: `enum result_t {Success, Empty, Inactive}`. -/
inductive result_t where
  | Success
  | Empty
  | Inactive
  deriving DecidableEq, Repr

/-! ## The reaction network -/

/-- Modelled from the spec: the class `Network` (only its declaration, `network.hpp`, is among
the sources). The topology (`reactants`, `products`, `affected`), the rate evaluator of every
reaction and `m_etime_ulimit` are fixed; the species counts and the cached rates change. -/
structure Network where
  /-- The list `reaction_list()` of reaction handles, in load order. -/
  m_reactions : List v_desc_t
  /-- The reactant edges `(species, stoichiometry)` of a reaction. -/
  reactants : v_desc_t → List (v_desc_t × stoic_t)
  /-- The product edges `(species, stoichiometry)` of a reaction. -/
  products : v_desc_t → List (v_desc_t × stoic_t)
  /-- The precomputed set of reactions affected by a firing of the reaction. -/
  affected : v_desc_t → List v_desc_t
  /-- The rate law of a reaction, evaluated at given species counts. -/
  evaluate : v_desc_t → (v_desc_t → species_cnt_t) → reaction_rate_t
  /-- The largest delay for an active reaction, `Network::get_etime_ulimit()`. -/
  m_etime_ulimit : sim_time_t
  /-- The current population count of every species. -/
  count : v_desc_t → species_cnt_t
  /-- The rate cached on every reaction. -/
  m_rate : v_desc_t → reaction_rate_t

namespace Network

/-- Modelled from the spec: `get_reaction_rate(r)` returns the cached rate. -/
def get_reaction_rate (net : Network) (r : v_desc_t) : reaction_rate_t :=
  net.m_rate r

/-- Modelled from the spec: `set_reaction_rate(r)` evaluates the rate law at the current species
counts, caches it on the reaction and returns it. -/
def set_reaction_rate (net : Network) (r : v_desc_t) : reaction_rate_t × Network :=
  let rate := net.evaluate r net.count
  (rate, { net with m_rate := Function.update net.m_rate r rate })

/-- Modelled from the spec: `check_reaction(r)` is true iff all reactants of `r` are available
in the required stoichiometry. -/
def check_reaction (net : Network) (r : v_desc_t) : Bool :=
  (net.reactants r).all (fun e => decide (e.2 ≤ net.count e.1))

/-- Decrement the count of every species of an edge list by its stoichiometry. -/
def dec_counts (es : List (v_desc_t × stoic_t)) (c : v_desc_t → species_cnt_t) :
    v_desc_t → species_cnt_t :=
  es.foldl (fun c e => Function.update c e.1 (c e.1 - e.2)) c

/-- Increment the count of every species of an edge list by its stoichiometry. -/
def inc_counts (es : List (v_desc_t × stoic_t)) (c : v_desc_t → species_cnt_t) :
    v_desc_t → species_cnt_t :=
  es.foldl (fun c e => Function.update c e.1 (c e.1 + e.2)) c

/-- Modelled from the spec: `fire(r)` decrements every reactant and increments every product by
its stoichiometry; it raises `StoichiometryUnderflow` when a count would become negative. -/
def fire (net : Network) (r : v_desc_t) : Except Err Network :=
  if net.check_reaction r then
    .ok { net with count := inc_counts (net.products r) (dec_counts (net.reactants r) net.count) }
  else
    .error Err.StoichiometryUnderflow

/-- Modelled from the spec: `undo(r)` is the inverse of `fire(r)`. -/
def undo (net : Network) (r : v_desc_t) : Network :=
  { net with count := inc_counts (net.reactants r) (dec_counts (net.products r) net.count) }

end Network

/-! ## The state-change digest and the scheduler state -/

/-- Modelled from the spec: the digest `Sim_State_Change` (its header is not among the sources):
`(sim_time, fired_handle, affected_set, rng_snapshot_bytes)`. -/
structure Sim_State_Change where
  m_sim_time : sim_time_t
  m_reaction_fired : v_desc_t
  m_reactions_affected : List v_desc_t
  m_rng_state : List Nat
  deriving DecidableEq

/-- A default-constructed digest (`m_digests.emplace_back()`). -/
def Sim_State_Change.empty : Sim_State_Change :=
  { m_sim_time := 0, m_reaction_fired := 0, m_reactions_affected := [], m_rng_state := [] }

/-- The build options and the external capabilities the scheduler consumes. -/
structure Config where
  /-- Whether the build defines `WCS_HAS_ROSS` (rollback digests). -/
  WCS_HAS_ROSS : Bool
  /-- One draw of a uniform generator: the value and the next engine state. -/
  uniform : Nat → ℚ × Nat
  /-- The function `log` of `<cmath>`. -/
  log : ℚ → ℚ
  /-- The engine state that `use_seed_seq` reaches from `make_seed_seq_input(salt, seed, ..)`. -/
  seed_seq : Nat → Nat → Nat
  /-- The engine states that `set_seed()` reaches from the entropy of the platform. -/
  entropy_evt : Nat
  entropy_tm : Nat

/-- The members of `SSA_Direct` (with those of its base `Sim_Method`). -/
structure SSA_Direct where
  m_net : Network
  m_max_iter : sim_iter_t
  m_max_time : sim_time_t
  m_sim_iter : sim_iter_t
  m_sim_time : sim_time_t
  m_propensity : List priority_t
  m_pindices : pindices_t
  m_rgen_evt : Nat
  m_rgen_tm : Nat
  m_digests : List Sim_State_Change
  /-- The steps handed to the trajectory recorder by `record`, oldest first. -/
  m_recorded : List (sim_time_t × v_desc_t)

/-! ## `Sim_Method` -/

/-- Modelled from the spec: `Sim_Method::fire_reaction(digest)` applies `Network.fire` to the
reaction of the digest and stores the affected reactions in the digest. -/
def fire_reaction (net : Network) (digest : Sim_State_Change) :
    Except Err (Network × Sim_State_Change) :=
  match net.fire digest.m_reaction_fired with
  | .error e => .error e
  | .ok net1 =>
    .ok (net1, { digest with m_reactions_affected := net.affected digest.m_reaction_fired })

/-- Modelled from the spec: `Sim_Method::undo_reaction(r)` applies `Network.undo`. -/
def undo_reaction (net : Network) (rd_undo : v_desc_t) : Network :=
  net.undo rd_undo

/-- Modelled from the spec: `Sim_Method::record(t, rv)` hands one step to the recorder. -/
def record_at (s : SSA_Direct) (t : sim_time_t) (rv : v_desc_t) : SSA_Direct :=
  { s with m_recorded := s.m_recorded ++ [(t, rv)] }

/-- Modelled from the spec: `Sim_Method::record(rv)` records the step at the current time. -/
def record (s : SSA_Direct) (rv : v_desc_t) : SSA_Direct :=
  record_at s s.m_sim_time rv

/-! ## `SSA_Direct`: the propensity index -/

/-- The comparison `SSA_Direct::less`. -/
def less (v1 v2 : priority_t) : Bool :=
  decide (v1.1 < v2.1)

/-- Insertion of one element into a sorted list, after the elements that are less than it and
before all others. -/
def stable_insert {α : Type} (lt : α → α → Bool) (x : α) : List α → List α
  | [] => [x]
  | y :: ys => if lt y x then y :: stable_insert lt x ys else x :: y :: ys

/-- The algorithm `std::stable_sort(first, last, comp)`. -/
def stable_sort {α : Type} (lt : α → α → Bool) : List α → List α
  | [] => []
  | x :: xs => stable_insert lt x (stable_sort lt xs)

/-- The member `std::unordered_map::insert`: an existing key keeps its value. -/
def map_insert (m : pindices_t) (k : v_desc_t) (v : Nat) : pindices_t :=
  fun x => if x = k then (match m k with | some w => some w | none => some v) else m x

/-- The second loop of `build_propensity_list`: turn the rates into cumulative rates and fill
the reverse map; `sum` and `i` are the loop variables. -/
def cumulate : reaction_rate_t → Nat → List priority_t → pindices_t →
    List priority_t × pindices_t
  | _, _, [], pidx => ([], pidx)
  | sum, i, p :: ps, pidx =>
    let r := cumulate (sum + p.1) (i + 1) ps (map_insert pidx p.2 i)
    ((sum + p.1, p.2) :: r.1, r.2)

/-- The function `SSA_Direct::build_propensity_list`. -/
def build_propensity_list (s : SSA_Direct) : SSA_Direct :=
  let rated := s.m_net.m_reactions.map (fun vd => (s.m_net.get_reaction_rate vd, vd))
  let sorted := stable_sort less rated
  let r := cumulate 0 0 sorted (fun _ => none)
  { s with m_propensity := r.1, m_pindices := r.2 }

/-- The loop of `std::upper_bound(first, last, value, comp)`: binary search for the first
position in `[first, first + count)` whose element `e` satisfies `comp value e`. -/
def upper_bound_loop {α β : Type} (v : List α) (value : β) (comp : β → α → Bool) :
    Nat → Nat → Nat → Nat
  | 0, first, _ => first
  | fuel + 1, first, count =>
    if count = 0 then first
    else
      let step := count / 2
      let it := first + step
      match v[it]? with
      | none => first
      | some e =>
        if !(comp value e) then upper_bound_loop v value comp fuel (it + 1) (count - (step + 1))
        else upper_bound_loop v value comp fuel first step

/-- The algorithm `std::upper_bound` over a whole vector. -/
def upper_bound {α β : Type} (v : List α) (value : β) (comp : β → α → Bool) : Nat :=
  upper_bound_loop v value comp v.length 0 v.length

/-! ## The arithmetic of `double` in `choose_reaction` -/

/-- The least level `j' ≥ j` with `n < 2 ^ (2 ^ j')`, searched upwards from `j`; the first
argument bounds the search. -/
def find_level : Nat → Nat → Nat → Nat
  | 0, j, _ => j
  | fuel + 1, j, n => if n < 1 <<< (1 <<< j) then j else find_level fuel (j + 1) n

/-- The number of binary digits of a number `n < 2 ^ (2 ^ j)`, by halving the range of the
digits: the digits above position `2 ^ (j - 1)` are counted after a shift. -/
def bits_below : Nat → Nat → Nat
  | 0, n => if n = 0 then 0 else 1
  | j + 1, n =>
    if n < 1 <<< (1 <<< j) then bits_below j n
    else (1 <<< j) + bits_below j (n >>> (1 <<< j))

/-- The number of binary digits of `n` (`0` for `0`). -/
def bit_length (n : Nat) : Nat :=
  bits_below (find_level n 0 n) n

/-- The power `2 ^ e` as a rational; `1 <<< n` is the natural number `2 ^ n`. -/
def pow2 (e : ℤ) : ℚ :=
  if 0 ≤ e then ((1 <<< e.toNat : ℕ) : ℚ) else 1 / ((1 <<< (-e).toNat : ℕ) : ℚ)

/-- The binade of a rational `x` other than `0`: the integer `e` with
`2 ^ e ≤ |x| < 2 ^ (e + 1)`. With `a` and `b` the numbers of binary digits of the numerator and
of the denominator, `|x|` lies between `2 ^ (a - b - 1)` and `2 ^ (a - b + 1)`. -/
def binade (x : ℚ) : ℤ :=
  let e0 : ℤ := (bit_length x.num.natAbs : ℤ) - (bit_length x.den : ℤ)
  if pow2 e0 ≤ |x| then e0 else e0 - 1

/-- The natural number nearest to a rational `m ≥ 0`, the even one of the two when `m` is
halfway between them. -/
def round_half_even (m : ℚ) : ℕ :=
  let f : ℕ := m.num.natAbs / m.den
  let r : ℚ := m - f
  if r < 1 / 2 then f else if 1 / 2 < r then f + 1 else if f % 2 = 0 then f else f + 1

/-- The `double` nearest to a rational `x > 0`: the multiple of the unit in the last place
`2 ^ k` nearest to `x`, ties to even, where `k = e - 52` in the binade `e` of a normal number
and `k = -1074` for a subnormal one (below `2 ^ (-1022)`). -/
def round_abs (x : ℚ) : ℚ :=
  let k : ℤ := max (binade x) (-1022) - 52
  (round_half_even (x / pow2 k) : ℚ) * pow2 k

/-- The value a real number takes as a `double` (IEEE 754 binary64, rounding to nearest, ties
to even). The exponent range is not bounded above: overflow to infinity is not represented,
and it does not arise for the product of a draw in `[0, 1)` and a finite `double`. -/
def round_double (x : ℚ) : ℚ :=
  if 0 < x then round_abs x else if x < 0 then -round_abs (-x) else 0

/-- The function `SSA_Direct::choose_reaction`: the slot of the chosen entry and the state with
the event generator advanced. The target `rn` is the product of the draw and the total as the
machine computes it, a `double`. -/
def choose_reaction (cfg : Config) (s : SSA_Direct) : Except Err (Nat × SSA_Direct) :=
  match s.m_propensity.getLast? with
  | none => .error Err.UndefinedRead
  | some back =>
    let draw := cfg.uniform s.m_rgen_evt
    let rn : reaction_rate_t := round_double (draw.1 * back.1)
    let it := upper_bound s.m_propensity rn (fun lhs rhs => decide (lhs < rhs.1))
    if it = s.m_propensity.length then .error Err.NoEligibleReaction
    else .ok (it, { s with m_rgen_evt := draw.2 })

/-- The function `SSA_Direct::get_reaction_time`. -/
def get_reaction_time (cfg : Config) (s : SSA_Direct) : sim_time_t × SSA_Direct :=
  let r : reaction_rate_t :=
    match s.m_propensity.getLast? with
    | none => 0
    | some back => back.1
  if r ≤ 0 then (s.m_net.m_etime_ulimit, s)
  else
    let draw := cfg.uniform s.m_rgen_tm
    (-(cfg.log draw.1 / r), { s with m_rgen_tm := draw.2 })

/-- The assignment `m_propensity.at(i).first = x`. -/
def set_first (prop : List priority_t) (i : Nat) (x : reaction_rate_t) :
    Except Err (List priority_t) :=
  match prop[i]? with
  | none => .error Err.OutOfRange
  | some p => .ok (prop.set i (x, p.2))

/-- The new propensity of one reaction in `update_reactions`: zero when the reaction is checked
and cannot fire, else the rate that `set_reaction_rate` computes and caches. -/
def refresh_rate (net : Network) (vd : v_desc_t) (check_reaction : Bool) :
    reaction_rate_t × Network :=
  if check_reaction && !(net.check_reaction vd) then (0, net)
  else net.set_reaction_rate vd

/-- The first loop of `update_reactions`, over the affected reactions. -/
def update_affected (pindices : pindices_t) (check_reaction : Bool) :
    List v_desc_t → Network → List priority_t → Nat → Except Err (Network × List priority_t × Nat)
  | [], net, prop, pidx_min => .ok (net, prop, pidx_min)
  | vd :: rest, net, prop, pidx_min =>
    match pindices vd with
    | none => .error Err.OutOfRange
    | some pidx =>
      let pidx_min1 := if pidx < pidx_min then pidx else pidx_min
      let r := refresh_rate net vd check_reaction
      match set_first prop pidx r.1 with
      | .error e => .error e
      | .ok prop1 => update_affected pindices check_reaction rest r.2 prop1 pidx_min1

/-- The second loop of `update_reactions`: `n` more iterations from slot `i` with running `sum`,
reading the cached rate of the reaction of every slot. -/
def update_cumulative (net : Network) : Nat → Nat → reaction_rate_t → List priority_t →
    List priority_t
  | 0, _, _, prop => prop
  | n + 1, i, sum, prop =>
    match prop[i]? with
    | none => prop
    | some p =>
      let sum1 := sum + net.m_rate p.2
      update_cumulative net n (i + 1) sum1 (prop.set i (sum1, p.2))

/-- The function `SSA_Direct::update_reactions`; `fired` is the slot the reference refers to. -/
def update_reactions (s : SSA_Direct) (fired : Nat) (affected_reactions : List v_desc_t)
    (check_reaction : Bool) : Except Err SSA_Direct :=
  match s.m_propensity[fired]? with
  | none => .error Err.UndefinedRead
  | some f =>
    let vd_fired := f.2
    match s.m_pindices vd_fired with
    | none => .error Err.OutOfRange
    | some pidx_min =>
      let r := refresh_rate s.m_net vd_fired check_reaction
      let prop1 := s.m_propensity.set fired (r.1, vd_fired)
      match update_affected s.m_pindices check_reaction affected_reactions r.2 prop1 pidx_min with
      | .error e => .error e
      | .ok (net2, prop2, pidx_min2) =>
        let sum_opt : Option reaction_rate_t :=
          if pidx_min2 > 0 then (prop2[pidx_min2 - 1]?).map Prod.fst else some 0
        match sum_opt with
        | none => .error Err.OutOfRange
        | some sum =>
          .ok { s with
            m_net := net2
            m_propensity :=
              update_cumulative net2 (prop2.length - pidx_min2) pidx_min2 sum prop2 }

/-! ## `SSA_Direct`: the scheduler -/

/-- The function `SSA_Direct::save_rgen_state`: the digest receives the state of the event
engine followed by the state of the time engine. -/
def save_rgen_state (s : SSA_Direct) (digest : Sim_State_Change) : Sim_State_Change :=
  { digest with m_rng_state := [s.m_rgen_evt, s.m_rgen_tm] }

/-- The function `SSA_Direct::load_rgen_state`: both engines are read back from the digest, in
the order they were written; an engine for which the digest holds no state is left as it is. -/
def load_rgen_state (s : SSA_Direct) (digest : Sim_State_Change) : SSA_Direct :=
  match digest.m_rng_state with
  | e :: t :: _ => { s with m_rgen_evt := e, m_rgen_tm := t }
  | [e] => { s with m_rgen_evt := e }
  | [] => s

/-- The function `SSA_Direct::init`, applied to a scheduler just constructed on `net_ptr`. -/
def init (cfg : Config) (net_ptr : Option Network) (max_iter : sim_iter_t)
    (max_time : sim_time_t) (rng_seed : Nat) : Except Err SSA_Direct :=
  match net_ptr with
  | none => .error Err.InvalidNetwork
  | some net =>
    let s0 : SSA_Direct :=
      { m_net := net
        m_max_iter := max_iter
        m_max_time := max_time
        m_sim_iter := 0
        m_sim_time := 0
        m_propensity := []
        m_pindices := fun _ => none
        m_rgen_evt := if rng_seed = 0 then cfg.entropy_evt else cfg.seed_seq 1 rng_seed
        m_rgen_tm := if rng_seed = 0 then cfg.entropy_tm else cfg.seed_seq 2 rng_seed
        m_digests := []
        m_recorded := [] }
    let s1 := build_propensity_list s0
    if cfg.WCS_HAS_ROSS then
      .ok { s1 with
        m_digests := s1.m_digests ++ [{ Sim_State_Change.empty with m_sim_time := s1.m_sim_time }] }
    else .ok s1

/-- The function `SSA_Direct::schedule`: the result, the value left in `next_time` and the
state; `next_time` is the value the caller's variable holds before the call. -/
def schedule (cfg : Config) (s : SSA_Direct) (next_time : sim_time_t) :
    result_t × sim_time_t × SSA_Direct :=
  if s.m_propensity.isEmpty then (result_t.Empty, next_time, s)
  else
    let r := get_reaction_time cfg s
    let dt := r.1
    let next_time1 := s.m_sim_time + dt
    if dt ≥ s.m_net.m_etime_ulimit || next_time1 > s.m_max_time then
      (result_t.Inactive, next_time1, r.2)
    else (result_t.Success, next_time1, r.2)

/-- The function `SSA_Direct::forward`. -/
def forward (cfg : Config) (s : SSA_Direct) (t : sim_time_t) : Except Err (Bool × SSA_Direct) :=
  if s.m_sim_iter ≥ s.m_max_iter || t > s.m_max_time then .ok (false, s)
  else
    let s1 := { s with m_sim_iter := s.m_sim_iter + 1, m_sim_time := t }
    let digest0 :=
      if cfg.WCS_HAS_ROSS then save_rgen_state s1 Sim_State_Change.empty
      else Sim_State_Change.empty
    match choose_reaction cfg s1 with
    | .error e => .error e
    | .ok (firing, s2) =>
      match s2.m_propensity[firing]? with
      | none => .error Err.UndefinedRead
      | some f =>
        let digest1 := { digest0 with m_sim_time := t, m_reaction_fired := f.2 }
        match fire_reaction s2.m_net digest1 with
        | .error e => .error e
        | .ok (net3, digest2) =>
          let s3 := { s2 with m_net := net3 }
          match update_reactions s3 firing digest2.m_reactions_affected true with
          | .error e => .error e
          | .ok s4 =>
            if cfg.WCS_HAS_ROSS then
              .ok (true, { s4 with m_digests := s4.m_digests ++ [digest2] })
            else .ok (true, record s4 f.2)

/-- The function `SSA_Direct::backward` (builds with `WCS_HAS_ROSS`): the value left in `t`
and the state. -/
def backward (s : SSA_Direct) : Except Err (sim_time_t × SSA_Direct) :=
  match s.m_digests.getLast? with
  | none => .error Err.UndefinedRead
  | some digest =>
    let rd_fired := digest.m_reaction_fired
    let s1 := { s with m_net := undo_reaction s.m_net rd_fired }
    match s1.m_pindices rd_fired with
    | none => .error Err.OutOfRange
    | some fired =>
      if fired ≥ s1.m_propensity.length then .error Err.OutOfRange
      else
        match update_reactions s1 fired digest.m_reactions_affected false with
        | .error e => .error e
        | .ok s2 =>
          let t := digest.m_sim_time
          let s3 := load_rgen_state s2 digest
          let s4 := { s3 with m_digests := s3.m_digests.dropLast }
          match s4.m_digests.getLast? with
          | none => .error Err.NoPriorEvent
          | some prior =>
            if s4.m_sim_iter = 0 then .error Err.NoPriorEvent
            else
              .ok (t, { s4 with m_sim_time := prior.m_sim_time, m_sim_iter := s4.m_sim_iter - 1 })

/-- The loop of `record_first_n`: `i` counts the digests recorded, `pos` is the position of the
iterator `it`, the list holds the digests from `it` on. It returns the final position of `it`. -/
def record_first_n_loop (num : sim_iter_t) :
    sim_iter_t → Nat → List Sim_State_Change → SSA_Direct → Nat × SSA_Direct
  | _, pos, [], s => (pos, s)
  | i, pos, d :: ds, s =>
    if i ≥ num then (pos, s)
    else record_first_n_loop num (i + 1) (pos + 1) ds (record_at s d.m_sim_time d.m_reaction_fired)

/-- The function `SSA_Direct::record_first_n` (builds with `WCS_HAS_ROSS`). -/
def record_first_n (s : SSA_Direct) (num : sim_iter_t) : SSA_Direct :=
  if s.m_digests.length < 1 then s
  else
    let r := record_first_n_loop num 0 1 (s.m_digests.drop 1) s
    { r.2 with m_digests := r.2.m_digests.drop (r.1 - 1) }

/-- The loop of `SSA_Direct::run`, for at most `fuel` iterations: the final state and the
number of iterations in which `forward` returned true, or the error raised; `none` when the
loop has not ended after `fuel` iterations. -/
def run_loop (cfg : Config) :
    Nat → SSA_Direct → sim_time_t → Option (Except Err (SSA_Direct × Nat))
  | 0, _, _ => none
  | fuel + 1, s, t =>
    match forward cfg s t with
    | .error e => some (.error e)
    | .ok (false, s1) => some (.ok (s1, 0))
    | .ok (true, s1) =>
      let r := schedule cfg s1 t
      if r.1 ≠ result_t.Success then some (.ok (r.2.2, 1))
      else
        match run_loop cfg fuel r.2.2 r.2.1 with
        | none => none
        | some (.error e) => some (.error e)
        | some (.ok (s2, n)) => some (.ok (s2, n + 1))

/-- The function `SSA_Direct::run` with its loop observed: the final state and the number of
successful `forward` calls. The loop gets one iteration more than `m_max_iter - m_sim_iter`,
within which it always ends. -/
def run_state (cfg : Config) (s : SSA_Direct) : Except Err (SSA_Direct × Nat) :=
  let r := schedule cfg s 0
  if r.1 ≠ result_t.Success then .error Err.NoFirstEvent
  else
    match run_loop cfg (r.2.2.m_max_iter - r.2.2.m_sim_iter + 1) r.2.2 r.2.1 with
    | none => .error Err.OutOfFuel
    | some (.error e) => .error e
    | some (.ok (s1, n)) =>
      if cfg.WCS_HAS_ROSS then .ok (record_first_n s1 s1.m_sim_iter, n) else .ok (s1, n)

/-- The function `SSA_Direct::run`: the pair `(m_sim_iter, m_sim_time)` it returns. -/
def run (cfg : Config) (s : SSA_Direct) : Except Err (sim_iter_t × sim_time_t) :=
  match run_state cfg s with
  | .error e => .error e
  | .ok (s1, _) => .ok (s1.m_sim_iter, s1.m_sim_time)

/-! ## The trajectory recorder (`utils/trajectory.cpp`) -/

abbrev frag_size_t := Nat
abbrev frag_id_t := Nat

/-- Modelled from the spec: the type `frag_size_t` is declared in `utils/trajectory.hpp`, which
is not among the sources; the configuration gives `frag_size: u32` and the callers in
`sim_method.hpp` pass an `unsigned`. This is `std::numeric_limits<frag_size_t>::max()`. -/
def frag_size_max : frag_size_t := 2 ^ 32 - 1

/-- The build option and the external function that `Trajectory::set_outfile` consumes. -/
structure Trajectory_Config where
  /-- Whether the build defines `WCS_HAS_CEREAL` (fragment support). -/
  WCS_HAS_CEREAL : Bool
  /-- Modelled from the spec: `extract_file_component` of `utils/file.hpp` (not among the
  sources) splits a path into `(parent_dir, stem, extension)`. -/
  extract_file_component : String → String × String × String

/-- The members of `Trajectory` that do not refer to the network. -/
structure Trajectory where
  m_outfile_stem : String
  m_outfile_ext : String
  m_frag_size : frag_size_t
  m_cur_frag_id : frag_id_t
  m_cur_record_in_frag : frag_size_t
  m_num_steps : Nat
  deriving DecidableEq

namespace Trajectory

/-- The constructor `Trajectory::Trajectory(net_ptr)`. -/
def construct (net_ptr : Option Network) : Except Err Trajectory :=
  match net_ptr with
  | none => .error Err.InvalidNetwork
  | some _ =>
    .ok { m_outfile_stem := ""
          m_outfile_ext := ""
          m_frag_size := 0
          m_cur_frag_id := 0
          m_cur_record_in_frag := 0
          m_num_steps := 0 }

/-- The function `Trajectory::set_outfile`. -/
def set_outfile (b : Trajectory_Config) (tr : Trajectory) (outfile : String)
    (frag_size : frag_size_t) : Except Err Trajectory :=
  let c := b.extract_file_component outfile
  let tr1 := { tr with m_outfile_stem := c.1 ++ c.2.1, m_outfile_ext := c.2.2 }
  let r : Except Err Trajectory :=
    if b.WCS_HAS_CEREAL then
      .ok { tr1 with m_frag_size := if outfile = "" then 0 else frag_size }
    else if frag_size > 0 then .error Err.CerealRequired
    else .ok { tr1 with m_frag_size := 0 }
  match r with
  | .error e => .error e
  | .ok tr2 =>
    if tr2.m_frag_size = frag_size_max then .error Err.InvalidFragmentSize
    else if tr2.m_frag_size = 0 then .ok { tr2 with m_frag_size := frag_size_max }
    else .ok tr2

/-- The function `Trajectory::flush` of the base class. -/
def flush (tr : Trajectory) : Trajectory :=
  { tr with m_cur_record_in_frag := 0 }

end Trajectory

/-! ## Statement vocabulary -/

/-- The cumulative value of the slot before slot `i` (`entry[i-1].first`, with `entry[-1] = 0`). -/
def prev_first (prop : List priority_t) (i : Nat) : reaction_rate_t :=
  match i with
  | 0 => 0
  | j + 1 =>
    match prop[j]? with
    | some p => p.1
    | none => 0

/-- The cumulative-propensity invariant: every slot holds the cumulative value of the slot
before it plus the rate `rate` gives to its reaction. -/
def slot_invariant (rate : v_desc_t → reaction_rate_t) (prop : List priority_t) : Prop :=
  ∀ i p, prop[i]? = some p → p.1 = prev_first prop i + rate p.2

/-- The invariant of `slot_invariant`, by recursion along the vector from a previous value. -/
def cumulative_from (rate : v_desc_t → reaction_rate_t) :
    reaction_rate_t → List priority_t → Prop
  | _, [] => True
  | prev, p :: ps => p.1 = prev + rate p.2 ∧ cumulative_from rate p.1 ps

/-- The vector the second loop of `update_reactions` writes over a segment. -/
def recumulate (rate : v_desc_t → reaction_rate_t) :
    reaction_rate_t → List priority_t → List priority_t
  | _, [] => []
  | sum, p :: ps => (sum + rate p.2, p.2) :: recumulate rate (sum + rate p.2) ps

/-- The cumulative value of the last slot of a segment, or `prev` for an empty segment. -/
def last_first : reaction_rate_t → List priority_t → reaction_rate_t
  | prev, [] => prev
  | _, p :: ps => last_first p.1 ps

/-- The reverse map agrees with the slot order: the reaction of every slot is mapped to a slot
that is not after it (to that very slot when no reaction occupies two slots), and every value
of the map is a slot of the vector. It is what `build_propensity_list` establishes. -/
def pindices_consistent (s : SSA_Direct) : Prop :=
  (∀ (i : Nat) (p : priority_t), s.m_propensity[i]? = some p →
    ∃ j, s.m_pindices p.2 = some j ∧ j ≤ i) ∧
  (∀ vd i, s.m_pindices vd = some i → i < s.m_propensity.length)

/-! ## A concrete network -/

/-- A network of two species `A = 0`, `B = 1` and two reactions: reaction `0` is `A → ∅` with
rate `[A]`, reaction `1` is `B → A` with rate `[B]`. Both counts are `1` and the cached rates
are the rate laws at these counts. A firing of reaction `1` affects reaction `0`. -/
def net_AB : Network :=
  { m_reactions := [0, 1]
    reactants := fun r => if r = 0 then [(0, 1)] else if r = 1 then [(1, 1)] else []
    products := fun r => if r = 1 then [(0, 1)] else []
    affected := fun r => if r = 1 then [0] else []
    evaluate := fun r c => if r = 0 then (c 0 : ℚ) else if r = 1 then (c 1 : ℚ) else 0
    m_etime_ulimit := 1000000
    count := fun sp => if sp = 0 then 1 else if sp = 1 then 1 else 0
    m_rate := fun r => if r = 0 then 1 else if r = 1 then 1 else 0 }

/-- A build with rollback digests whose generators draw `1/4` first and `3/4` afterwards. -/
def cfg_ross : Config :=
  { WCS_HAS_ROSS := true
    uniform := fun e => (if e = 0 then 1 / 4 else 3 / 4, e + 1)
    log := fun _ => -1
    seed_seq := fun _ _ => 0
    entropy_evt := 0
    entropy_tm := 0 }

/-- The scheduler on `net_AB` as `init` leaves it (10 iterations, time limit 100). -/
def state_AB : SSA_Direct :=
  { m_net := net_AB
    m_max_iter := 10
    m_max_time := 100
    m_sim_iter := 0
    m_sim_time := 0
    m_propensity := [(1, 0), (2, 1)]
    m_pindices := fun vd => if vd = 0 then some 0 else if vd = 1 then some 1 else none
    m_rgen_evt := 0
    m_rgen_tm := 0
    m_digests := [{ Sim_State_Change.empty with m_sim_time := 0 }]
    m_recorded := [] }

/-! ## Sequences of calls and reachable states -/

/-- Two networks that differ at most in the cached rates. -/
def rates_only (net net2 : Network) : Prop :=
  net2 = { net with m_rate := net2.m_rate }

/-- The calls `forward(t)` for the times of a list, in order, each of which returns true. -/
def forward_seq (cfg : Config) : List sim_time_t → SSA_Direct → Option SSA_Direct
  | [], s => some s
  | t :: ts, s =>
    match forward cfg s t with
    | .ok (true, s1) => forward_seq cfg ts s1
    | _ => none

/-- The call `backward(t)` made `k` times in a row. -/
def backward_seq : Nat → SSA_Direct → Except Err SSA_Direct
  | 0, s => .ok s
  | k + 1, s =>
    match backward s with
    | .error e => .error e
    | .ok (_, s1) => backward_seq k s1

/-- The states a scheduler goes through: the state `init` leaves, and the states that
`schedule`, `forward` and (in a build with `WCS_HAS_ROSS`) `backward` and `record_first_n`
leave when they return. -/
inductive Reachable (cfg : Config) : SSA_Direct → Prop where
  | init (net_ptr : Option Network) (max_iter : sim_iter_t) (max_time : sim_time_t)
      (rng_seed : Nat) (s : SSA_Direct) :
      init cfg net_ptr max_iter max_time rng_seed = .ok s → Reachable cfg s
  | schedule (s : SSA_Direct) (next_time : sim_time_t) :
      Reachable cfg s → Reachable cfg (schedule cfg s next_time).2.2
  | forward (s s1 : SSA_Direct) (t : sim_time_t) (b : Bool) :
      Reachable cfg s → forward cfg s t = .ok (b, s1) → Reachable cfg s1
  | backward (s s1 : SSA_Direct) (t : sim_time_t) :
      cfg.WCS_HAS_ROSS = true → Reachable cfg s → backward s = .ok (t, s1) → Reachable cfg s1
  | record_first_n (s : SSA_Direct) (num : sim_iter_t) :
      cfg.WCS_HAS_ROSS = true → Reachable cfg s → Reachable cfg (record_first_n s num)

/-- A call of the scheduler other than `backward`. -/
inductive Call where
  | schedule
  | forward (t : sim_time_t)
  | record_first_n (num : sim_iter_t)

/-- A sequence of calls made in order from a state: the final state and the number of
`forward` calls that returned true. -/
def run_calls (cfg : Config) : List Call → SSA_Direct → Except Err (SSA_Direct × Nat)
  | [], s => .ok (s, 0)
  | Call.schedule :: cs, s => run_calls cfg cs (schedule cfg s 0).2.2
  | Call.record_first_n num :: cs, s => run_calls cfg cs (record_first_n s num)
  | Call.forward t :: cs, s =>
    match forward cfg s t with
    | .error e => .error e
    | .ok (b, s1) =>
      match run_calls cfg cs s1 with
      | .error e => .error e
      | .ok (s2, n) => .ok (s2, n + (if b then 1 else 0))

/-- An entry of the digest list that `backward` can undo: the fired reaction and the affected
reactions are keys of the reverse map, and both generator states were saved. -/
def undoable (pindices : pindices_t) (d : Sim_State_Change) : Prop :=
  pindices d.m_reaction_fired ≠ none ∧
  (∀ vd ∈ d.m_reactions_affected, pindices vd ≠ none) ∧
  ∃ e t, d.m_rng_state = [e, t]

/-- The reverse map fits a list of handles by slot: every value of the map is a slot and
every handle of the list is a key. -/
def map_ok (pindices : pindices_t) (handles : List v_desc_t) : Prop :=
  (∀ vd i, pindices vd = some i → i < handles.length) ∧
  (∀ vd ∈ handles, pindices vd ≠ none)

/-- The facts about the reverse map and the digest list that hold in every reachable state of
a build with `WCS_HAS_ROSS`: the reverse map fits the handles of the propensity vector, and
the digest list ends with a digest that holds the current time. -/
def well_formed (s : SSA_Direct) : Prop :=
  map_ok s.m_pindices (s.m_propensity.map Prod.snd) ∧
  ∃ d, s.m_digests.getLast? = some d ∧ d.m_sim_time = s.m_sim_time

/-! ## Concrete runs -/

/-- The state `init` leaves on `net_AB` (10 iterations, time limit 100, seed 1). -/
def init_AB : SSA_Direct :=
  match init cfg_ross (some net_AB) 10 100 1 with
  | .ok s => s
  | .error _ => state_AB

/-- The state after `forward(1)` from `init_AB`: reaction `0` has fired. -/
def fwd1_AB : SSA_Direct :=
  match forward cfg_ross init_AB 1 with
  | .ok (_, s) => s
  | .error _ => init_AB

/-- The state after `forward(2)` from `fwd1_AB`: reaction `1` has fired. -/
def fwd2_AB : SSA_Direct :=
  match forward cfg_ross fwd1_AB 2 with
  | .ok (_, s) => s
  | .error _ => fwd1_AB

/-- The state after `backward` from `fwd2_AB`. -/
def bwd_AB : SSA_Direct :=
  match backward fwd2_AB with
  | .ok (_, s) => s
  | .error _ => fwd2_AB

/-- A network of one species `A = 0` with count `1` and one reaction `0`, the decay `A → ∅`
with rate `[A]`; the cached rate is the rate law at the initial count. -/
def net_A : Network :=
  { m_reactions := [0]
    reactants := fun r => if r = 0 then [(0, 1)] else []
    products := fun _ => []
    affected := fun _ => []
    evaluate := fun r c => if r = 0 then (c 0 : ℚ) else 0
    m_etime_ulimit := 1000000
    count := fun sp => if sp = 0 then 1 else 0
    m_rate := fun r => if r = 0 then 1 else 0 }

/-- The state `init` leaves on `net_A` (10 iterations, time limit 100, seed 1). -/
def init_A : SSA_Direct :=
  match init cfg_ross (some net_A) 10 100 1 with
  | .ok s => s
  | .error _ => state_AB

/-- The state after `forward(1)` from `init_A`: the decay has fired and `A` is exhausted. -/
def fwd1_A : SSA_Direct :=
  match forward cfg_ross init_A 1 with
  | .ok (_, s) => s
  | .error _ => init_A

/-- The state `init` leaves on `net_AB` with a limit of one iteration. -/
def init_AB_one : SSA_Direct :=
  match init cfg_ross (some net_AB) 1 100 1 with
  | .ok s => s
  | .error _ => state_AB

/-- The state `run` leaves from `init_AB_one`. -/
def run_AB_one : SSA_Direct :=
  match run_state cfg_ross init_AB_one with
  | .ok (s, _) => s
  | .error _ => init_AB_one

/-- The state after `forward(1/2)` from `fwd1_AB`, whose time is `1`. -/
def fwd_early_AB : SSA_Direct :=
  match forward cfg_ross fwd1_AB (1 / 2) with
  | .ok (_, s) => s
  | .error _ => fwd1_AB

/-- The decay network `net_A` once `A` is exhausted and the cached rate is `0`. -/
def net_A_spent : Network :=
  { net_A with count := fun _ => 0, m_rate := fun _ => 0 }

/-- A scheduler on `net_A_spent`: one slot, whose cumulative value is `0`. -/
def state_spent : SSA_Direct :=
  { state_AB with
    m_net := net_A_spent
    m_propensity := [(0, 0)]
    m_pindices := fun vd => if vd = 0 then some 0 else none }

/-- A network without reactions. -/
def net_empty : Network :=
  { net_A with m_reactions := [] }

/-- The state `init` leaves on `net_empty` (10 iterations, time limit 100, seed 1). -/
def init_empty : SSA_Direct :=
  match init cfg_ross (some net_empty) 10 100 1 with
  | .ok s => s
  | .error _ => state_AB

/-- The state `init` leaves on `net_AB` with `max_iter = 0`. -/
def init_AB_zero : SSA_Direct :=
  match init cfg_ross (some net_AB) 0 100 1 with
  | .ok s => s
  | .error _ => state_AB

/-- The facts about the digest list that hold in every reachable state of a build with
`WCS_HAS_ROSS`: the list is not empty, every digest after the first can be undone, and the
list has at most one digest more than `sim_iter`. -/
def digests_ok (s : SSA_Direct) : Prop :=
  s.m_digests ≠ [] ∧
  (∀ d ∈ s.m_digests.drop 1, undoable s.m_pindices d) ∧
  s.m_digests.length ≤ s.m_sim_iter + 1

/-- The calls of `forward` that the loop of `run` makes within `fuel` iterations, in order:
the state before each call and the time passed to it. -/
def run_loop_calls (cfg : Config) : Nat → SSA_Direct → sim_time_t → List (SSA_Direct × sim_time_t)
  | 0, _, _ => []
  | fuel + 1, s, t =>
    (s, t) ::
      (match forward cfg s t with
      | .ok (true, s1) =>
        if (schedule cfg s1 t).1 ≠ result_t.Success then []
        else run_loop_calls cfg fuel (schedule cfg s1 t).2.2 (schedule cfg s1 t).2.1
      | _ => [])

/-- The build `cfg_ross` on a platform whose entropy source gives other engine states. -/
def cfg_ross_alt : Config :=
  { cfg_ross with entropy_evt := 7, entropy_tm := 9 }

/-- A build with fragment support (`WCS_HAS_CEREAL`) whose path splitter takes the whole path
as the stem. -/
def traj_cereal : Trajectory_Config :=
  { WCS_HAS_CEREAL := true, extract_file_component := fun p => ("", p, "") }

/-- A recorder as its constructor leaves it. -/
def traj_new : Trajectory :=
  { m_outfile_stem := "", m_outfile_ext := "", m_frag_size := 0, m_cur_frag_id := 0,
    m_cur_record_in_frag := 0, m_num_steps := 0 }

/-- The scheduler `state_AB` on the network `net_AB` once `A` is exhausted: the count of `A` is
`0` while the cached rate of reaction `0` (`A → ∅`) is still `1`. -/
def state_AB_noA : SSA_Direct :=
  { state_AB with m_net := { net_AB with count := fun sp => if sp = 1 then 1 else 0 } }

/-- The cumulative values of a propensity vector are non-decreasing in the slot index. -/
def cumulative_monotone (prop : List priority_t) : Prop :=
  ∀ (i j : Nat) (p q : priority_t), i ≤ j → prop[i]? = some p → prop[j]? = some q → p.1 ≤ q.1

theorem stable_insert_perm {α : Type} (lt : α → α → Bool) (x : α) (l : List α) :
    (stable_insert lt x l).Perm (x :: l) := by
  induction l with
  | nil => simp [stable_insert]
  | cons y ys ih =>
    simp only [stable_insert]
    split
    · exact (List.Perm.cons y ih).trans (List.Perm.swap x y ys)
    · exact List.Perm.refl _

theorem stable_sort_perm {α : Type} (lt : α → α → Bool) (l : List α) :
    (stable_sort lt l).Perm l := by
  induction l with
  | nil => simp [stable_sort]
  | cons x xs ih =>
    simp only [stable_sort]
    exact (stable_insert_perm lt x _).trans (List.Perm.cons x ih)

theorem cumulate_snd (l : List priority_t) :
    ∀ (sum : reaction_rate_t) (i : Nat) (pidx : pindices_t),
      (cumulate sum i l pidx).1.map Prod.snd = l.map Prod.snd := by
  induction l with
  | nil => intro sum i pidx; simp [cumulate]
  | cons p ps ih => intro sum i pidx; simp [cumulate, ih]

theorem cumulate_length (l : List priority_t) (sum : reaction_rate_t) (i : Nat)
    (pidx : pindices_t) : (cumulate sum i l pidx).1.length = l.length := by
  have h := congrArg List.length (cumulate_snd l sum i pidx)
  simpa using h

theorem cumulate_first (l : List priority_t) :
    ∀ (sum : reaction_rate_t) (i : Nat) (pidx : pindices_t) (j : Nat) (p : priority_t),
      (cumulate sum i l pidx).1[j]? = some p →
        p.1 = sum + ((l.take (j + 1)).map Prod.fst).sum := by
  induction l with
  | nil => intro sum i pidx j p h; simp [cumulate] at h
  | cons q qs ih =>
    intro sum i pidx j p h
    cases j with
    | zero =>
      simp [cumulate] at h
      subst h
      simp
    | succ j =>
      simp only [cumulate, List.getElem?_cons_succ] at h
      have := ih _ _ _ j p h
      rw [this]
      simp [List.take_succ_cons, add_assoc]

theorem map_rate_take (rate : v_desc_t → reaction_rate_t) (l1 l2 : List priority_t) (n : Nat)
    (h : l1.map Prod.snd = l2.map Prod.snd) :
    (l1.take n).map (fun q => rate q.2) = (l2.take n).map (fun q => rate q.2) := by
  have key : ∀ l : List priority_t,
      (l.take n).map (fun q => rate q.2) = ((l.map Prod.snd).take n).map rate := by
    intro l
    rw [← List.map_take, List.map_map]
    rfl
  rw [key l1, key l2, h]

/-- C2: after `build_propensity_list`, the first field of every slot `i` is the sum of the
cached rates (`get_reaction_rate` at build time) of the reactions at slots `0..i`, and the
vector has one entry per handle of `reaction_list` (its handles are a permutation of it). -/
theorem build_propensity_list_cumulative (s : SSA_Direct) :
    (build_propensity_list s).m_propensity.length = s.m_net.m_reactions.length ∧
    ((build_propensity_list s).m_propensity.map Prod.snd).Perm s.m_net.m_reactions ∧
    ∀ i p, (build_propensity_list s).m_propensity[i]? = some p →
      p.1 = (((build_propensity_list s).m_propensity.take (i + 1)).map
              (fun q => s.m_net.get_reaction_rate q.2)).sum := by
  have hperm := stable_sort_perm less
    (s.m_net.m_reactions.map (fun vd => (s.m_net.get_reaction_rate vd, vd)))
  have hmem : ∀ q ∈ stable_sort less
      (s.m_net.m_reactions.map (fun vd => (s.m_net.get_reaction_rate vd, vd))),
      q.1 = s.m_net.get_reaction_rate q.2 := by
    intro q hq
    have hq1 := hperm.subset hq
    simp only [List.mem_map] at hq1
    obtain ⟨vd, _, rfl⟩ := hq1
    rfl
  have hsnd := cumulate_snd (stable_sort less
    (s.m_net.m_reactions.map (fun vd => (s.m_net.get_reaction_rate vd, vd)))) 0 0 (fun _ => none)
  have hhandles : ((build_propensity_list s).m_propensity.map Prod.snd).Perm
      s.m_net.m_reactions := by
    simp only [build_propensity_list]
    rw [hsnd]
    have h1 := hperm.map Prod.snd
    simpa [List.map_map, Function.comp_def] using h1
  refine ⟨?_, hhandles, ?_⟩
  · simpa using hhandles.length_eq
  · intro i p hp
    simp only [build_propensity_list] at hp ⊢
    have h1 := cumulate_first _ 0 0 (fun _ => none) i p hp
    rw [h1, zero_add]
    rw [map_rate_take s.m_net.get_reaction_rate _ _ (i + 1) hsnd]
    apply congrArg
    apply List.map_congr_left
    intro q hq
    exact hmem q (List.mem_of_mem_take hq)

/-! ## Lemmas on the cumulative invariant -/

theorem take_set_of_le {α : Type} (l : List α) (a : α) {m n : Nat} (h : m ≤ n) :
    (l.set n a).take m = l.take m := by
  rw [List.set_take]
  exact List.set_eq_of_length_le (by simp; omega)

theorem set_self_of_getElem? {α : Type} (l : List α) (i : Nat) (a : α) (h : l[i]? = some a) :
    l.set i a = l := by
  apply List.ext_getElem?
  intro j
  rw [List.getElem?_set]
  by_cases hij : i = j
  · subst hij
    have hlt : i < l.length := by
      by_contra hc
      rw [List.getElem?_eq_none (by omega)] at h
      exact Option.noConfusion h
    simp [hlt, h]
  · simp [hij]

theorem last_first_of_getLast? (l : List priority_t) :
    ∀ (prev : reaction_rate_t) (b : priority_t), l.getLast? = some b → last_first prev l = b.1 := by
  induction l with
  | nil => intro prev b h; simp at h
  | cons p ps ih =>
    intro prev b h
    cases ps with
    | nil =>
      simp at h
      subst h
      rfl
    | cons q qs =>
      rw [List.getLast?_cons_cons] at h
      exact ih p.1 b h

theorem last_first_take (l : List priority_t) :
    ∀ (n : Nat) (prev : reaction_rate_t) (p : priority_t),
      l[n]? = some p → last_first prev (l.take (n + 1)) = p.1 := by
  induction l with
  | nil => intro n prev p h; simp at h
  | cons q qs ih =>
    intro n prev p h
    cases n with
    | zero =>
      simp at h
      subst h
      simp [last_first]
    | succ m =>
      simp only [List.getElem?_cons_succ] at h
      simp only [List.take_succ_cons, last_first]
      exact ih m q.1 p h

theorem cumulative_from_append (rate : v_desc_t → reaction_rate_t) (l1 l2 : List priority_t) :
    ∀ prev : reaction_rate_t,
      cumulative_from rate prev (l1 ++ l2) ↔
        cumulative_from rate prev l1 ∧ cumulative_from rate (last_first prev l1) l2 := by
  induction l1 with
  | nil => intro prev; simp [cumulative_from, last_first]
  | cons p ps ih =>
    intro prev
    show (p.1 = prev + rate p.2 ∧ cumulative_from rate p.1 (ps ++ l2)) ↔ _
    simp only [cumulative_from, last_first, ih p.1, and_assoc]

theorem cumulative_from_recumulate (rate : v_desc_t → reaction_rate_t) (l : List priority_t) :
    ∀ sum : reaction_rate_t, cumulative_from rate sum (recumulate rate sum l) := by
  induction l with
  | nil => intro sum; simp [recumulate, cumulative_from]
  | cons p ps ih => intro sum; simp [recumulate, cumulative_from, ih]

theorem recumulate_snd (rate : v_desc_t → reaction_rate_t) (l : List priority_t) :
    ∀ sum : reaction_rate_t, (recumulate rate sum l).map Prod.snd = l.map Prod.snd := by
  induction l with
  | nil => intro sum; simp [recumulate]
  | cons p ps ih => intro sum; simp [recumulate, ih]

theorem cumulative_from_congr (rate rate1 : v_desc_t → reaction_rate_t) (l : List priority_t) :
    ∀ prev : reaction_rate_t, (∀ p ∈ l, rate p.2 = rate1 p.2) →
      cumulative_from rate prev l → cumulative_from rate1 prev l := by
  induction l with
  | nil => intro prev _ _; trivial
  | cons p ps ih =>
    intro prev hr h
    simp only [cumulative_from] at h ⊢
    refine ⟨?_, ih p.1 (fun q hq => hr q (List.mem_cons_of_mem p hq)) h.2⟩
    rw [← hr p (List.mem_cons_self p ps)]
    exact h.1

theorem cumulative_from_total (rate : v_desc_t → reaction_rate_t) (l : List priority_t) :
    ∀ prev : reaction_rate_t, cumulative_from rate prev l →
      last_first prev l = prev + (l.map (fun p => rate p.2)).sum := by
  induction l with
  | nil => intro prev _; simp [last_first]
  | cons p ps ih =>
    intro prev h
    simp only [cumulative_from] at h
    simp only [last_first, List.map_cons, List.sum_cons]
    rw [ih p.1 h.2, h.1, add_assoc]

theorem cumulative_from_iff_index (rate : v_desc_t → reaction_rate_t) (l : List priority_t) :
    ∀ prev : reaction_rate_t,
      cumulative_from rate prev l ↔
        (∀ p, l[0]? = some p → p.1 = prev + rate p.2) ∧
        (∀ i p, l[i + 1]? = some p → p.1 = prev_first l (i + 1) + rate p.2) := by
  induction l with
  | nil => intro prev; simp [cumulative_from]
  | cons q qs ih =>
    intro prev
    simp only [cumulative_from, ih q.1]
    constructor
    · rintro ⟨h0, h1, h2⟩
      refine ⟨?_, ?_⟩
      · intro p hp
        simp at hp
        subst hp
        exact h0
      · intro i p hp
        simp only [List.getElem?_cons_succ] at hp
        cases i with
        | zero => simpa [prev_first] using h1 p hp
        | succ j => simpa [prev_first] using h2 j p hp
    · rintro ⟨h0, h1⟩
      refine ⟨h0 q (by simp), ?_, ?_⟩
      · intro p hp
        have := h1 0 p (by simpa using hp)
        simpa [prev_first] using this
      · intro i p hp
        have := h1 (i + 1) p (by simpa using hp)
        simpa [prev_first] using this

theorem slot_invariant_iff (rate : v_desc_t → reaction_rate_t) (prop : List priority_t) :
    slot_invariant rate prop ↔ cumulative_from rate 0 prop := by
  rw [cumulative_from_iff_index]
  constructor
  · intro h
    exact ⟨fun p hp => by simpa [prev_first] using h 0 p hp, fun i p hp => h (i + 1) p hp⟩
  · rintro ⟨h0, h1⟩ i p hp
    cases i with
    | zero => simpa [prev_first] using h0 p hp
    | succ j => exact h1 j p hp

/-! ## Lemmas on `update_reactions` -/

theorem update_cumulative_append (net : Network) (l2 : List priority_t) :
    ∀ (l1 : List priority_t) (sum : reaction_rate_t),
      update_cumulative net l2.length l1.length sum (l1 ++ l2)
        = l1 ++ recumulate net.m_rate sum l2 := by
  induction l2 with
  | nil => intro l1 sum; simp [update_cumulative, recumulate]
  | cons p ps ih =>
    intro l1 sum
    have hget : (l1 ++ p :: ps)[l1.length]? = some p := by
      rw [List.getElem?_append_right (Nat.le_refl _)]
      simp
    have hset : (l1 ++ p :: ps).set l1.length (sum + net.m_rate p.2, p.2)
        = (l1 ++ [(sum + net.m_rate p.2, p.2)]) ++ ps := by simp
    simp only [List.length_cons, update_cumulative, hget]
    rw [hset]
    have h := ih (l1 ++ [(sum + net.m_rate p.2, p.2)]) (sum + net.m_rate p.2)
    simp only [List.length_append, List.length_singleton] at h
    rw [h]
    simp [recumulate]

theorem update_cumulative_eq (net : Network) (prop : List priority_t) (i : Nat)
    (sum : reaction_rate_t) (h : i ≤ prop.length) :
    update_cumulative net (prop.length - i) i sum prop
      = prop.take i ++ recumulate net.m_rate sum (prop.drop i) := by
  have h1 := update_cumulative_append net (prop.drop i) (prop.take i) sum
  simpa [List.length_take, List.length_drop, Nat.min_eq_left h] using h1

theorem refresh_rate_rate_ne (net : Network) (vd : v_desc_t) (check : Bool) (h : v_desc_t)
    (hne : h ≠ vd) : (refresh_rate net vd check).2.m_rate h = net.m_rate h := by
  unfold refresh_rate
  split
  · rfl
  · simp [Network.set_reaction_rate, Function.update, hne]

theorem set_first_ok (prop : List priority_t) (i : Nat) (x : reaction_rate_t)
    (h : i < prop.length) :
    ∃ p, prop[i]? = some p ∧ set_first prop i x = .ok (prop.set i (x, p.2)) := by
  refine ⟨prop[i], List.getElem?_eq_getElem h, ?_⟩
  simp [set_first, List.getElem?_eq_getElem h]

theorem map_snd_set_same (prop : List priority_t) (i : Nat) (x : reaction_rate_t)
    (p : priority_t) (h : prop[i]? = some p) :
    (prop.set i (x, p.2)).map Prod.snd = prop.map Prod.snd := by
  rw [List.map_set]
  apply set_self_of_getElem?
  simp [h]

theorem update_affected_spec (pindices : pindices_t) (check : Bool) (prop0 : List priority_t)
    (rate0 : v_desc_t → reaction_rate_t)
    (hrange : ∀ vd i, pindices vd = some i → i < prop0.length) :
    ∀ (affected : List v_desc_t) (net : Network) (prop : List priority_t) (pm : Nat),
      (∀ vd ∈ affected, pindices vd ≠ none) →
      prop.map Prod.snd = prop0.map Prod.snd →
      prop.take pm = prop0.take pm →
      (∀ h, net.m_rate h ≠ rate0 h → ∃ i, pindices h = some i ∧ pm ≤ i) →
      pm < prop0.length →
      ∃ net2 prop2 pm2,
        update_affected pindices check affected net prop pm = .ok (net2, prop2, pm2) ∧
        prop2.map Prod.snd = prop0.map Prod.snd ∧
        prop2.take pm2 = prop0.take pm2 ∧
        (∀ h, net2.m_rate h ≠ rate0 h → ∃ i, pindices h = some i ∧ pm2 ≤ i) ∧
        pm2 < prop0.length := by
  intro affected
  induction affected with
  | nil =>
    intro net prop pm _ hsnd htake hrate hpm
    exact ⟨net, prop, pm, rfl, hsnd, htake, hrate, hpm⟩
  | cons vd rest ih =>
    intro net prop pm haff hsnd htake hrate hpm
    have hvd := haff vd (List.mem_cons_self vd rest)
    obtain ⟨pidx, hpidx⟩ := Option.ne_none_iff_exists'.mp hvd
    have hlt0 : pidx < prop0.length := hrange vd pidx hpidx
    have hlen : prop.length = prop0.length := by
      have := congrArg List.length hsnd
      simpa using this
    obtain ⟨p, hp, hset⟩ := set_first_ok prop pidx (refresh_rate net vd check).1 (by omega)
    have hmin : (if pidx < pm then pidx else pm) ≤ pidx := by split <;> omega
    have hmin2 : (if pidx < pm then pidx else pm) ≤ pm := by split <;> omega
    have step := ih (refresh_rate net vd check).2
      (prop.set pidx ((refresh_rate net vd check).1, p.2)) (if pidx < pm then pidx else pm)
      (fun w hw => haff w (List.mem_cons_of_mem vd hw))
      ((map_snd_set_same prop pidx _ p hp).trans hsnd)
      (by
        rw [take_set_of_le _ _ hmin]
        have h1 := congrArg (List.take (if pidx < pm then pidx else pm)) htake
        simpa [List.take_take, Nat.min_eq_left hmin2] using h1)
      (by
        intro h hh
        by_cases hv : h = vd
        · subst hv
          exact ⟨pidx, hpidx, hmin⟩
        · rw [refresh_rate_rate_ne net vd check h hv] at hh
          obtain ⟨i, hi, hle⟩ := hrate h hh
          exact ⟨i, hi, le_trans hmin2 hle⟩)
      (by split <;> omega)
    obtain ⟨net2, prop2, pm2, hrun, hrest⟩ := step
    refine ⟨net2, prop2, pm2, ?_, hrest⟩
    simp only [update_affected, hpidx, hset]
    exact hrun

theorem mem_take_getElem? {α : Type} (l : List α) (n : Nat) (a : α) (h : a ∈ l.take n) :
    ∃ j, j < n ∧ l[j]? = some a := by
  obtain ⟨j, hj⟩ := List.mem_iff_getElem?.mp h
  rw [List.getElem?_take] at hj
  split at hj
  · rename_i hlt
    exact ⟨j, hlt, hj⟩
  · exact Option.noConfusion hj

/-- The propensity vector `update_reactions` leaves: the slots before the least touched slot
`pm` are kept and the others are rewritten from the cached rates. -/
theorem update_reactions_run (s : SSA_Direct) (fired : Nat) (affected : List v_desc_t)
    (check : Bool) (hmap : pindices_consistent s) (hfired : fired < s.m_propensity.length)
    (haff : ∀ vd ∈ affected, s.m_pindices vd ≠ none) :
    ∃ (net2 : Network) (prop2 : List priority_t) (pm : Nat) (sum : reaction_rate_t),
      update_reactions s fired affected check = .ok { s with
        m_net := net2
        m_propensity := prop2.take pm ++ recumulate net2.m_rate sum (prop2.drop pm) } ∧
      prop2.map Prod.snd = s.m_propensity.map Prod.snd ∧
      prop2.take pm = s.m_propensity.take pm ∧
      (∀ h, net2.m_rate h ≠ s.m_net.m_rate h → ∃ i, s.m_pindices h = some i ∧ pm ≤ i) ∧
      pm < s.m_propensity.length ∧
      sum = last_first 0 (prop2.take pm) := by
  obtain ⟨hslot, hrange⟩ := hmap
  have hf : s.m_propensity[fired]? = some s.m_propensity[fired] := List.getElem?_eq_getElem hfired
  obtain ⟨pm0, hpf, hpm0⟩ := hslot fired _ hf
  obtain ⟨net2, prop2, pm, hrun, hsnd, htake, hrate, hpm⟩ :=
    update_affected_spec s.m_pindices check s.m_propensity s.m_net.m_rate hrange affected
      (refresh_rate s.m_net s.m_propensity[fired].2 check).2
      (s.m_propensity.set fired
        ((refresh_rate s.m_net s.m_propensity[fired].2 check).1, s.m_propensity[fired].2))
      pm0 haff (map_snd_set_same _ _ _ _ hf) (take_set_of_le _ _ hpm0)
      (by
        intro h hh
        by_cases hv : h = s.m_propensity[fired].2
        · subst hv
          exact ⟨pm0, hpf, Nat.le_refl _⟩
        · rw [refresh_rate_rate_ne _ _ _ h hv] at hh
          exact absurd rfl hh)
      (by omega)
  have hlen : prop2.length = s.m_propensity.length := by
    have := congrArg List.length hsnd
    simpa using this
  have hsum : ∃ sum : reaction_rate_t,
      (if pm > 0 then (prop2[pm - 1]?).map Prod.fst else some 0) = some sum ∧
      sum = last_first 0 (prop2.take pm) := by
    cases pm with
    | zero => exact ⟨0, by simp, by simp [last_first]⟩
    | succ k =>
      have hk : k < prop2.length := by omega
      refine ⟨prop2[k].1, by simp [List.getElem?_eq_getElem hk], ?_⟩
      exact (last_first_take prop2 k 0 prop2[k] (List.getElem?_eq_getElem hk)).symm
  obtain ⟨sum, hsum1, hsum2⟩ := hsum
  refine ⟨net2, prop2, pm, sum, ?_, hsnd, htake, hrate, hpm, hsum2⟩
  simp only [update_reactions, hf, hpf, hrun, hsum1]
  rw [update_cumulative_eq net2 prop2 pm sum (by omega)]

/-- C1: `update_reactions` preserves the cumulative-propensity invariant. In a state whose
slots all satisfy `entry[i].first = entry[i-1].first + cached_rate(entry[i].second)` (with
`entry[-1] = 0`) and whose reverse map agrees with the slot order, for every fired entry and
every affected set whose handles are present in the reverse map, the call returns, every
slot satisfies the same equation for the cached rates as they stand after the call, and the
last entry is the sum of the cached rates of the reactions of all slots. -/
theorem update_reactions_preserves_invariant (s : SSA_Direct) (fired : Nat)
    (affected : List v_desc_t) (check : Bool)
    (hinv : slot_invariant s.m_net.m_rate s.m_propensity)
    (hmap : pindices_consistent s)
    (hfired : fired < s.m_propensity.length)
    (haff : ∀ vd ∈ affected, s.m_pindices vd ≠ none) :
    ∃ s1, update_reactions s fired affected check = .ok s1 ∧
      slot_invariant s1.m_net.m_rate s1.m_propensity ∧
      ∀ b, s1.m_propensity.getLast? = some b →
        b.1 = (s1.m_propensity.map (fun p => s1.m_net.m_rate p.2)).sum := by
  obtain ⟨net2, prop2, pm, sum, hrun, _, htake, hrate, _, hsum⟩ :=
    update_reactions_run s fired affected check hmap hfired haff
  have hcum : cumulative_from net2.m_rate 0
      (prop2.take pm ++ recumulate net2.m_rate sum (prop2.drop pm)) := by
    rw [cumulative_from_append]
    constructor
    · rw [htake]
      have h0 := (slot_invariant_iff _ _).mp hinv
      rw [← List.take_append_drop pm s.m_propensity, cumulative_from_append] at h0
      apply cumulative_from_congr s.m_net.m_rate net2.m_rate _ 0 _ h0.1
      intro p hp
      obtain ⟨j, hj, hpj⟩ := mem_take_getElem? _ _ _ hp
      by_contra hne
      obtain ⟨i, hi, hle⟩ := hrate p.2 (fun h => hne h.symm)
      obtain ⟨j1, hj1, hj1le⟩ := hmap.1 j p hpj
      rw [hj1] at hi
      simp only [Option.some.injEq] at hi
      omega
    · rw [← hsum]
      exact cumulative_from_recumulate _ _ _
  refine ⟨_, hrun, (slot_invariant_iff _ _).mpr hcum, ?_⟩
  intro b hb
  have h1 := cumulative_from_total _ _ _ hcum
  have h2 := last_first_of_getLast? _ 0 b hb
  simp only [] at h2
  rw [← h2, h1, zero_add]

theorem state_AB_slot_invariant : slot_invariant state_AB.m_net.m_rate state_AB.m_propensity := by
  rw [slot_invariant_iff]
  simp [cumulative_from, state_AB, net_AB]
  norm_num

theorem state_AB_pindices_consistent : pindices_consistent state_AB := by
  constructor
  · intro i p h
    match i with
    | 0 => simp [state_AB] at h; subst h; exact ⟨0, rfl, Nat.le_refl _⟩
    | 1 => simp [state_AB] at h; subst h; exact ⟨1, rfl, Nat.le_refl _⟩
    | n + 2 => simp [state_AB] at h
  · intro vd i h
    simp only [state_AB] at h ⊢
    split at h
    · simp at h; subst h; simp
    · split at h
      · simp at h; subst h; simp
      · exact Option.noConfusion h

theorem update_reactions_preserves_invariant_witness :
    slot_invariant state_AB.m_net.m_rate state_AB.m_propensity ∧
    pindices_consistent state_AB ∧
    1 < state_AB.m_propensity.length ∧
    (∀ vd ∈ [0], state_AB.m_pindices vd ≠ none) ∧
    ∃ s1, update_reactions state_AB 1 [0] true = .ok s1 ∧
      slot_invariant s1.m_net.m_rate s1.m_propensity ∧
      ∀ b, s1.m_propensity.getLast? = some b →
        b.1 = (s1.m_propensity.map (fun p => s1.m_net.m_rate p.2)).sum :=
  ⟨state_AB_slot_invariant, state_AB_pindices_consistent, by decide,
    by intro vd h; simp at h; subst h; simp [state_AB],
    update_reactions_preserves_invariant state_AB 1 [0] true state_AB_slot_invariant
      state_AB_pindices_consistent (by decide) (by intro vd h; simp at h; subst h; simp [state_AB])⟩

/-! ## What `update_reactions` leaves alone -/

theorem rates_only_refl (net : Network) : rates_only net net := rfl

theorem rates_only_trans {n1 n2 n3 : Network} (h12 : rates_only n1 n2) (h23 : rates_only n2 n3) :
    rates_only n1 n3 := by
  unfold rates_only at *
  rw [h23, h12]

theorem refresh_rate_rates_only (net : Network) (vd : v_desc_t) (check : Bool) :
    rates_only net (refresh_rate net vd check).2 := by
  unfold refresh_rate
  split
  · rfl
  · rfl

theorem rates_only_count {n1 n2 : Network} (h : rates_only n1 n2) : n2.count = n1.count := by
  unfold rates_only at h
  rw [h]

theorem update_affected_ok (pindices : pindices_t) (check : Bool) :
    ∀ (affected : List v_desc_t) (net : Network) (prop : List priority_t) (pm : Nat),
      (∀ vd ∈ affected, ∃ i, pindices vd = some i ∧ i < prop.length) →
      ∃ r, update_affected pindices check affected net prop pm = .ok r := by
  intro affected
  induction affected with
  | nil => intro net prop pm _; exact ⟨_, rfl⟩
  | cons vd rest ih =>
    intro net prop pm h
    obtain ⟨pidx, hpidx, hlt⟩ := h vd (List.mem_cons_self vd rest)
    obtain ⟨p, _, hset⟩ := set_first_ok prop pidx (refresh_rate net vd check).1 hlt
    simp only [update_affected, hpidx, hset]
    apply ih
    intro w hw
    obtain ⟨i, hi, hilt⟩ := h w (List.mem_cons_of_mem vd hw)
    exact ⟨i, hi, by simpa using hilt⟩

theorem update_affected_inv (pindices : pindices_t) (check : Bool) :
    ∀ (affected : List v_desc_t) (net : Network) (prop : List priority_t) (pm : Nat)
      (net2 : Network) (prop2 : List priority_t) (pm2 : Nat),
      update_affected pindices check affected net prop pm = .ok (net2, prop2, pm2) →
      rates_only net net2 ∧ prop2.map Prod.snd = prop.map Prod.snd ∧ pm2 ≤ pm ∧
      (∀ vd ∈ affected, pindices vd ≠ none) := by
  intro affected
  induction affected with
  | nil =>
    intro net prop pm net2 prop2 pm2 h
    simp only [update_affected, Except.ok.injEq, Prod.mk.injEq] at h
    obtain ⟨h1, h2, h3⟩ := h
    subst h1; subst h2; subst h3
    exact ⟨rfl, rfl, Nat.le_refl _, by simp⟩
  | cons vd rest ih =>
    intro net prop pm net2 prop2 pm2 h
    simp only [update_affected] at h
    split at h
    · exact Except.noConfusion h
    · rename_i pidx hpidx
      simp only [set_first] at h
      split at h
      · exact Except.noConfusion h
      · rename_i prop1 hprop1
        split at hprop1
        · exact Except.noConfusion hprop1
        · rename_i p hp
          simp only [Except.ok.injEq] at hprop1
          subst hprop1
          obtain ⟨h1, h2, h3, h4⟩ := ih _ _ _ _ _ _ h
          refine ⟨rates_only_trans (refresh_rate_rates_only net vd check) h1, ?_, ?_, ?_⟩
          · rw [h2]
            exact map_snd_set_same prop pidx _ p hp
          · have : (if pidx < pm then pidx else pm) ≤ pm := by split <;> omega
            omega
          · intro w hw
            rcases List.mem_cons.mp hw with hw1 | hw1
            · subst hw1
              rw [hpidx]
              exact Option.some_ne_none _
            · exact h4 w hw1

theorem update_cumulative_snd (net : Network) :
    ∀ (n i : Nat) (sum : reaction_rate_t) (prop : List priority_t),
      (update_cumulative net n i sum prop).map Prod.snd = prop.map Prod.snd := by
  intro n
  induction n with
  | zero => intro i sum prop; rfl
  | succ n ih =>
    intro i sum prop
    simp only [update_cumulative]
    split
    · rfl
    · rename_i p hp
      rw [ih]
      exact map_snd_set_same prop i _ p hp

/-- A call of `update_reactions` that returns changes the cached rates and the cumulative
values only; its two lookups in the reverse map succeeded. -/
theorem update_reactions_inv (s s1 : SSA_Direct) (fired : Nat) (affected : List v_desc_t)
    (check : Bool) (h : update_reactions s fired affected check = .ok s1) :
    (∃ (net2 : Network) (prop2 : List priority_t),
      s1 = { s with m_net := net2, m_propensity := prop2 } ∧ rates_only s.m_net net2 ∧
      prop2.map Prod.snd = s.m_propensity.map Prod.snd) ∧
    (∃ f, s.m_propensity[fired]? = some f ∧ s.m_pindices f.2 ≠ none) ∧
    (∀ vd ∈ affected, s.m_pindices vd ≠ none) := by
  simp only [update_reactions] at h
  split at h
  · exact Except.noConfusion h
  · rename_i f hf
    split at h
    · exact Except.noConfusion h
    · rename_i pm hpm
      split at h
      · exact Except.noConfusion h
      · rename_i net2 prop2 pm2 hrun
        obtain ⟨h1, h2, _, h4⟩ := update_affected_inv _ _ _ _ _ _ _ _ _ hrun
        split at h
        · exact Except.noConfusion h
        · rename_i sum hsum
          simp only [Except.ok.injEq] at h
          refine ⟨⟨net2, _, h.symm, ?_, ?_⟩, ⟨f, hf, ?_⟩, h4⟩
          · exact rates_only_trans (refresh_rate_rates_only _ _ _) h1
          · rw [update_cumulative_snd, h2]
            exact map_snd_set_same _ _ _ f hf
          · rw [hpm]
            exact Option.some_ne_none _

/-- A call of `update_reactions` returns when the values of the reverse map are slots and the
reactions it looks up are keys of the reverse map. -/
theorem update_reactions_ok (s : SSA_Direct) (fired : Nat) (affected : List v_desc_t)
    (check : Bool) (hrange : ∀ vd i, s.m_pindices vd = some i → i < s.m_propensity.length)
    (f : priority_t) (hf : s.m_propensity[fired]? = some f) (hpf : s.m_pindices f.2 ≠ none)
    (haff : ∀ vd ∈ affected, s.m_pindices vd ≠ none) :
    ∃ s1, update_reactions s fired affected check = .ok s1 := by
  obtain ⟨pm, hpm⟩ := Option.ne_none_iff_exists'.mp hpf
  have hpmlt := hrange _ _ hpm
  obtain ⟨⟨net2, prop2, pm2⟩, hrun⟩ := update_affected_ok s.m_pindices check affected
    (refresh_rate s.m_net f.2 check).2
    (s.m_propensity.set fired ((refresh_rate s.m_net f.2 check).1, f.2)) pm
    (by
      intro vd hvd
      obtain ⟨i, hi⟩ := Option.ne_none_iff_exists'.mp (haff vd hvd)
      exact ⟨i, hi, by simpa using hrange _ _ hi⟩)
  obtain ⟨_, h2, h3, _⟩ := update_affected_inv _ _ _ _ _ _ _ _ _ hrun
  have hlen : prop2.length = s.m_propensity.length := by
    have := congrArg List.length h2
    simpa using this
  have hsum : ∃ sum : reaction_rate_t,
      (if pm2 > 0 then (prop2[pm2 - 1]?).map Prod.fst else some 0) = some sum := by
    by_cases hz : pm2 > 0
    · have hk : pm2 - 1 < prop2.length := by omega
      exact ⟨prop2[pm2 - 1].1, by simp [hz, List.getElem?_eq_getElem hk]⟩
    · exact ⟨0, by simp [hz]⟩
  obtain ⟨sum, hsum⟩ := hsum
  simp only [update_reactions, hf, hpm, hrun, hsum]
  exact ⟨_, rfl⟩

/-! ## The arithmetic of `double` -/

theorem pow2_pos (e : ℤ) : 0 < pow2 e := by
  unfold pow2
  have h : ∀ n : Nat, 0 < ((1 <<< n : ℕ) : ℚ) := by
    intro n
    have : 0 < 1 <<< n := by
      rw [Nat.one_shiftLeft]
      exact Nat.pow_pos (by decide)
    exact_mod_cast this
  split
  · exact h _
  · exact div_pos one_pos (h _)

/-- The function `pow2` is the power of two. -/
theorem pow2_eq_zpow (e : ℤ) : pow2 e = (2 : ℚ) ^ e := by
  unfold pow2
  split
  · rename_i h
    rw [Nat.one_shiftLeft]
    push_cast
    conv_rhs => rw [← Int.toNat_of_nonneg h]
    rw [zpow_natCast]
  · rename_i h
    have hneg : 0 ≤ -e := by omega
    rw [Nat.one_shiftLeft]
    push_cast
    have he : e = -((-e).toNat : ℤ) := by
      rw [Int.toNat_of_nonneg hneg]
      omega
    conv_rhs => rw [he, zpow_neg, zpow_natCast]
    rw [one_div]

theorem bits_below_spec : ∀ (j n : Nat), n < 2 ^ (2 ^ j) → 0 < n →
    2 ^ (bits_below j n - 1) ≤ n ∧ n < 2 ^ (bits_below j n) ∧ 0 < bits_below j n := by
  intro j
  induction j with
  | zero =>
    intro n hlt hpos
    have h1 : n = 1 := by
      simp at hlt
      omega
    subst h1
    simp [bits_below]
  | succ j ih =>
    intro n hlt hpos
    simp only [bits_below, Nat.one_shiftLeft]
    split
    · rename_i hsmall
      exact ih n hsmall hpos
    · rename_i hbig
      have hge : 2 ^ (2 ^ j) ≤ n := Nat.le_of_not_lt hbig
      have hpow : (2 : Nat) ^ (2 ^ (j + 1)) = 2 ^ (2 ^ j) * 2 ^ (2 ^ j) := by
        rw [← Nat.pow_add]
        congr 1
        rw [Nat.pow_succ]
        omega
      have hP : 0 < 2 ^ (2 ^ j) := Nat.pow_pos (by decide)
      rw [Nat.shiftRight_eq_div_pow]
      have hm1 : n / 2 ^ (2 ^ j) < 2 ^ (2 ^ j) := by
        apply Nat.div_lt_of_lt_mul
        rw [← hpow]
        exact hlt
      have hm0 : 0 < n / 2 ^ (2 ^ j) := Nat.div_pos hge hP
      obtain ⟨g1, g2, g3⟩ := ih _ hm1 hm0
      refine ⟨?_, ?_, Nat.add_pos_right _ g3⟩
      · have he : 2 ^ j + bits_below j (n / 2 ^ (2 ^ j)) - 1
            = 2 ^ j + (bits_below j (n / 2 ^ (2 ^ j)) - 1) := Nat.add_sub_assoc g3 _
        rw [he, Nat.pow_add]
        calc 2 ^ (2 ^ j) * 2 ^ (bits_below j (n / 2 ^ (2 ^ j)) - 1)
            ≤ 2 ^ (2 ^ j) * (n / 2 ^ (2 ^ j)) := Nat.mul_le_mul_left _ g1
          _ ≤ n := Nat.mul_div_le n _
      · rw [Nat.pow_add]
        calc n < 2 ^ (2 ^ j) * (n / 2 ^ (2 ^ j) + 1) := Nat.lt_mul_div_succ n hP
          _ ≤ 2 ^ (2 ^ j) * 2 ^ bits_below j (n / 2 ^ (2 ^ j)) :=
            Nat.mul_le_mul_left _ g2

theorem find_level_spec : ∀ (fuel j n : Nat), n < 2 ^ (2 ^ (j + fuel)) →
    n < 2 ^ (2 ^ find_level fuel j n) := by
  intro fuel
  induction fuel with
  | zero => intro j n h; simpa [find_level] using h
  | succ fuel ih =>
    intro j n h
    simp only [find_level, Nat.one_shiftLeft]
    split
    · assumption
    · apply ih
      have : j + 1 + fuel = j + (fuel + 1) := by omega
      rw [this]
      exact h

/-- The function `bit_length` gives the number of binary digits. -/
theorem bit_length_spec (n : Nat) (hpos : 0 < n) :
    2 ^ (bit_length n - 1) ≤ n ∧ n < 2 ^ bit_length n ∧ 0 < bit_length n := by
  unfold bit_length
  apply bits_below_spec _ _ _ hpos
  apply find_level_spec
  rw [Nat.zero_add]
  calc n < 2 ^ n := Nat.lt_two_pow n
    _ ≤ 2 ^ (2 ^ n) := Nat.pow_le_pow_right (by decide) (Nat.le_of_lt (Nat.lt_two_pow n))

theorem rat_abs_eq (x : ℚ) : |x| = (x.num.natAbs : ℚ) / (x.den : ℚ) := by
  conv_lhs => rw [← Rat.num_div_den x]
  rw [abs_div, Nat.abs_cast, Nat.cast_natAbs]
  push_cast
  rfl

theorem two_pow_cast (b : Nat) : ((2 ^ b : ℕ) : ℚ) = (2 : ℚ) ^ (b : ℤ) := by
  rw [zpow_natCast]
  push_cast
  rfl

/-- The binade of a rational other than `0` is the exponent of the power of two at or below
its absolute value. -/
theorem binade_spec (x : ℚ) (hx : x ≠ 0) :
    pow2 (binade x) ≤ |x| ∧ |x| < pow2 (binade x + 1) := by
  have hp : 0 < x.num.natAbs := Int.natAbs_pos.mpr (Rat.num_ne_zero.mpr hx)
  have hq : 0 < x.den := x.den_pos
  obtain ⟨a1, a2, a3⟩ := bit_length_spec _ hp
  obtain ⟨b1, b2, b3⟩ := bit_length_spec _ hq
  have hqq : (0 : ℚ) < (x.den : ℚ) := by exact_mod_cast hq
  have ha1 : (2 : ℚ) ^ ((bit_length x.num.natAbs : ℤ) - 1) ≤ (x.num.natAbs : ℚ) := by
    have h := two_pow_cast (bit_length x.num.natAbs - 1)
    rw [Nat.cast_sub a3] at h
    rw [← Nat.cast_one, ← h]
    exact_mod_cast a1
  have ha2 : (x.num.natAbs : ℚ) < (2 : ℚ) ^ (bit_length x.num.natAbs : ℤ) := by
    rw [← two_pow_cast]
    exact_mod_cast a2
  have hb1 : (2 : ℚ) ^ ((bit_length x.den : ℤ) - 1) ≤ (x.den : ℚ) := by
    have h := two_pow_cast (bit_length x.den - 1)
    rw [Nat.cast_sub b3] at h
    rw [← Nat.cast_one, ← h]
    exact_mod_cast b1
  have hb2 : (x.den : ℚ) < (2 : ℚ) ^ (bit_length x.den : ℤ) := by
    rw [← two_pow_cast]
    exact_mod_cast b2
  have h2 : (2 : ℚ) ≠ 0 := two_ne_zero
  have hpos : ∀ e : ℤ, (0 : ℚ) < (2 : ℚ) ^ e := fun e => zpow_pos (by norm_num) e
  unfold binade
  simp only []
  split
  · rename_i hle
    refine ⟨hle, ?_⟩
    rw [pow2_eq_zpow, rat_abs_eq, div_lt_iff₀ hqq]
    calc (x.num.natAbs : ℚ) < (2 : ℚ) ^ (bit_length x.num.natAbs : ℤ) := ha2
      _ = (2 : ℚ) ^ ((bit_length x.num.natAbs : ℤ) - (bit_length x.den : ℤ) + 1)
            * (2 : ℚ) ^ ((bit_length x.den : ℤ) - 1) := by
          rw [← zpow_add₀ h2]
          congr 1
          ring
      _ ≤ (2 : ℚ) ^ ((bit_length x.num.natAbs : ℤ) - (bit_length x.den : ℤ) + 1)
            * (x.den : ℚ) := mul_le_mul_of_nonneg_left hb1 (le_of_lt (hpos _))
  · rename_i hnle
    have hlt : |x| < pow2 ((bit_length x.num.natAbs : ℤ) - (bit_length x.den : ℤ)) :=
      not_le.mp hnle
    refine ⟨?_, ?_⟩
    · rw [pow2_eq_zpow, rat_abs_eq, le_div_iff₀ hqq]
      calc (2 : ℚ) ^ ((bit_length x.num.natAbs : ℤ) - (bit_length x.den : ℤ) - 1) * (x.den : ℚ)
          ≤ (2 : ℚ) ^ ((bit_length x.num.natAbs : ℤ) - (bit_length x.den : ℤ) - 1)
              * (2 : ℚ) ^ (bit_length x.den : ℤ) :=
            mul_le_mul_of_nonneg_left (le_of_lt hb2) (le_of_lt (hpos _))
        _ = (2 : ℚ) ^ ((bit_length x.num.natAbs : ℤ) - 1) := by
            rw [← zpow_add₀ h2]
            congr 1
            ring
        _ ≤ (x.num.natAbs : ℚ) := ha1
    · have : (bit_length x.num.natAbs : ℤ) - (bit_length x.den : ℤ) - 1 + 1
          = (bit_length x.num.natAbs : ℤ) - (bit_length x.den : ℤ) := by ring
      rw [this]
      exact hlt

/-- The function `round_half_even` gives a nearest natural number, and the even one at a tie. -/
theorem round_half_even_spec (m : ℚ) (hm : 0 ≤ m) :
    |(round_half_even m : ℚ) - m| ≤ 1 / 2 ∧
    (|(round_half_even m : ℚ) - m| = 1 / 2 → round_half_even m % 2 = 0) := by
  have hq : 0 < m.den := m.den_pos
  have hqq : (0 : ℚ) < (m.den : ℚ) := by exact_mod_cast hq
  have hmeq : m = (m.num.natAbs : ℚ) / (m.den : ℚ) := by
    rw [← rat_abs_eq, abs_of_nonneg hm]
  have hf1 : ((m.num.natAbs / m.den : ℕ) : ℚ) ≤ m := by
    conv_rhs => rw [hmeq]
    exact Nat.cast_div_le
  have hf2 : m < ((m.num.natAbs / m.den : ℕ) : ℚ) + 1 := by
    conv_lhs => rw [hmeq]
    rw [div_lt_iff₀ hqq]
    have := Nat.lt_mul_div_succ m.num.natAbs hq
    have h2 : ((m.num.natAbs : ℕ) : ℚ) < ((m.den * (m.num.natAbs / m.den + 1) : ℕ) : ℚ) := by
      exact_mod_cast this
    push_cast at h2
    linarith
  unfold round_half_even
  simp only []
  split
  · rename_i h1
    constructor
    · rw [abs_le]
      constructor <;> linarith
    · intro heq
      rw [abs_eq (by norm_num)] at heq
      rcases heq with h | h <;> linarith
  · split
    · rename_i h1 h2
      push_cast
      constructor
      · rw [abs_le]
        constructor <;> linarith
      · intro heq
        rw [abs_eq (by norm_num)] at heq
        rcases heq with h | h <;> linarith
    · rename_i h1 h2
      have hr : m - ((m.num.natAbs / m.den : ℕ) : ℚ) = 1 / 2 :=
        le_antisymm (not_lt.mp h2) (not_lt.mp h1)
      split
      · rename_i heven
        constructor
        · rw [abs_le]
          constructor <;> linarith
        · intro _
          exact heven
      · rename_i hodd
        push_cast
        constructor
        · rw [abs_le]
          constructor <;> linarith
        · intro _
          omega

/-- The value `round_double x` is a multiple of the unit in the last place of `x`, `2 ^ k` with
`k = max (binade x) (-1022) - 52`, and no other multiple is nearer to `x`: it differs from `x`
by at most half that unit. -/
theorem round_double_nearest (x : ℚ) :
    (∃ n : ℤ, round_double x = n * pow2 (max (binade x) (-1022) - 52)) ∧
    |round_double x - x| ≤ pow2 (max (binade x) (-1022) - 52) / 2 := by
  have hkey : ∀ y : ℚ, 0 < y →
      (∃ n : ℕ, round_abs y = n * pow2 (max (binade y) (-1022) - 52)) ∧
      |round_abs y - y| ≤ pow2 (max (binade y) (-1022) - 52) / 2 := by
    intro y hy
    have hk := pow2_pos (max (binade y) (-1022) - 52)
    refine ⟨⟨round_half_even (y / pow2 (max (binade y) (-1022) - 52)), rfl⟩, ?_⟩
    have h1 := (round_half_even_spec (y / pow2 (max (binade y) (-1022) - 52))
      (le_of_lt (div_pos hy hk))).1
    have h2 : round_abs y - y
        = ((round_half_even (y / pow2 (max (binade y) (-1022) - 52)) : ℚ)
            - y / pow2 (max (binade y) (-1022) - 52)) * pow2 (max (binade y) (-1022) - 52) := by
      unfold round_abs
      simp only []
      field_simp
    rw [h2, abs_mul, abs_of_pos hk]
    calc _ ≤ 1 / 2 * pow2 (max (binade y) (-1022) - 52) :=
          mul_le_mul_of_nonneg_right h1 (le_of_lt hk)
      _ = pow2 (max (binade y) (-1022) - 52) / 2 := by ring
  have hneg : ∀ y : ℚ, binade (-y) = binade y := by
    intro y
    unfold binade
    simp only [Rat.neg_num, Int.natAbs_neg, Rat.neg_den, abs_neg]
  unfold round_double
  split
  · rename_i hpos
    obtain ⟨⟨n, hn⟩, h2⟩ := hkey x hpos
    exact ⟨⟨n, by rw [hn]; push_cast; rfl⟩, h2⟩
  · split
    · rename_i hlt
      obtain ⟨⟨n, hn⟩, h2⟩ := hkey (-x) (by linarith)
      rw [hneg] at hn h2
      refine ⟨⟨-(n : ℤ), by rw [hn]; push_cast; ring⟩, ?_⟩
      have : -round_abs (-x) - x = -(round_abs (-x) - -x) := by ring
      rw [this, abs_neg]
      exact h2
    · refine ⟨⟨0, by simp⟩, ?_⟩
      rename_i h1 h2
      have hx : x = 0 := le_antisymm (not_lt.mp h1) (not_lt.mp h2)
      rw [hx]
      simp only [sub_zero, abs_zero]
      exact le_of_lt (div_pos (pow2_pos _) (by norm_num))


theorem round_abs_nonneg (x : ℚ) : 0 ≤ round_abs x := by
  unfold round_abs
  exact mul_nonneg (Nat.cast_nonneg _) (le_of_lt (pow2_pos _))

/-- Rounding to a `double` keeps a non-negative number non-negative. -/
theorem round_double_nonneg (x : ℚ) (h : 0 ≤ x) : 0 ≤ round_double x := by
  unfold round_double
  split
  · exact round_abs_nonneg x
  · split
    · rename_i hneg
      exact absurd h (not_le.mpr hneg)
    · exact le_refl _

/-- Values of `round_double`: numbers that are doubles are kept (`1/2`, `3/2`, `1 - 2^-53`);
`1/3` and `1/10` go to the nearest doubles; a tie goes to the even neighbour (`1 - 2^-54` and
`1 + 2^-53` to `1`, `1 + 3 * 2^-53` to `1 + 2^-51`); negative numbers round as their absolute
values. -/
theorem round_double_values :
    round_double (1 / 2) = 1 / 2 ∧ round_double (3 / 2) = 3 / 2 ∧
    round_double (1 - pow2 (-53)) = 1 - pow2 (-53) ∧
    round_double (1 / 3) = 6004799503160661 / 18014398509481984 ∧
    round_double (1 / 10) = 3602879701896397 / 36028797018963968 ∧
    round_double (1 - pow2 (-54)) = 1 ∧ round_double (1 + pow2 (-53)) = 1 ∧
    round_double (1 + 3 * pow2 (-53)) = 1 + 4 * pow2 (-53) ∧
    round_double (-(1 / 3)) = -(6004799503160661 / 18014398509481984) :=
  ⟨by with_unfolding_all rfl, by with_unfolding_all rfl, by with_unfolding_all rfl,
    by with_unfolding_all rfl, by with_unfolding_all rfl, by with_unfolding_all rfl,
    by with_unfolding_all rfl, by with_unfolding_all rfl, by with_unfolding_all rfl⟩

theorem upper_bound_loop_spec {α β : Type} (v : List α) (value : β) (comp : β → α → Bool)
    (hmono : ∀ (i j : Nat) (e1 e2 : α), i ≤ j → v[i]? = some e1 → v[j]? = some e2 →
      comp value e1 = true → comp value e2 = true) :
    ∀ (fuel first count : Nat), count ≤ fuel → first + count ≤ v.length →
      (∀ (i : Nat) (e : α), i < first → v[i]? = some e → comp value e = false) →
      (∀ (i : Nat) (e : α), first + count ≤ i → v[i]? = some e → comp value e = true) →
      upper_bound_loop v value comp fuel first count ≤ v.length ∧
      (∀ (i : Nat) (e : α), i < upper_bound_loop v value comp fuel first count → v[i]? = some e →
        comp value e = false) ∧
      (∀ (i : Nat) (e : α), upper_bound_loop v value comp fuel first count ≤ i → v[i]? = some e →
        comp value e = true) := by
  intro fuel
  induction fuel with
  | zero =>
    intro first count hc hlen hlo hhi
    have h0 : count = 0 := by omega
    subst h0
    simp only [upper_bound_loop]
    exact ⟨by omega, hlo, fun i e hi he => hhi i e (by omega) he⟩
  | succ fuel ih =>
    intro first count hc hlen hlo hhi
    simp only [upper_bound_loop]
    by_cases h0 : count = 0
    · subst h0
      simp only [if_true]
      exact ⟨by omega, hlo, fun i e hi he => hhi i e (by omega) he⟩
    · simp only [h0, if_false]
      have hstep : count / 2 < count := Nat.div_lt_self (by omega) (by decide)
      have hit : first + count / 2 < v.length := by omega
      rw [List.getElem?_eq_getElem hit]
      simp only []
      by_cases hcomp : comp value v[first + count / 2] = true
      · simp only [hcomp, Bool.not_true, Bool.false_eq_true, if_false]
        apply ih first (count / 2) (by omega) (by omega) hlo
        intro i e hi he
        exact hmono (first + count / 2) i _ e hi (List.getElem?_eq_getElem hit) he hcomp
      · have hfalse : comp value v[first + count / 2] = false := by
          simpa using hcomp
        simp only [hfalse, Bool.not_false, if_true]
        apply ih (first + count / 2 + 1) (count - (count / 2 + 1)) (by omega) (by omega)
        · intro i e hi he
          by_contra hc1
          have hc2 : comp value e = true := by simpa using hc1
          have := hmono i (first + count / 2) e _ (by omega) he
            (List.getElem?_eq_getElem hit) hc2
          rw [hfalse] at this
          exact Bool.noConfusion this
        · intro i e hi he
          exact hhi i e (by omega) he

theorem upper_bound_spec {α β : Type} (v : List α) (value : β) (comp : β → α → Bool)
    (hmono : ∀ (i j : Nat) (e1 e2 : α), i ≤ j → v[i]? = some e1 → v[j]? = some e2 →
      comp value e1 = true → comp value e2 = true) :
    upper_bound v value comp ≤ v.length ∧
    (∀ (i : Nat) (e : α), i < upper_bound v value comp → v[i]? = some e → comp value e = false) ∧
    (∀ (i : Nat) (e : α), upper_bound v value comp ≤ i → v[i]? = some e → comp value e = true) := by
  apply upper_bound_loop_spec v value comp hmono v.length 0 v.length (Nat.le_refl _) (by omega)
  · intro i e hi
    omega
  · intro i e hi he
    have hlt : i < v.length := by
      by_contra hc
      rw [List.getElem?_eq_none (by omega)] at he
      exact Option.noConfusion he
    omega

/-- C3: for a non-empty propensity vector with non-decreasing cumulative values and the
target `t = u * total` (`u` the draw of the event generator, `total` the last cumulative
value, the product as the machine computes it, a `double`), `choose_reaction` returns slot `k`
exactly when `k` is the least slot whose cumulative value is strictly greater than `t`; the
state it leaves has the event generator advanced. -/
theorem choose_reaction_least (cfg : Config) (s : SSA_Direct) (back : priority_t)
    (hback : s.m_propensity.getLast? = some back)
    (hmono : ∀ (i j : Nat) (p q : priority_t), i ≤ j → s.m_propensity[i]? = some p → s.m_propensity[j]? = some q →
      p.1 ≤ q.1)
    (k : Nat) :
    choose_reaction cfg s = .ok (k, { s with m_rgen_evt := (cfg.uniform s.m_rgen_evt).2 }) ↔
      (∃ p, s.m_propensity[k]? = some p ∧
        round_double ((cfg.uniform s.m_rgen_evt).1 * back.1) < p.1) ∧
      (∀ (j : Nat) (q : priority_t), j < k → s.m_propensity[j]? = some q →
        q.1 ≤ round_double ((cfg.uniform s.m_rgen_evt).1 * back.1)) := by
  have hspec := @upper_bound_spec priority_t reaction_rate_t s.m_propensity
    (round_double ((cfg.uniform s.m_rgen_evt).1 * back.1)) (fun lhs rhs => decide (lhs < rhs.1))
    (by
      intro i j e1 e2 hij h1 h2 hc
      simp only [decide_eq_true_eq] at hc ⊢
      exact lt_of_lt_of_le hc (hmono i j e1 e2 hij h1 h2))
  simp only [choose_reaction, hback]
  generalize upper_bound s.m_propensity (round_double ((cfg.uniform s.m_rgen_evt).1 * back.1) : reaction_rate_t)
    (fun lhs rhs => decide (lhs < rhs.1)) = it at hspec ⊢
  obtain ⟨hle, hlo, hhi⟩ := hspec
  constructor
  · intro h
    split at h
    · exact Except.noConfusion h
    · rename_i hne
      simp only [Except.ok.injEq, Prod.mk.injEq] at h
      have hk := h.1
      have hlt : k < s.m_propensity.length := by omega
      refine ⟨⟨s.m_propensity[k], List.getElem?_eq_getElem hlt, ?_⟩, ?_⟩
      · have := hhi k _ (by omega) (List.getElem?_eq_getElem hlt)
        simpa using this
      · intro j q hj hq
        have := hlo j q (by omega) hq
        simpa using this
  · rintro ⟨⟨p, hp, hpt⟩, hbelow⟩
    have hlt : k < s.m_propensity.length := by
      by_contra hc
      rw [List.getElem?_eq_none (by omega)] at hp
      exact Option.noConfusion hp
    have hge : it ≤ k := by
      by_contra hc
      have := hlo k p (by omega) hp
      simp only [decide_eq_false_iff_not] at this
      exact this hpt
    have hle2 : k ≤ it := by
      by_contra hc
      have hlt2 : it < s.m_propensity.length := by omega
      have h1 := hhi _ _ (Nat.le_refl _) (List.getElem?_eq_getElem hlt2)
      have h2 := hbelow _ _ (by omega) (List.getElem?_eq_getElem hlt2)
      simp only [decide_eq_true_eq] at h1
      exact absurd h1 (not_lt.mpr h2)
    have heq : it = k := by omega
    rw [heq]
    simp [Nat.ne_of_lt hlt]

theorem state_AB_monotone : ∀ (i j : Nat) (p q : priority_t), i ≤ j →
    state_AB.m_propensity[i]? = some p → state_AB.m_propensity[j]? = some q → p.1 ≤ q.1 := by
  intro i j p q hij hp hq
  match i, j with
  | 0, 0 => simp [state_AB] at hp hq; subst hp; subst hq; norm_num
  | 0, 1 => simp [state_AB] at hp hq; subst hp; subst hq; norm_num
  | 1, 1 => simp [state_AB] at hp hq; subst hp; subst hq; norm_num
  | 1, 0 => omega
  | _, n + 2 => simp [state_AB] at hq
  | n + 2, _ => simp [state_AB] at hp

theorem choose_reaction_least_witness :
    state_AB.m_propensity.getLast? = some (2, 1) ∧
    (∀ (i j : Nat) (p q : priority_t), i ≤ j →
      state_AB.m_propensity[i]? = some p → state_AB.m_propensity[j]? = some q → p.1 ≤ q.1) ∧
    (choose_reaction cfg_ross state_AB
        = .ok (0, { state_AB with m_rgen_evt := (cfg_ross.uniform state_AB.m_rgen_evt).2 }) ↔
      (∃ p, state_AB.m_propensity[0]? = some p ∧
        round_double ((cfg_ross.uniform state_AB.m_rgen_evt).1 * ((2, 1) : priority_t).1) < p.1) ∧
      (∀ (j : Nat) (q : priority_t), j < 0 → state_AB.m_propensity[j]? = some q →
        q.1 ≤ round_double ((cfg_ross.uniform state_AB.m_rgen_evt).1 * ((2, 1) : priority_t).1))) :=
  ⟨rfl, state_AB_monotone, choose_reaction_least cfg_ross state_AB (2, 1) rfl state_AB_monotone 0⟩

/-! ## `schedule` and `forward` -/

theorem get_reaction_time_frame (cfg : Config) (s : SSA_Direct) :
    (get_reaction_time cfg s).2 = s ∨
    (get_reaction_time cfg s).2 = { s with m_rgen_tm := (cfg.uniform s.m_rgen_tm).2 } := by
  simp only [get_reaction_time]
  split_ifs
  · exact Or.inl rfl
  · exact Or.inr rfl

theorem schedule_state (cfg : Config) (s : SSA_Direct) (next_time : sim_time_t) :
    (schedule cfg s next_time).2.2 = s ∨
    (schedule cfg s next_time).2.2 = { s with m_rgen_tm := (cfg.uniform s.m_rgen_tm).2 } := by
  unfold schedule
  split
  · exact Or.inl rfl
  · simp only []
    split <;> exact get_reaction_time_frame cfg s

theorem schedule_limits (cfg : Config) (s : SSA_Direct) (next_time : sim_time_t) :
    (schedule cfg s next_time).2.2.m_max_iter = s.m_max_iter ∧
    (schedule cfg s next_time).2.2.m_max_time = s.m_max_time := by
  rcases schedule_state cfg s next_time with h | h <;> rw [h] <;> exact ⟨rfl, rfl⟩

theorem schedule_keeps (cfg : Config) (s : SSA_Direct) (next_time : sim_time_t) :
    (schedule cfg s next_time).2.2.m_sim_time = s.m_sim_time ∧
    (schedule cfg s next_time).2.2.m_sim_iter = s.m_sim_iter := by
  rcases schedule_state cfg s next_time with h | h <;> rw [h] <;> exact ⟨rfl, rfl⟩

theorem schedule_success_inv (cfg : Config) (s : SSA_Direct) (next_time : sim_time_t)
    (h : (schedule cfg s next_time).1 = result_t.Success) :
    ¬((get_reaction_time cfg s).1 ≥ s.m_net.m_etime_ulimit ∨
      s.m_sim_time + (get_reaction_time cfg s).1 > s.m_max_time) := by
  intro hcond
  have hb : (decide ((get_reaction_time cfg s).1 ≥ s.m_net.m_etime_ulimit) ||
      decide (s.m_sim_time + (get_reaction_time cfg s).1 > s.m_max_time)) = true := by
    simpa using hcond
  unfold schedule at h
  split at h
  · exact result_t.noConfusion h
  · simp only [hb, if_true] at h
    exact result_t.noConfusion h

/-- C7: `schedule` changes neither `sim_time` nor `sim_iter`; it returns `Empty` exactly when
the propensity vector is empty; otherwise, with `dt = get_reaction_time()`, it leaves
`sim_time + dt` in `next_time` and returns `Inactive` exactly when `dt >= etime_ulimit` or
`sim_time + dt > max_time`, and `Success` exactly when neither holds. -/
theorem schedule_classification (cfg : Config) (s : SSA_Direct) (next_time : sim_time_t) :
    (schedule cfg s next_time).2.2.m_sim_time = s.m_sim_time ∧
    (schedule cfg s next_time).2.2.m_sim_iter = s.m_sim_iter ∧
    ((schedule cfg s next_time).1 = result_t.Empty ↔ s.m_propensity = []) ∧
    ((schedule cfg s next_time).2.1 =
      if s.m_propensity = [] then next_time
      else s.m_sim_time + (get_reaction_time cfg s).1) ∧
    ((schedule cfg s next_time).1 = result_t.Inactive ↔
      s.m_propensity ≠ [] ∧
      ((get_reaction_time cfg s).1 ≥ s.m_net.m_etime_ulimit ∨
        s.m_sim_time + (get_reaction_time cfg s).1 > s.m_max_time)) ∧
    ((schedule cfg s next_time).1 = result_t.Success ↔
      s.m_propensity ≠ [] ∧
      ¬((get_reaction_time cfg s).1 ≥ s.m_net.m_etime_ulimit ∨
        s.m_sim_time + (get_reaction_time cfg s).1 > s.m_max_time)) := by
  by_cases hempty : s.m_propensity = []
  · simp [schedule, hempty]
  · have hne : s.m_propensity.isEmpty = false := by
      simpa [List.isEmpty_iff] using hempty
    have htime : (get_reaction_time cfg s).2.m_sim_time = s.m_sim_time := by
      rcases get_reaction_time_frame cfg s with h | h <;> rw [h]
    have hiter : (get_reaction_time cfg s).2.m_sim_iter = s.m_sim_iter := by
      rcases get_reaction_time_frame cfg s with h | h <;> rw [h]
    by_cases hcond : (get_reaction_time cfg s).1 ≥ s.m_net.m_etime_ulimit ∨
        s.m_sim_time + (get_reaction_time cfg s).1 > s.m_max_time
    · have hb : (decide ((get_reaction_time cfg s).1 ≥ s.m_net.m_etime_ulimit) ||
          decide (s.m_sim_time + (get_reaction_time cfg s).1 > s.m_max_time)) = true := by
        simpa using hcond
      simp only [schedule, hne, hb]
      simp [hempty, hcond, htime, hiter]
    · have hb : (decide ((get_reaction_time cfg s).1 ≥ s.m_net.m_etime_ulimit) ||
          decide (s.m_sim_time + (get_reaction_time cfg s).1 > s.m_max_time)) = false := by
        simpa using hcond
      simp only [schedule, hne, hb]
      simp [hempty, hcond, htime, hiter]

theorem forward_guard_true (cfg : Config) (s : SSA_Direct) (t : sim_time_t)
    (hg : s.m_sim_iter ≥ s.m_max_iter ∨ t > s.m_max_time) : forward cfg s t = .ok (false, s) := by
  have hb : (decide (s.m_sim_iter ≥ s.m_max_iter) || decide (t > s.m_max_time)) = true := by
    simpa using hg
  simp only [forward, hb, if_true]

theorem forward_false_inv (cfg : Config) (s s1 : SSA_Direct) (t : sim_time_t)
    (h : forward cfg s t = .ok (false, s1)) :
    (s.m_sim_iter ≥ s.m_max_iter ∨ t > s.m_max_time) ∧ s1 = s := by
  by_cases hg : s.m_sim_iter ≥ s.m_max_iter ∨ t > s.m_max_time
  · rw [forward_guard_true cfg s t hg] at h
    simp only [Except.ok.injEq, Prod.mk.injEq, true_and] at h
    exact ⟨hg, h.symm⟩
  · have hb : (decide (s.m_sim_iter ≥ s.m_max_iter) || decide (t > s.m_max_time)) = false := by
      simpa using hg
    exfalso
    simp only [forward, hb, Bool.false_eq_true, if_false] at h
    split at h
    · exact Except.noConfusion h
    · split at h
      · exact Except.noConfusion h
      · split at h
        · exact Except.noConfusion h
        · split at h
          · exact Except.noConfusion h
          · split at h <;> simp at h

/-- C9: `forward(t)` returns false exactly when `sim_iter >= max_iter` or `t > max_time`, and
then the whole state (iteration, time, propensity vector, reverse map, digest list, both
generators, species counts and the recorded steps) is the state before the call. -/
theorem forward_false_iff (cfg : Config) (s s1 : SSA_Direct) (t : sim_time_t) :
    forward cfg s t = .ok (false, s1) ↔
      (s.m_sim_iter ≥ s.m_max_iter ∨ t > s.m_max_time) ∧ s1 = s := by
  constructor
  · exact forward_false_inv cfg s s1 t
  · rintro ⟨hg, hs⟩
    rw [hs]
    exact forward_guard_true cfg s t hg

theorem choose_reaction_inv (cfg : Config) (s s2 : SSA_Direct) (k : Nat)
    (h : choose_reaction cfg s = .ok (k, s2)) :
    s2 = { s with m_rgen_evt := (cfg.uniform s.m_rgen_evt).2 } ∧ k ≠ s.m_propensity.length := by
  simp only [choose_reaction] at h
  split at h
  · exact Except.noConfusion h
  · split at h
    · exact Except.noConfusion h
    · rename_i hne
      simp only [Except.ok.injEq, Prod.mk.injEq] at h
      exact ⟨h.2.symm, by rw [← h.1]; exact hne⟩

/-- What a call `forward(t)` that returns true has done. -/
theorem forward_true_inv (cfg : Config) (s s1 : SSA_Direct) (t : sim_time_t)
    (h : forward cfg s t = .ok (true, s1)) :
    ¬(s.m_sim_iter ≥ s.m_max_iter ∨ t > s.m_max_time) ∧
    ∃ (k : Nat) (f : priority_t) (net3 : Network) (s4 : SSA_Direct),
      choose_reaction cfg { s with m_sim_iter := s.m_sim_iter + 1, m_sim_time := t }
        = .ok (k, { s with m_sim_iter := s.m_sim_iter + 1, m_sim_time := t,
                           m_rgen_evt := (cfg.uniform s.m_rgen_evt).2 }) ∧
      s.m_propensity[k]? = some f ∧
      s.m_net.fire f.2 = .ok net3 ∧
      update_reactions { s with m_sim_iter := s.m_sim_iter + 1, m_sim_time := t,
                                m_rgen_evt := (cfg.uniform s.m_rgen_evt).2, m_net := net3 }
        k (s.m_net.affected f.2) true = .ok s4 ∧
      s1 = if cfg.WCS_HAS_ROSS then
            { s4 with m_digests := s4.m_digests ++
                [{ m_sim_time := t, m_reaction_fired := f.2,
                   m_reactions_affected := s.m_net.affected f.2,
                   m_rng_state := [s.m_rgen_evt, s.m_rgen_tm] }] }
          else record s4 f.2 := by
  by_cases hg : s.m_sim_iter ≥ s.m_max_iter ∨ t > s.m_max_time
  · have := forward_guard_true cfg s t hg
    rw [this] at h
    simp at h
  · refine ⟨hg, ?_⟩
    have hb : (decide (s.m_sim_iter ≥ s.m_max_iter) || decide (t > s.m_max_time)) = false := by
      simpa using hg
    simp only [forward, hb, Bool.false_eq_true, if_false] at h
    split at h
    · exact Except.noConfusion h
    · rename_i k s2 hch
      obtain ⟨hs2, _⟩ := choose_reaction_inv _ _ _ _ hch
      subst hs2
      split at h
      · exact Except.noConfusion h
      · rename_i f hf
        simp only [fire_reaction] at h
        split at h
        · exact Except.noConfusion h
        · rename_i net3 digest2 hfire
          split at hfire
          · exact Except.noConfusion hfire
          · rename_i net3a hnet
            simp only [Except.ok.injEq, Prod.mk.injEq] at hfire
            obtain ⟨hn, hd⟩ := hfire
            subst hn
            subst hd
            split at h
            · exact Except.noConfusion h
            · rename_i s4 hupd
              refine ⟨k, f, net3a, s4, hch, hf, hnet, hupd, ?_⟩
              by_cases hr : cfg.WCS_HAS_ROSS = true
              · simp only [hr, if_true, Except.ok.injEq, Prod.mk.injEq, true_and] at h
                simp only [hr, if_true]
                rw [← h]
                rfl
              · simp only [hr, Bool.false_eq_true, if_false, Except.ok.injEq, Prod.mk.injEq,
                  true_and] at h
                simp only [hr, Bool.false_eq_true, if_false]
                exact h.symm

/-- The fields of the state after a call `forward(t)` that returned true. -/
theorem forward_true_frame (cfg : Config) (s s1 : SSA_Direct) (t : sim_time_t)
    (h : forward cfg s t = .ok (true, s1)) :
    s1.m_sim_iter = s.m_sim_iter + 1 ∧ s1.m_sim_time = t ∧
    s1.m_max_iter = s.m_max_iter ∧ s1.m_max_time = s.m_max_time ∧
    s1.m_pindices = s.m_pindices ∧
    s1.m_propensity.map Prod.snd = s.m_propensity.map Prod.snd ∧
    s1.m_rgen_evt = (cfg.uniform s.m_rgen_evt).2 ∧ s1.m_rgen_tm = s.m_rgen_tm ∧
    ∃ (k : Nat) (f : priority_t) (net3 : Network),
      choose_reaction cfg { s with m_sim_iter := s.m_sim_iter + 1, m_sim_time := t }
        = .ok (k, { s with m_sim_iter := s.m_sim_iter + 1, m_sim_time := t,
                           m_rgen_evt := (cfg.uniform s.m_rgen_evt).2 }) ∧
      s.m_propensity[k]? = some f ∧ s.m_net.fire f.2 = .ok net3 ∧
      rates_only net3 s1.m_net ∧
      s.m_pindices f.2 ≠ none ∧ (∀ vd ∈ s.m_net.affected f.2, s.m_pindices vd ≠ none) ∧
      s1.m_digests = (if cfg.WCS_HAS_ROSS then
        s.m_digests ++ [{ m_sim_time := t, m_reaction_fired := f.2,
                          m_reactions_affected := s.m_net.affected f.2,
                          m_rng_state := [s.m_rgen_evt, s.m_rgen_tm] }]
        else s.m_digests) ∧
      s1.m_recorded = (if cfg.WCS_HAS_ROSS then s.m_recorded
        else s.m_recorded ++ [(t, f.2)]) := by
  obtain ⟨_, k, f, net3, s4, hch, hf, hfire, hupd, hs1⟩ := forward_true_inv cfg s s1 t h
  obtain ⟨⟨net2, prop2, hs4, hrates, hsnd⟩, ⟨g, hg, hpg⟩, haff⟩ :=
    update_reactions_inv _ _ _ _ _ hupd
  simp only at hg hpg haff hsnd hrates
  rw [hf] at hg
  simp only [Option.some.injEq] at hg
  subst hg
  subst hs4
  by_cases hr : cfg.WCS_HAS_ROSS = true
  · simp only [hr, if_true] at hs1 ⊢
    subst hs1
    exact ⟨rfl, rfl, rfl, rfl, rfl, hsnd, rfl, rfl, k, f, net3, hch, hf, hfire, hrates, hpg,
      haff, rfl, rfl⟩
  · simp only [hr, Bool.false_eq_true, if_false] at hs1 ⊢
    subst hs1
    exact ⟨rfl, rfl, rfl, rfl, rfl, hsnd, rfl, rfl, k, f, net3, hch, hf, hfire, hrates, hpg,
      haff, rfl, rfl⟩

theorem record_first_n_loop_frame (num : sim_iter_t) :
    ∀ (ds : List Sim_State_Change) (i pos : Nat) (s : SSA_Direct),
      (record_first_n_loop num i pos ds s).2 =
        { s with m_recorded := (record_first_n_loop num i pos ds s).2.m_recorded } ∧
      pos ≤ (record_first_n_loop num i pos ds s).1 ∧
      (record_first_n_loop num i pos ds s).1 ≤ pos + ds.length := by
  intro ds
  induction ds with
  | nil => intro i pos s; simp [record_first_n_loop]
  | cons d ds ih =>
    intro i pos s
    simp only [record_first_n_loop]
    split
    · simp
    · obtain ⟨h1, h2, h3⟩ := ih (i + 1) (pos + 1) (record_at s d.m_sim_time d.m_reaction_fired)
      refine ⟨?_, by omega, by simp only [List.length_cons]; omega⟩
      rw [h1]
      rfl

theorem record_first_n_sim_iter (s : SSA_Direct) (num : sim_iter_t) :
    (record_first_n s num).m_sim_iter = s.m_sim_iter := by
  unfold record_first_n
  split
  · rfl
  · have h := (record_first_n_loop_frame num (s.m_digests.drop 1) 0 1 s).1
    simp only []
    rw [h]

/-- The state `init` leaves. -/
theorem init_inv (cfg : Config) (net_ptr : Option Network) (max_iter : sim_iter_t)
    (max_time : sim_time_t) (rng_seed : Nat) (s : SSA_Direct)
    (h : init cfg net_ptr max_iter max_time rng_seed = .ok s) :
    net_ptr = some s.m_net ∧
    s.m_sim_iter = 0 ∧ s.m_sim_time = 0 ∧ s.m_max_iter = max_iter ∧ s.m_max_time = max_time ∧
    s.m_propensity = (build_propensity_list s).m_propensity ∧
    s.m_pindices = (cumulate 0 0 (stable_sort less
      (s.m_net.m_reactions.map (fun vd => (s.m_net.get_reaction_rate vd, vd)))) (fun _ => none)).2 ∧
    s.m_recorded = [] ∧
    s.m_digests = (if cfg.WCS_HAS_ROSS then [{ Sim_State_Change.empty with m_sim_time := 0 }]
      else []) := by
  cases net_ptr with
  | none => exact Except.noConfusion h
  | some net =>
    simp only [init] at h
    by_cases hr : cfg.WCS_HAS_ROSS = true
    · simp only [hr, if_true, Except.ok.injEq] at h
      subst h
      refine ⟨rfl, rfl, rfl, rfl, rfl, rfl, rfl, rfl, ?_⟩
      simp only [hr, if_true]
      rfl
    · simp only [hr, Bool.false_eq_true, if_false, Except.ok.injEq] at h
      subst h
      refine ⟨rfl, rfl, rfl, rfl, rfl, rfl, rfl, rfl, ?_⟩
      simp only [hr, Bool.false_eq_true, if_false]
      rfl

theorem init_sim_iter (cfg : Config) (net_ptr : Option Network) (max_iter : sim_iter_t)
    (max_time : sim_time_t) (rng_seed : Nat) (s : SSA_Direct)
    (h : init cfg net_ptr max_iter max_time rng_seed = .ok s) :
    s.m_sim_iter = 0 ∧ s.m_sim_time = 0 ∧ s.m_max_iter = max_iter ∧ s.m_max_time = max_time := by
  obtain ⟨_, h1, h2, h3, h4, _⟩ := init_inv cfg _ _ _ _ s h
  exact ⟨h1, h2, h3, h4⟩

theorem run_calls_sim_iter (cfg : Config) :
    ∀ (cs : List Call) (s sN : SSA_Direct) (n : Nat),
      run_calls cfg cs s = .ok (sN, n) → sN.m_sim_iter = s.m_sim_iter + n := by
  intro cs
  induction cs with
  | nil =>
    intro s sN n h
    simp only [run_calls, Except.ok.injEq, Prod.mk.injEq] at h
    rw [← h.1, ← h.2]
    rfl
  | cons c cs ih =>
    intro s sN n h
    cases c with
    | schedule =>
      simp only [run_calls] at h
      rw [ih _ _ _ h, (schedule_keeps cfg s 0).2]
    | record_first_n num =>
      simp only [run_calls] at h
      rw [ih _ _ _ h, record_first_n_sim_iter]
    | forward t =>
      simp only [run_calls] at h
      split at h
      · exact Except.noConfusion h
      · rename_i b s1 hfw
        split at h
        · exact Except.noConfusion h
        · rename_i s2 m hrest
          simp only [Except.ok.injEq, Prod.mk.injEq] at h
          obtain ⟨h1, h2⟩ := h
          subst h1
          have hm := ih _ _ _ hrest
          cases b with
          | false =>
            have := (forward_false_inv cfg s s1 t hfw).2
            subst this
            simp only [Bool.false_eq_true, if_false, Nat.add_zero] at h2
            rw [hm, h2]
          | true =>
            have := (forward_true_frame cfg s s1 t hfw).1
            simp only [if_true] at h2
            rw [hm, this, ← h2, Nat.add_assoc, Nat.add_comm 1 m]

/-- C8: every call `forward(t)` that returns true increases `sim_iter` by exactly 1, sets
`sim_time` to `t` and fires exactly one reaction, the one `choose_reaction` returns (the
species counts after the call are those after one firing of it); consequently, after `init`
and any sequence of `schedule`, `forward` and `record_first_n` calls (no `backward`),
`sim_iter` equals the number of `forward` calls that returned true. -/
theorem forward_counts_iterations (cfg : Config) :
    (∀ (s s1 : SSA_Direct) (t : sim_time_t), forward cfg s t = .ok (true, s1) →
      s1.m_sim_iter = s.m_sim_iter + 1 ∧ s1.m_sim_time = t ∧
      ∃ (k : Nat) (f : priority_t) (net3 : Network),
        choose_reaction cfg { s with m_sim_iter := s.m_sim_iter + 1, m_sim_time := t }
          = .ok (k, { s with m_sim_iter := s.m_sim_iter + 1, m_sim_time := t,
                             m_rgen_evt := (cfg.uniform s.m_rgen_evt).2 }) ∧
        s.m_propensity[k]? = some f ∧ s.m_net.fire f.2 = .ok net3 ∧
        s1.m_net.count = net3.count) ∧
    (∀ (net_ptr : Option Network) (max_iter : sim_iter_t) (max_time : sim_time_t)
      (rng_seed : Nat) (s0 sN : SSA_Direct) (cs : List Call) (n : Nat),
      init cfg net_ptr max_iter max_time rng_seed = .ok s0 →
      run_calls cfg cs s0 = .ok (sN, n) → sN.m_sim_iter = n) := by
  constructor
  · intro s s1 t h
    obtain ⟨h1, h2, _, _, _, _, _, _, k, f, net3, hch, hf, hfire, hrates, _⟩ :=
      forward_true_frame cfg s s1 t h
    exact ⟨h1, h2, k, f, net3, hch, hf, hfire, rates_only_count hrates⟩
  · intro net_ptr max_iter max_time rng_seed s0 sN cs n hinit hrun
    have h0 := (init_sim_iter cfg _ _ _ _ s0 hinit).1
    have := run_calls_sim_iter cfg cs s0 sN n hrun
    rw [this, h0, Nat.zero_add]

/-! ## `backward` and the rollback round trip -/

theorem load_rgen_state_frame (s : SSA_Direct) (d : Sim_State_Change) :
    load_rgen_state s d = { s with m_rgen_evt := (load_rgen_state s d).m_rgen_evt,
                                   m_rgen_tm := (load_rgen_state s d).m_rgen_tm } := by
  unfold load_rgen_state
  split <;> rfl

/-- A call of `backward` on a state whose digest list is `base ++ [d]`, with `base` not empty
and `d` undoable, returns; it leaves `base`, the time of the last digest of `base`, the
iteration count less one and the generator states saved in `d`. -/
theorem backward_spec (s : SSA_Direct)
    (hrange : ∀ vd i, s.m_pindices vd = some i → i < s.m_propensity.length)
    (hslots : ∀ (i : Nat) (p : priority_t), s.m_propensity[i]? = some p →
      s.m_pindices p.2 ≠ none)
    (base : List Sim_State_Change) (d prior : Sim_State_Change)
    (hdig : s.m_digests = base ++ [d]) (hprior : base.getLast? = some prior)
    (hund : undoable s.m_pindices d) (hiter : s.m_sim_iter ≠ 0) :
    ∃ s1, backward s = .ok (d.m_sim_time, s1) ∧
      s1.m_sim_iter = s.m_sim_iter - 1 ∧ s1.m_sim_time = prior.m_sim_time ∧
      s1.m_digests = base ∧
      d.m_rng_state = [s1.m_rgen_evt, s1.m_rgen_tm] ∧
      s1.m_pindices = s.m_pindices ∧
      s1.m_propensity.map Prod.snd = s.m_propensity.map Prod.snd ∧
      s1.m_max_iter = s.m_max_iter ∧ s1.m_max_time = s.m_max_time := by
  obtain ⟨net, mi, mt, si, st, prop, pidx, re, rt, digs, recd⟩ := s
  simp only at hdig hrange hslots hund hiter ⊢
  subst hdig
  have hlast : (base ++ [d]).getLast? = some d := by simp
  obtain ⟨hf, haff, e, t, hrng⟩ := hund
  obtain ⟨fired, hfired⟩ := Option.ne_none_iff_exists'.mp hf
  have hlt := hrange _ _ hfired
  obtain ⟨s2, hupd⟩ := update_reactions_ok
    { m_net := undo_reaction net d.m_reaction_fired, m_max_iter := mi, m_max_time := mt,
      m_sim_iter := si, m_sim_time := st, m_propensity := prop, m_pindices := pidx,
      m_rgen_evt := re, m_rgen_tm := rt, m_digests := base ++ [d], m_recorded := recd }
    fired d.m_reactions_affected
    false hrange prop[fired] (List.getElem?_eq_getElem hlt)
    (hslots fired _ (List.getElem?_eq_getElem hlt)) haff
  obtain ⟨⟨net2, prop2, hs2, _, hsnd⟩, _, _⟩ := update_reactions_inv _ _ _ _ _ hupd
  have hge : ¬ fired ≥ prop.length := by omega
  have hload : load_rgen_state s2 d = { s2 with m_rgen_evt := e, m_rgen_tm := t } := by
    simp only [load_rgen_state, hrng]
  have hdrop : (base ++ [d]).dropLast = base := by simp
  subst hs2
  simp only [backward, hlast, hfired, hge, if_false, hupd, hload, hdrop, hprior, hiter]
  exact ⟨_, rfl, rfl, rfl, rfl, hrng, rfl, hsnd, rfl, rfl⟩

theorem map_ok_range (s : SSA_Direct) (h : map_ok s.m_pindices (s.m_propensity.map Prod.snd)) :
    ∀ vd i, s.m_pindices vd = some i → i < s.m_propensity.length := by
  intro vd i hi
  have := h.1 vd i hi
  simpa using this

theorem map_ok_slots (s : SSA_Direct) (h : map_ok s.m_pindices (s.m_propensity.map Prod.snd)) :
    ∀ (i : Nat) (p : priority_t), s.m_propensity[i]? = some p → s.m_pindices p.2 ≠ none := by
  intro i p hp
  apply h.2
  exact List.mem_map.mpr ⟨p, List.getElem?_mem hp, rfl⟩

theorem backward_seq_spec :
    ∀ (ds : List Sim_State_Change) (sk : SSA_Direct) (base : List Sim_State_Change)
      (prior : Sim_State_Change) (n : Nat),
      map_ok sk.m_pindices (sk.m_propensity.map Prod.snd) →
      sk.m_digests = base ++ ds → base.getLast? = some prior →
      (∀ d ∈ ds, undoable sk.m_pindices d) → sk.m_sim_iter = n + ds.length →
      ∃ s1, backward_seq ds.length sk = .ok s1 ∧ s1.m_sim_iter = n ∧ s1.m_digests = base ∧
        (ds = [] → s1 = sk) ∧ (ds ≠ [] → s1.m_sim_time = prior.m_sim_time) ∧
        (∀ d0, ds.head? = some d0 → d0.m_rng_state = [s1.m_rgen_evt, s1.m_rgen_tm]) := by
  intro ds
  induction ds using List.reverseRecOn with
  | nil =>
    intro sk base prior n _ hdig _ _ hiter
    refine ⟨sk, rfl, by simpa using hiter, by simpa using hdig, fun _ => rfl,
      fun h => absurd rfl h, ?_⟩
    intro d0 h0
    simp at h0
  | append_singleton ds d ih =>
    intro sk base prior n hmap hdig hprior hund hiter
    have hprior1 : ∃ prior1, (base ++ ds).getLast? = some prior1 := by
      cases hb : (base ++ ds).getLast? with
      | none =>
        rw [List.getLast?_eq_none_iff] at hb
        have : base = [] := (List.append_eq_nil.mp hb).1
        rw [this] at hprior
        simp at hprior
      | some x => exact ⟨x, rfl⟩
    obtain ⟨prior1, hprior1⟩ := hprior1
    have hiter0 : sk.m_sim_iter ≠ 0 := by
      rw [hiter]
      simp
    obtain ⟨s1, hbw, h1, h2, h3, h4, h5, h6, _, _⟩ := backward_spec sk (map_ok_range sk hmap)
      (map_ok_slots sk hmap) (base ++ ds) d prior1 (by rw [hdig, List.append_assoc]) hprior1
      (hund d (by simp)) hiter0
    have hmap1 : map_ok s1.m_pindices (s1.m_propensity.map Prod.snd) := by
      rw [h5, h6]
      exact hmap
    obtain ⟨s2, hseq, g1, g2, g3, g4, g5⟩ := ih s1 base prior n hmap1 h3 hprior
      (by
        intro d1 hd1
        rw [h5]
        exact hund d1 (by simp [hd1]))
      (by
        rw [h1, hiter]
        simp)
    refine ⟨s2, ?_, g1, g2, ?_, ?_, ?_⟩
    · simp only [List.length_append, List.length_singleton, backward_seq, hbw]
      exact hseq
    · intro h
      simp at h
    · intro _
      by_cases hds : ds = []
      · have := g3 hds
        rw [this, h2]
        subst hds
        simp only [List.append_nil] at hprior1
        rw [hprior] at hprior1
        simp only [Option.some.injEq] at hprior1
        rw [hprior1]
      · exact g4 hds
    · intro d0 h0
      by_cases hds : ds = []
      · have := g3 hds
        subst hds
        simp only [List.nil_append, List.head?_cons, Option.some.injEq] at h0
        rw [this, ← h0]
        exact h4
      · apply g5
        cases ds with
        | nil => exact absurd rfl hds
        | cons x xs => simpa using h0

theorem forward_seq_spec (cfg : Config) (hross : cfg.WCS_HAS_ROSS = true) :
    ∀ (ts : List sim_time_t) (s sk : SSA_Direct),
      forward_seq cfg ts s = some sk →
      ∃ ds, sk.m_digests = s.m_digests ++ ds ∧ ds.length = ts.length ∧
        (∀ d ∈ ds, undoable s.m_pindices d) ∧
        sk.m_sim_iter = s.m_sim_iter + ts.length ∧
        sk.m_pindices = s.m_pindices ∧
        sk.m_propensity.map Prod.snd = s.m_propensity.map Prod.snd ∧
        (ts = [] → sk = s) ∧
        (∀ d0, ds.head? = some d0 → d0.m_rng_state = [s.m_rgen_evt, s.m_rgen_tm]) := by
  intro ts
  induction ts with
  | nil =>
    intro s sk h
    simp only [forward_seq, Option.some.injEq] at h
    subst h
    exact ⟨[], by simp, rfl, by simp, rfl, rfl, rfl, fun _ => rfl, by simp⟩
  | cons t ts ih =>
    intro s sk h
    simp only [forward_seq] at h
    split at h
    · rename_i s1 hfw
      obtain ⟨h1, _, _, _, h5, h6, _, _, k, f, net3, _, _, _, _, hpf, haff, hdig, _⟩ :=
        forward_true_frame cfg s s1 t hfw
      simp only [hross, if_true] at hdig
      obtain ⟨ds, g1, g2, g3, g4, g5, g6, _, _⟩ := ih s1 sk h
      refine ⟨{ m_sim_time := t, m_reaction_fired := f.2,
                m_reactions_affected := s.m_net.affected f.2,
                m_rng_state := [s.m_rgen_evt, s.m_rgen_tm] } :: ds,
        ?_, by simp [g2], ?_, ?_, by rw [g5, h5], by rw [g6, h6], ?_, ?_⟩
      · rw [g1, hdig, List.append_assoc]
        rfl
      · intro d hd
        rcases List.mem_cons.mp hd with hd1 | hd1
        · subst hd1
          exact ⟨hpf, haff, _, _, rfl⟩
        · rw [← h5]
          exact g3 d hd1
      · rw [g4, h1, List.length_cons, Nat.add_assoc, Nat.add_comm 1]
      · intro hc
        exact List.noConfusion hc
      · intro d0 h0
        simp only [List.head?_cons, Option.some.injEq] at h0
        rw [← h0]
    · exact Option.noConfusion h

theorem cumulate_map_ok (l : List priority_t) :
    ∀ (sum : reaction_rate_t) (i : Nat) (pidx : pindices_t),
      (∀ vd j, (cumulate sum i l pidx).2 vd = some j →
        pidx vd = some j ∨ (i ≤ j ∧ j < i + l.length)) ∧
      (∀ vd, (pidx vd ≠ none ∨ vd ∈ l.map Prod.snd) → (cumulate sum i l pidx).2 vd ≠ none) := by
  induction l with
  | nil =>
    intro sum i pidx
    simp only [cumulate, List.map_nil, List.not_mem_nil, or_false]
    exact ⟨fun vd j h => Or.inl h, fun vd h => h⟩
  | cons p ps ih =>
    intro sum i pidx
    obtain ⟨ih1, ih2⟩ := ih (sum + p.1) (i + 1) (map_insert pidx p.2 i)
    simp only [cumulate]
    constructor
    · intro vd j hj
      rcases ih1 vd j hj with h | h
      · simp only [map_insert] at h
        split at h
        · rename_i hvd
          subst hvd
          split at h
          · rename_i w hw
            left
            rw [hw]
            exact h
          · simp only [Option.some.injEq] at h
            right
            simp only [List.length_cons]
            omega
        · exact Or.inl h
      · right
        simp only [List.length_cons]
        omega
    · intro vd hvd
      apply ih2
      by_cases hp : vd = p.2
      · left
        simp only [map_insert, hp, if_true]
        split <;> simp
      · rcases hvd with h | h
        · left
          simp only [map_insert, hp, if_false]
          exact h
        · right
          simp only [List.map_cons, List.mem_cons] at h
          rcases h with h | h
          · exact absurd h hp
          · exact h

theorem build_map_ok (s : SSA_Direct) :
    map_ok (build_propensity_list s).m_pindices
      ((build_propensity_list s).m_propensity.map Prod.snd) := by
  simp only [build_propensity_list]
  obtain ⟨h1, h2⟩ := cumulate_map_ok (stable_sort less
    (s.m_net.m_reactions.map (fun vd => (s.m_net.get_reaction_rate vd, vd)))) 0 0 (fun _ => none)
  rw [cumulate_snd]
  constructor
  · intro vd i hi
    rcases h1 vd i hi with h | h
    · exact Option.noConfusion h
    · simp only [List.length_map]
      omega
  · intro vd hvd
    exact h2 vd (Or.inr hvd)

/-- What a call of `backward` that returns has done to the scheduler fields. -/
theorem backward_inv (s s1 : SSA_Direct) (t : sim_time_t) (h : backward s = .ok (t, s1)) :
    s1.m_pindices = s.m_pindices ∧
    s1.m_propensity.map Prod.snd = s.m_propensity.map Prod.snd ∧
    s1.m_digests = s.m_digests.dropLast ∧
    (∃ prior, s1.m_digests.getLast? = some prior ∧ s1.m_sim_time = prior.m_sim_time) ∧
    s1.m_sim_iter + 1 = s.m_sim_iter ∧
    (∃ d, s.m_digests.getLast? = some d ∧ t = d.m_sim_time) := by
  simp only [backward] at h
  split at h
  · exact Except.noConfusion h
  · rename_i d hd
    split at h
    · exact Except.noConfusion h
    · rename_i fired hfired
      split at h
      · exact Except.noConfusion h
      · split at h
        · exact Except.noConfusion h
        · rename_i s2 hupd
          obtain ⟨⟨net2, prop2, hs2, _, hsnd⟩, _, _⟩ := update_reactions_inv _ _ _ _ _ hupd
          have hload := load_rgen_state_frame s2 d
          split at h
          · exact Except.noConfusion h
          · rename_i prior hprior
            split at h
            · exact Except.noConfusion h
            · rename_i hiter
              simp only [Except.ok.injEq, Prod.mk.injEq] at h
              obtain ⟨ht, hs1⟩ := h
              subst hs1
              rw [hload] at hprior ⊢
              subst hs2
              simp only at hprior hiter
              refine ⟨rfl, hsnd, rfl, ⟨prior, hprior, rfl⟩, ?_, d, hd, ht.symm⟩
              rw [hload] at hiter
              exact Nat.succ_pred_eq_of_ne_zero hiter

theorem record_first_n_digests (s : SSA_Direct) (num : sim_iter_t) :
    (record_first_n s num).m_sim_time = s.m_sim_time ∧
    (record_first_n s num).m_pindices = s.m_pindices ∧
    (record_first_n s num).m_propensity = s.m_propensity ∧
    (record_first_n s num).m_digests.getLast? = s.m_digests.getLast? := by
  unfold record_first_n
  split
  · simp
  · rename_i hlen
    obtain ⟨h1, h2, h3⟩ := record_first_n_loop_frame num (s.m_digests.drop 1) 0 1 s
    simp only []
    rw [h1]
    refine ⟨rfl, rfl, rfl, ?_⟩
    simp only [List.getLast?_drop]
    have : ¬ s.m_digests.length ≤ (record_first_n_loop num 0 1 (s.m_digests.drop 1) s).1 - 1 := by
      simp only [List.length_drop] at h3
      omega
    rw [if_neg this]

/-- Every reachable state of a build with `WCS_HAS_ROSS` is well formed. -/
theorem reachable_well_formed (cfg : Config) (hross : cfg.WCS_HAS_ROSS = true) (s : SSA_Direct)
    (hs : Reachable cfg s) : well_formed s := by
  induction hs with
  | init net_ptr max_iter max_time rng_seed s hinit =>
    obtain ⟨_, _, h3, _, _, h6, h7, _, h9⟩ := init_inv cfg _ _ _ _ s hinit
    simp only [hross, if_true] at h9
    refine ⟨?_, _, by rw [h9]; rfl, ?_⟩
    · have := build_map_ok s
      rw [h6, h7]
      exact this
    · rw [h3]
      rfl
  | schedule s next_time _ ih =>
    obtain ⟨hmap, d, hd, hdt⟩ := ih
    unfold schedule
    split
    · exact ⟨hmap, d, hd, hdt⟩
    · simp only []
      have hfr := get_reaction_time_frame cfg s
      split <;>
      · rcases hfr with h | h <;>
        · simp only [h]
          exact ⟨hmap, d, hd, hdt⟩
  | forward s s1 t b _ hfw ih =>
    cases b with
    | false =>
      have := (forward_false_inv cfg s s1 t hfw).2
      subst this
      exact ih
    | true =>
      obtain ⟨_, h2, _, _, h5, h6, _, _, k, f, net3, _, _, _, _, _, _, hdig, _⟩ :=
        forward_true_frame cfg s s1 t hfw
      simp only [hross, if_true] at hdig
      refine ⟨by rw [h5, h6]; exact ih.1, _, by rw [hdig]; exact List.getLast?_concat _, ?_⟩
      exact h2.symm
  | backward s s1 t _ _ hbw ih =>
    obtain ⟨h1, h2, _, ⟨prior, hp, htime⟩, _, _⟩ := backward_inv s s1 t hbw
    exact ⟨by rw [h1, h2]; exact ih.1, prior, hp, htime.symm⟩
  | record_first_n s num _ _ ih =>
    obtain ⟨h1, h2, h3, h4⟩ := record_first_n_digests s num
    obtain ⟨hmap, d, hd, hdt⟩ := ih
    exact ⟨by rw [h2, h3]; exact hmap, d, by rw [h4]; exact hd, by rw [h1]; exact hdt⟩

/-- C5: rollback round trip in a build with `WCS_HAS_ROSS`: from every reachable state `s`,
after `k` calls of `forward` that each return true (at any times `ts`, `k` their number), `k`
calls of `backward` all return and leave `sim_iter`, `sim_time`, the digest list and the states
of both generators as they are in `s`. -/
theorem rollback_round_trip (cfg : Config) (hross : cfg.WCS_HAS_ROSS = true) (s : SSA_Direct)
    (hs : Reachable cfg s) (ts : List sim_time_t) (sk : SSA_Direct)
    (hfw : forward_seq cfg ts s = some sk) :
    ∃ s1, backward_seq ts.length sk = .ok s1 ∧
      s1.m_sim_iter = s.m_sim_iter ∧ s1.m_sim_time = s.m_sim_time ∧
      s1.m_digests = s.m_digests ∧
      s1.m_rgen_evt = s.m_rgen_evt ∧ s1.m_rgen_tm = s.m_rgen_tm := by
  obtain ⟨hmap, prior, hprior, hptime⟩ := reachable_well_formed cfg hross s hs
  obtain ⟨ds, g1, g2, g3, g4, g5, g6, g7, g8⟩ := forward_seq_spec cfg hross ts s sk hfw
  obtain ⟨s1, hseq, b1, b2, b3, b4, b5⟩ := backward_seq_spec ds sk s.m_digests prior
    s.m_sim_iter (by rw [g5, g6]; exact hmap) g1 hprior (by rw [g5]; exact g3)
    (by rw [g4, g2])
  rw [g2] at hseq
  refine ⟨s1, hseq, b1, ?_, b2, ?_⟩
  · by_cases hds : ds = []
    · have hts : ts = [] := by
        cases ts with
        | nil => rfl
        | cons a b => subst hds; simp at g2
      rw [b3 hds, g7 hts]
    · rw [b4 hds, hptime]
  · cases ds with
    | nil =>
      have hts : ts = [] := by
        cases ts with
        | nil => rfl
        | cons a b => simp at g2
      rw [b3 rfl, g7 hts]
      exact ⟨rfl, rfl⟩
    | cons d0 ds1 =>
      have e1 := g8 d0 rfl
      have e2 := b5 d0 rfl
      rw [e1] at e2
      simp only [List.cons.injEq, and_true] at e2
      exact ⟨e2.1.symm, e2.2.symm⟩

/-! ## The reverse map in reachable states -/

theorem cumulate_keeps (l : List priority_t) :
    ∀ (sum : reaction_rate_t) (i : Nat) (pidx : pindices_t) (vd : v_desc_t) (w : Nat),
      pidx vd = some w → (cumulate sum i l pidx).2 vd = some w := by
  induction l with
  | nil => intro sum i pidx vd w h; exact h
  | cons q qs ih =>
    intro sum i pidx vd w h
    simp only [cumulate]
    apply ih
    simp only [map_insert]
    split
    · rename_i hvd
      subst hvd
      rw [h]
    · exact h

theorem cumulate_first_slot (l : List priority_t) :
    ∀ (sum : reaction_rate_t) (i : Nat) (pidx : pindices_t) (k : Nat) (p : priority_t),
      l[k]? = some p →
      ∃ j, (cumulate sum i l pidx).2 p.2 = some j ∧ (pidx p.2 = some j ∨ j ≤ i + k) := by
  induction l with
  | nil => intro sum i pidx k p h; simp at h
  | cons q qs ih =>
    intro sum i pidx k p h
    simp only [cumulate]
    cases k with
    | zero =>
      simp only [List.getElem?_cons_zero, Option.some.injEq] at h
      subst h
      cases hq : pidx q.2 with
      | none =>
        refine ⟨i, cumulate_keeps qs _ _ _ _ i ?_, Or.inr (Nat.le_refl _)⟩
        simp [map_insert, hq]
      | some w =>
        refine ⟨w, cumulate_keeps qs _ _ _ _ w ?_, Or.inl rfl⟩
        simp [map_insert, hq]
    | succ k =>
      simp only [List.getElem?_cons_succ] at h
      obtain ⟨j, hj, hcase⟩ := ih (sum + q.1) (i + 1) (map_insert pidx q.2 i) k p h
      refine ⟨j, hj, ?_⟩
      rcases hcase with hc | hc
      · simp only [map_insert] at hc
        split at hc
        · rename_i hpq
          split at hc
          · rename_i w hw
            left
            rw [hpq, hw]
            exact hc
          · simp only [Option.some.injEq] at hc
            right
            omega
        · exact Or.inl hc
      · right
        omega

theorem pindices_consistent_of_eq (s s1 : SSA_Direct) (h1 : s1.m_pindices = s.m_pindices)
    (h2 : s1.m_propensity.map Prod.snd = s.m_propensity.map Prod.snd)
    (h : pindices_consistent s) : pindices_consistent s1 := by
  obtain ⟨hslot, hrange⟩ := h
  have hlen : s1.m_propensity.length = s.m_propensity.length := by
    have := congrArg List.length h2
    simpa using this
  constructor
  · intro i p hp
    have h3 : (s1.m_propensity.map Prod.snd)[i]? = some p.2 := by simp [hp]
    rw [h2] at h3
    simp only [List.getElem?_map, Option.map_eq_some'] at h3
    obtain ⟨q, hq, hq2⟩ := h3
    obtain ⟨j, hj, hle⟩ := hslot i q hq
    exact ⟨j, by rw [h1, ← hq2]; exact hj, hle⟩
  · intro vd i hi
    rw [h1] at hi
    rw [hlen]
    exact hrange vd i hi

theorem build_pindices_consistent (s : SSA_Direct) :
    pindices_consistent (build_propensity_list s) := by
  constructor
  · intro i p hp
    have h3 : ((build_propensity_list s).m_propensity.map Prod.snd)[i]? = some p.2 := by
      simp [hp]
    simp only [build_propensity_list] at h3 ⊢
    rw [cumulate_snd] at h3
    simp only [List.getElem?_map, Option.map_eq_some'] at h3
    obtain ⟨q, hq, hq2⟩ := h3
    obtain ⟨j, hj, hcase⟩ := cumulate_first_slot _ 0 0 (fun _ => none) i q hq
    rw [hq2] at hj
    refine ⟨j, hj, ?_⟩
    rcases hcase with hc | hc
    · exact Option.noConfusion hc
    · omega
  · exact map_ok_range _ (build_map_ok s)

/-- Every reachable state has a reverse map that agrees with the slot order. -/
theorem reachable_pindices_consistent (cfg : Config) (s : SSA_Direct) (hs : Reachable cfg s) :
    pindices_consistent s := by
  induction hs with
  | init net_ptr max_iter max_time rng_seed s hinit =>
    obtain ⟨_, _, _, _, _, h6, h7, _, _⟩ := init_inv cfg _ _ _ _ s hinit
    exact pindices_consistent_of_eq (build_propensity_list s) s h7 (by rw [h6])
      (build_pindices_consistent s)
  | schedule s next_time _ ih =>
    rcases schedule_state cfg s next_time with h | h <;> rw [h] <;> exact ih
  | forward s s1 t b _ hfw ih =>
    cases b with
    | false =>
      rw [(forward_false_inv cfg s s1 t hfw).2]
      exact ih
    | true =>
      obtain ⟨_, _, _, _, h5, h6, _⟩ := forward_true_frame cfg s s1 t hfw
      exact pindices_consistent_of_eq s s1 h5 h6 ih
  | backward s s1 t _ _ hbw ih =>
    obtain ⟨h1, h2, _⟩ := backward_inv s s1 t hbw
    exact pindices_consistent_of_eq s s1 h1 h2 ih
  | record_first_n s num _ _ ih =>
    obtain ⟨_, h2, h3, _⟩ := record_first_n_digests s num
    exact pindices_consistent_of_eq s _ h2 (by rw [h3]) ih

/-! ## `run` -/

/-- The loop of `run` ends within `m_max_iter - m_sim_iter + 1` iterations. -/
theorem run_loop_ends (cfg : Config) :
    ∀ (fuel : Nat) (s : SSA_Direct) (t : sim_time_t),
      s.m_max_iter - s.m_sim_iter < fuel → run_loop cfg fuel s t ≠ none := by
  intro fuel
  induction fuel with
  | zero => intro s t h; exact absurd h (Nat.not_lt_zero _)
  | succ fuel ih =>
    intro s t h
    simp only [run_loop]
    split
    · simp
    · simp
    · rename_i s1 hfw
      have hiter : (s1.m_sim_iter : Nat) = s.m_sim_iter + 1 := (forward_true_frame cfg s s1 t hfw).1
      have hmax : (s1.m_max_iter : Nat) = s.m_max_iter :=
        (forward_true_frame cfg s s1 t hfw).2.2.1
      have hguard := (forward_true_inv cfg s s1 t hfw).1
      have hlt : (s.m_sim_iter : Nat) < s.m_max_iter := by
        by_contra hc
        exact hguard (Or.inl (Nat.le_of_not_lt hc))
      split
      · simp
      · have h2 : (schedule cfg s1 t).2.2.m_max_iter - (schedule cfg s1 t).2.2.m_sim_iter
            < fuel := by
          rw [(schedule_limits cfg s1 t).1, (schedule_keeps cfg s1 t).2, hiter, hmax]
          exact Nat.lt_of_lt_of_le (Nat.sub_succ_lt_self _ _ hlt) (Nat.le_of_lt_succ h)
        have := ih (schedule cfg s1 t).2.2 (schedule cfg s1 t).2.1 h2
        split
        · rename_i hnone
          exact absurd hnone this
        · simp
        · simp

/-- What the loop of `run` leaves when it ends without an error. -/
theorem run_loop_spec (cfg : Config) :
    ∀ (fuel : Nat) (s sN : SSA_Direct) (t : sim_time_t) (n : Nat),
      run_loop cfg fuel s t = some (.ok (sN, n)) →
      sN.m_sim_iter = s.m_sim_iter + n ∧
      sN.m_max_iter = s.m_max_iter ∧ sN.m_max_time = s.m_max_time ∧
      (s.m_sim_iter ≤ s.m_max_iter → sN.m_sim_iter ≤ s.m_max_iter) ∧
      (n = 0 → sN.m_sim_time = s.m_sim_time) ∧
      (0 < n → sN.m_sim_time ≤ s.m_max_time) := by
  intro fuel
  induction fuel with
  | zero => intro s sN t n h; exact Option.noConfusion h
  | succ fuel ih =>
    intro s sN t n h
    simp only [run_loop] at h
    split at h
    · simp at h
    · rename_i s1 hfw
      simp only [Option.some.injEq, Except.ok.injEq, Prod.mk.injEq] at h
      obtain ⟨h1, h2⟩ := h
      have := (forward_false_inv cfg s s1 t hfw).2
      subst this
      subst h1
      subst h2
      exact ⟨rfl, rfl, rfl, fun h => h, fun _ => rfl, fun h => absurd h (Nat.lt_irrefl 0)⟩
    · rename_i s1 hfw
      obtain ⟨f1, f2, f3, f4, _⟩ := forward_true_frame cfg s s1 t hfw
      have hguard := (forward_true_inv cfg s s1 t hfw).1
      have hlt : (s.m_sim_iter : Nat) < s.m_max_iter := by
        by_contra hc
        exact hguard (Or.inl (Nat.le_of_not_lt hc))
      have htle : t ≤ s.m_max_time := by
        by_contra hc
        exact hguard (Or.inr (lt_of_not_le hc))
      obtain ⟨c1, c2⟩ := schedule_keeps cfg s1 t
      obtain ⟨l1, l2⟩ := schedule_limits cfg s1 t
      split at h
      · simp only [Option.some.injEq, Except.ok.injEq, Prod.mk.injEq] at h
        obtain ⟨h1, h2⟩ := h
        subst h1
        subst h2
        refine ⟨by rw [c2, f1], by rw [l1, f3], by rw [l2, f4], ?_, ?_, ?_⟩
        · intro _
          rw [c2, f1]
          exact hlt
        · intro hc
          exact absurd hc (by decide)
        · intro _
          rw [c1, f2]
          exact htle
      · split at h
        · exact Option.noConfusion h
        · simp at h
        · rename_i s2 m hrest
          simp only [Option.some.injEq, Except.ok.injEq, Prod.mk.injEq] at h
          obtain ⟨h1, h2⟩ := h
          subst h1
          obtain ⟨r1, r2, r3, r4, r5, r6⟩ := ih _ _ _ _ hrest
          rw [c2, f1] at r1
          rw [l1, f3] at r2
          rw [l2, f4] at r3
          rw [c2, f1, l1, f3] at r4
          rw [c1, f2] at r5
          rw [l2, f4] at r6
          have r1' : (s2.m_sim_iter : Nat) = s.m_sim_iter + 1 + m := r1
          refine ⟨?_, r2, r3, fun _ => r4 hlt, ?_, ?_⟩
          · rw [r1, ← h2, Nat.add_assoc, Nat.add_comm 1 m]
          · intro hc
            rw [← h2] at hc
            exact absurd hc (Nat.succ_ne_zero m)
          · intro _
            by_cases hm : m = 0
            · rw [r5 hm]
              exact htle
            · exact r6 (Nat.pos_of_ne_zero hm)

theorem get_reaction_time_nonneg (cfg : Config) (hlog : ∀ e, cfg.log (cfg.uniform e).1 ≤ 0)
    (s : SSA_Direct) :
    (get_reaction_time cfg s).1 = s.m_net.m_etime_ulimit ∨ 0 ≤ (get_reaction_time cfg s).1 := by
  simp only [get_reaction_time]
  split_ifs with hr
  · exact Or.inl rfl
  · right
    have hpos := lt_of_not_le hr
    have := div_nonpos_of_nonpos_of_nonneg (hlog s.m_rgen_tm) (le_of_lt hpos)
    simp only []
    linarith

theorem schedule_success_bound (cfg : Config) (hlog : ∀ e, cfg.log (cfg.uniform e).1 ≤ 0)
    (s : SSA_Direct) (next_time : sim_time_t)
    (h : (schedule cfg s next_time).1 = result_t.Success) : s.m_sim_time ≤ s.m_max_time := by
  have hnot := schedule_success_inv cfg s next_time h
  rw [not_or] at hnot
  obtain ⟨h1, h2⟩ := hnot
  rcases get_reaction_time_nonneg cfg hlog s with hg | hg
  · exact absurd (le_of_eq hg.symm) h1
  · have h3 := le_of_not_lt h2
    linarith

/-- C10: `max_iter` and `max_time` are hard ceilings. On a freshly initialised scheduler (with
a logarithm that is not positive on the draws of the generator) the loop of `run` ends within
the iterations it is given, and whenever `run` returns normally it has made at most `max_iter`
successful `forward` calls, their number equals the `sim_iter` it returns (one reaction is
fired by each), and the returned pair satisfies `sim_iter <= max_iter`, `sim_time <= max_time`. -/
theorem run_ceilings (cfg : Config) (hlog : ∀ e, cfg.log (cfg.uniform e).1 ≤ 0)
    (net_ptr : Option Network) (max_iter : sim_iter_t) (max_time : sim_time_t) (rng_seed : Nat)
    (s0 : SSA_Direct) (hinit : init cfg net_ptr max_iter max_time rng_seed = .ok s0) :
    run_loop cfg ((schedule cfg s0 0).2.2.m_max_iter - (schedule cfg s0 0).2.2.m_sim_iter + 1)
      (schedule cfg s0 0).2.2 (schedule cfg s0 0).2.1 ≠ none ∧
    ∀ (sN : SSA_Direct) (n : Nat), run_state cfg s0 = .ok (sN, n) →
      n ≤ max_iter ∧ sN.m_sim_iter = n ∧ sN.m_sim_iter ≤ max_iter ∧ sN.m_sim_time ≤ max_time ∧
      run cfg s0 = .ok (sN.m_sim_iter, sN.m_sim_time) := by
  obtain ⟨i1, i2, i3, i4⟩ := init_sim_iter cfg _ _ _ _ s0 hinit
  obtain ⟨c1, c2⟩ := schedule_keeps cfg s0 0
  obtain ⟨l1, l2⟩ := schedule_limits cfg s0 0
  constructor
  · exact run_loop_ends cfg _ _ _ (Nat.lt_succ_self _)
  · intro sN n hrun
    have hrun0 := hrun
    simp only [run_state] at hrun
    split at hrun
    · exact Except.noConfusion hrun
    · rename_i hsucc
      have hsucc1 : (schedule cfg s0 0).1 = result_t.Success := by
        by_contra hc
        exact hsucc hc
      have hbound := schedule_success_bound cfg hlog s0 0 hsucc1
      rw [i2, i4] at hbound
      split at hrun
      · exact Except.noConfusion hrun
      · exact Except.noConfusion hrun
      · rename_i s1 m hloop
        obtain ⟨r1, r2, r3, r4, r5, r6⟩ := run_loop_spec cfg _ _ _ _ _ hloop
        rw [c2, i1, Nat.zero_add] at r1
        rw [l1, i3] at r2
        rw [l2, i4] at r3
        rw [c2, i1, l1, i3] at r4
        rw [c1, i2] at r5
        rw [l2, i4] at r6
        have hle : s1.m_sim_iter ≤ max_iter := r4 (Nat.zero_le _)
        have htime : s1.m_sim_time ≤ max_time := by
          by_cases hm : m = 0
          · rw [r5 hm]
            exact hbound
          · exact r6 (Nat.pos_of_ne_zero hm)
        have hres : sN.m_sim_iter = s1.m_sim_iter ∧ sN.m_sim_time = s1.m_sim_time ∧ n = m := by
          by_cases hr : cfg.WCS_HAS_ROSS = true
          · simp only [hr, if_true, Except.ok.injEq, Prod.mk.injEq] at hrun
            rw [← hrun.1, ← hrun.2]
            exact ⟨record_first_n_sim_iter _ _, (record_first_n_digests _ _).1, rfl⟩
          · simp only [hr, Bool.false_eq_true, if_false, Except.ok.injEq, Prod.mk.injEq] at hrun
            rw [← hrun.1, ← hrun.2]
            exact ⟨rfl, rfl, rfl⟩
        obtain ⟨e1, e2, e3⟩ := hres
        refine ⟨?_, ?_, ?_, ?_, ?_⟩
        · rw [e3, ← r1]
          exact hle
        · rw [e1, e3, r1]
        · rw [e1]
          exact hle
        · rw [e2]
          exact htime
        · simp only [run, hrun0]

/-! ## The concrete runs, evaluated -/

theorem init_AB_eq : init cfg_ross (some net_AB) 10 100 1 = .ok init_AB := by
  with_unfolding_all rfl

theorem fwd1_AB_eq : forward cfg_ross init_AB 1 = .ok (true, fwd1_AB) := by
  with_unfolding_all rfl

theorem fwd2_AB_eq : forward cfg_ross fwd1_AB 2 = .ok (true, fwd2_AB) := by
  with_unfolding_all rfl

theorem bwd_AB_eq : backward fwd2_AB = .ok (2, bwd_AB) := by
  with_unfolding_all rfl

theorem init_A_eq : init cfg_ross (some net_A) 10 100 1 = .ok init_A := by
  with_unfolding_all rfl

theorem fwd1_A_eq : forward cfg_ross init_A 1 = .ok (true, fwd1_A) := by
  with_unfolding_all rfl

theorem fwd1_AB_reachable : Reachable cfg_ross fwd1_AB :=
  Reachable.forward init_AB fwd1_AB 1 true
    (Reachable.init (some net_AB) 10 100 1 init_AB init_AB_eq) fwd1_AB_eq

theorem fwd1_A_reachable : Reachable cfg_ross fwd1_A :=
  Reachable.forward init_A fwd1_A 1 true
    (Reachable.init (some net_A) 10 100 1 init_A init_A_eq) fwd1_A_eq

theorem cfg_ross_log : ∀ e, cfg_ross.log (cfg_ross.uniform e).1 ≤ 0 := by
  intro e
  norm_num [cfg_ross]

theorem forward_seq_AB_eq : forward_seq cfg_ross [1, 2] init_AB = some fwd2_AB := by
  simp only [forward_seq, fwd1_AB_eq, fwd2_AB_eq]

/-- C4 (the code at the failing input): on `net_AB`, in the reachable state `fwd1_AB` (after
`init` and one `forward`), `forward(2)` returns true and `backward` returns, the species counts
and the handles by slot are restored, the affected set of the digest is the one of the firing,
but the cumulative values are `[0, 1]` where they were `[1, 2]` before `forward`. -/
theorem forward_backward_changes_propensity :
    Reachable cfg_ross fwd1_AB ∧
    forward cfg_ross fwd1_AB 2 = .ok (true, fwd2_AB) ∧
    backward fwd2_AB = .ok (2, bwd_AB) ∧
    fwd2_AB.m_digests.getLast?.map Sim_State_Change.m_reactions_affected
      = some (fwd1_AB.m_net.affected 1) ∧
    (bwd_AB.m_net.count 0 = fwd1_AB.m_net.count 0 ∧
      bwd_AB.m_net.count 1 = fwd1_AB.m_net.count 1) ∧
    fwd1_AB.m_propensity = [(1, 0), (2, 1)] ∧
    bwd_AB.m_propensity = [(0, 0), (1, 1)] :=
  ⟨fwd1_AB_reachable, fwd2_AB_eq, bwd_AB_eq, by with_unfolding_all rfl,
    ⟨by with_unfolding_all rfl, by with_unfolding_all rfl⟩,
    by with_unfolding_all rfl, by with_unfolding_all rfl⟩

/-- C6 (the code at the failing input): on the decay network `net_A`, whose rate law is `0`
whenever its reactant is insufficient, in the reachable state `fwd1_A` (after `init` and one
`forward`) the count of `A` is `0` and `check_reaction` fails for the decay, yet its slot still
holds the cumulative value `1`, `choose_reaction` selects it, and `forward(2)` raises
`StoichiometryUnderflow`. -/
theorem forward_selects_exhausted_reaction :
    Reachable cfg_ross fwd1_A ∧
    (∀ c : v_desc_t → species_cnt_t, c 0 < 1 → net_A.evaluate 0 c = 0) ∧
    fwd1_A.m_net.count 0 = 0 ∧
    fwd1_A.m_net.check_reaction 0 = false ∧
    fwd1_A.m_propensity = [(1, 0)] ∧
    (choose_reaction cfg_ross
        { fwd1_A with m_sim_iter := fwd1_A.m_sim_iter + 1, m_sim_time := 2 }).toOption.map
      Prod.fst = some 0 ∧
    forward cfg_ross fwd1_A 2 = .error Err.StoichiometryUnderflow :=
  ⟨fwd1_A_reachable,
    by
      intro c hc
      have h0 : c 0 = 0 := Nat.lt_one_iff.mp hc
      simp [net_A, h0],
    by with_unfolding_all rfl, by with_unfolding_all rfl, by with_unfolding_all rfl,
    by with_unfolding_all rfl, by with_unfolding_all rfl⟩

theorem rollback_round_trip_witness :
    cfg_ross.WCS_HAS_ROSS = true ∧ Reachable cfg_ross init_AB ∧
    forward_seq cfg_ross [1, 2] init_AB = some fwd2_AB ∧
    ∃ s1, backward_seq [(1 : sim_time_t), 2].length fwd2_AB = .ok s1 ∧
      s1.m_sim_iter = init_AB.m_sim_iter ∧ s1.m_sim_time = init_AB.m_sim_time ∧
      s1.m_digests = init_AB.m_digests ∧
      s1.m_rgen_evt = init_AB.m_rgen_evt ∧ s1.m_rgen_tm = init_AB.m_rgen_tm :=
  ⟨rfl, Reachable.init (some net_AB) 10 100 1 init_AB init_AB_eq, forward_seq_AB_eq,
    rollback_round_trip cfg_ross rfl init_AB
      (Reachable.init (some net_AB) 10 100 1 init_AB init_AB_eq) [1, 2] fwd2_AB
      forward_seq_AB_eq⟩

theorem init_AB_one_eq : init cfg_ross (some net_AB) 1 100 1 = .ok init_AB_one := by
  with_unfolding_all rfl

theorem run_AB_one_eq : run_state cfg_ross init_AB_one = .ok (run_AB_one, 1) := by
  with_unfolding_all rfl

theorem run_ceilings_witness :
    (∀ e, cfg_ross.log (cfg_ross.uniform e).1 ≤ 0) ∧
    init cfg_ross (some net_AB) 1 100 1 = .ok init_AB_one ∧
    run_state cfg_ross init_AB_one = .ok (run_AB_one, 1) ∧
    (1 ≤ 1 ∧ run_AB_one.m_sim_iter = 1 ∧ run_AB_one.m_sim_iter ≤ 1 ∧
      run_AB_one.m_sim_time ≤ 100 ∧
      run cfg_ross init_AB_one = .ok (run_AB_one.m_sim_iter, run_AB_one.m_sim_time)) :=
  ⟨cfg_ross_log, init_AB_one_eq, run_AB_one_eq,
    (run_ceilings cfg_ross cfg_ross_log (some net_AB) 1 100 1 init_AB_one init_AB_one_eq).2
      run_AB_one 1 run_AB_one_eq⟩

theorem forward_counts_iterations_witness :
    fwd1_AB.m_sim_iter = init_AB.m_sim_iter + 1 ∧ fwd1_AB.m_sim_time = 1 ∧
    ∃ (k : Nat) (f : priority_t) (net3 : Network),
      choose_reaction cfg_ross { init_AB with m_sim_iter := init_AB.m_sim_iter + 1, m_sim_time := 1 }
        = .ok (k, { init_AB with m_sim_iter := init_AB.m_sim_iter + 1, m_sim_time := 1,
                                 m_rgen_evt := (cfg_ross.uniform init_AB.m_rgen_evt).2 }) ∧
      init_AB.m_propensity[k]? = some f ∧ init_AB.m_net.fire f.2 = .ok net3 ∧
      fwd1_AB.m_net.count = net3.count :=
  (forward_counts_iterations cfg_ross).1 init_AB fwd1_AB 1 fwd1_AB_eq

/-! ## The order of events in time -/

theorem fwd_early_AB_eq : forward cfg_ross fwd1_AB (1 / 2) = .ok (true, fwd_early_AB) := by
  with_unfolding_all rfl

/-- C12 (as stated, refuted): in the reachable state `fwd1_AB`, whose time is `1`, the call
`forward(1/2)` returns true and leaves the time `1/2`, which is less than the time before. -/
theorem forward_time_can_decrease :
    Reachable cfg_ross fwd1_AB ∧
    forward cfg_ross fwd1_AB (1 / 2) = .ok (true, fwd_early_AB) ∧
    fwd1_AB.m_sim_time = 1 ∧ fwd_early_AB.m_sim_time = 1 / 2 ∧
    ¬(fwd_early_AB.m_sim_time ≥ fwd1_AB.m_sim_time) := by
  have h1 : fwd1_AB.m_sim_time = 1 := by with_unfolding_all rfl
  have h2 : fwd_early_AB.m_sim_time = 1 / 2 := by with_unfolding_all rfl
  refine ⟨fwd1_AB_reachable, fwd_early_AB_eq, h1, h2, ?_⟩
  rw [h1, h2]
  norm_num

/-- C12 (amended): a call `forward(t)` that returns true sets `sim_time` to `t`; so when the
argument `t` is not less than `sim_time` before the call, `sim_time` after the call is not less
than `sim_time` before it. -/
theorem forward_time_monotone (cfg : Config) (s s1 : SSA_Direct) (t : sim_time_t)
    (h : forward cfg s t = .ok (true, s1)) (ht : s.m_sim_time ≤ t) :
    s1.m_sim_time = t ∧ s1.m_sim_time ≥ s.m_sim_time := by
  have h2 := (forward_true_frame cfg s s1 t h).2.1
  refine ⟨h2, ?_⟩
  rw [h2]
  exact ht

theorem forward_time_monotone_witness :
    forward cfg_ross fwd1_AB 2 = .ok (true, fwd2_AB) ∧ fwd1_AB.m_sim_time ≤ 2 ∧
    fwd2_AB.m_sim_time = 2 ∧ fwd2_AB.m_sim_time ≥ fwd1_AB.m_sim_time := by
  have h1 : fwd1_AB.m_sim_time ≤ 2 := by
    have : fwd1_AB.m_sim_time = 1 := by with_unfolding_all rfl
    rw [this]
    norm_num
  exact ⟨fwd2_AB_eq, h1, forward_time_monotone cfg_ross fwd1_AB fwd2_AB 2 fwd2_AB_eq h1⟩

/-! ## When no reaction can be chosen -/

theorem cfg_ross_draw_lt_one (e : Nat) : (cfg_ross.uniform e).1 < 1 := by
  simp only [cfg_ross]
  split <;> norm_num

theorem get_reaction_time_sentinel (cfg : Config) (s : SSA_Direct)
    (h : s.m_propensity = [] ∨ ∃ back, s.m_propensity.getLast? = some back ∧ back.1 ≤ 0) :
    get_reaction_time cfg s = (s.m_net.m_etime_ulimit, s) := by
  rcases h with h | ⟨back, hb, hle⟩
  · simp [get_reaction_time, h]
  · simp only [get_reaction_time, hb]
    rw [if_pos hle]

theorem schedule_inactive_of_total (cfg : Config) (s : SSA_Direct) (next_time : sim_time_t)
    (back : priority_t) (hb : s.m_propensity.getLast? = some back) (hle : back.1 ≤ 0) :
    (schedule cfg s next_time).1 = result_t.Inactive ∧ (schedule cfg s next_time).2.2 = s := by
  have hne : s.m_propensity.isEmpty = false := by
    cases hp : s.m_propensity with
    | nil => rw [hp] at hb; simp at hb
    | cons a l => rfl
  have hg := get_reaction_time_sentinel cfg s (Or.inr ⟨back, hb, hle⟩)
  simp only [schedule, hne, hg]
  simp

/-- C14: when the propensity vector is empty or its total (the last cumulative value) is
`<= 0`, `get_reaction_time` returns `etime_ulimit` and leaves the state, the time generator
included, as it is; hence `schedule` returns `Inactive` for every non-empty vector whose total
is `<= 0`, in particular for every non-empty vector that satisfies the cumulative invariant for
cached rates that are all zero. -/
theorem get_reaction_time_no_draw (cfg : Config) (s : SSA_Direct) :
    ((s.m_propensity = [] ∨ ∃ back, s.m_propensity.getLast? = some back ∧ back.1 ≤ 0) →
      get_reaction_time cfg s = (s.m_net.m_etime_ulimit, s)) ∧
    (∀ (next_time : sim_time_t) (back : priority_t),
      s.m_propensity.getLast? = some back → back.1 ≤ 0 →
      (schedule cfg s next_time).1 = result_t.Inactive ∧ (schedule cfg s next_time).2.2 = s) ∧
    (∀ (next_time : sim_time_t), s.m_propensity ≠ [] →
      slot_invariant s.m_net.m_rate s.m_propensity →
      (∀ p ∈ s.m_propensity, s.m_net.m_rate p.2 = 0) →
      (schedule cfg s next_time).1 = result_t.Inactive) := by
  refine ⟨get_reaction_time_sentinel cfg s, ?_, ?_⟩
  · intro next_time back hb hle
    exact schedule_inactive_of_total cfg s next_time back hb hle
  · intro next_time hne hinv hzero
    cases hb : s.m_propensity.getLast? with
    | none => exact absurd (List.getLast?_eq_none_iff.mp hb) hne
    | some back =>
      have hcum := (slot_invariant_iff _ _).mp hinv
      have htot := cumulative_from_total _ _ _ hcum
      have hlast := last_first_of_getLast? _ 0 back hb
      have hsum : (s.m_propensity.map (fun p => s.m_net.m_rate p.2)).sum = 0 := by
        apply List.sum_eq_zero
        intro x hx
        obtain ⟨p, hp, hpx⟩ := List.mem_map.mp hx
        rw [← hpx]
        exact hzero p hp
      have hle : back.1 ≤ 0 := by
        rw [← hlast, htot, hsum]
        simp
      exact (schedule_inactive_of_total cfg s next_time back hb hle).1

theorem get_reaction_time_no_draw_witness :
    state_spent.m_propensity.getLast? = some (0, 0) ∧
    get_reaction_time cfg_ross state_spent = (state_spent.m_net.m_etime_ulimit, state_spent) ∧
    (schedule cfg_ross state_spent 0).1 = result_t.Inactive ∧
    (schedule cfg_ross state_spent 0).2.2 = state_spent :=
  ⟨rfl,
    (get_reaction_time_no_draw cfg_ross state_spent).1 (Or.inr ⟨(0, 0), rfl, le_refl _⟩),
    (get_reaction_time_no_draw cfg_ross state_spent).2.1 0 (0, 0) rfl (le_refl _)⟩

/-! ## The slot order of `build_propensity_list` -/

theorem stable_insert_pairwise (x : priority_t) (l : List priority_t)
    (h : l.Pairwise (fun a b => a.1 ≤ b.1)) :
    (stable_insert less x l).Pairwise (fun a b => a.1 ≤ b.1) := by
  induction l with
  | nil => simp [stable_insert]
  | cons y ys ih =>
    rw [List.pairwise_cons] at h
    simp only [stable_insert]
    split
    · rename_i hlt
      have hyx : y.1 < x.1 := by simpa [less] using hlt
      rw [List.pairwise_cons]
      refine ⟨?_, ih h.2⟩
      intro z hz
      have hz1 := (stable_insert_perm less x ys).subset hz
      rcases List.mem_cons.mp hz1 with hzx | hzy
      · rw [hzx]
        exact le_of_lt hyx
      · exact h.1 z hzy
    · rename_i hnlt
      have hxy : x.1 ≤ y.1 := by
        have : ¬ y.1 < x.1 := by simpa [less] using hnlt
        exact le_of_not_lt this
      rw [List.pairwise_cons]
      refine ⟨?_, List.pairwise_cons.mpr h⟩
      intro z hz
      rcases List.mem_cons.mp hz with hzy | hzy
      · rw [hzy]
        exact hxy
      · exact le_trans hxy (h.1 z hzy)

theorem stable_sort_pairwise (l : List priority_t) :
    (stable_sort less l).Pairwise (fun a b => a.1 ≤ b.1) := by
  induction l with
  | nil => simp [stable_sort]
  | cons x xs ih => exact stable_insert_pairwise x _ ih

theorem stable_insert_filter (k : reaction_rate_t) (x : priority_t) (l : List priority_t) :
    (stable_insert less x l).filter (fun y => decide (y.1 = k))
      = (x :: l).filter (fun y => decide (y.1 = k)) := by
  induction l with
  | nil => simp [stable_insert]
  | cons y ys ih =>
    simp only [stable_insert]
    split
    · rename_i hlt
      have hyx : y.1 < x.1 := by simpa [less] using hlt
      rw [List.filter_cons, ih]
      by_cases hx : x.1 = k
      · have hy : ¬ y.1 = k := by
          intro hy
          rw [hx, hy] at hyx
          exact lt_irrefl _ hyx
        simp [List.filter_cons, hx, hy]
      · simp [List.filter_cons, hx]
    · rfl

theorem stable_sort_filter (k : reaction_rate_t) (l : List priority_t) :
    (stable_sort less l).filter (fun y => decide (y.1 = k))
      = l.filter (fun y => decide (y.1 = k)) := by
  induction l with
  | nil => simp [stable_sort]
  | cons x xs ih =>
    simp only [stable_sort]
    rw [stable_insert_filter, List.filter_cons, List.filter_cons, ih]

/-- C15: `build_propensity_list` orders the slots by a stable ascending sort on the cached
rate: the handles by slot are a permutation of `reaction_list`, the cached rate of the reaction
of a slot is `<=` that of every later slot (so of slot `i + 1`), and the reactions of any one
rate appear in the slots in their order in `reaction_list`. -/
theorem build_propensity_list_sorted (s : SSA_Direct) :
    ((build_propensity_list s).m_propensity.map Prod.snd).Perm s.m_net.m_reactions ∧
    (∀ (i j : Nat) (p q : priority_t), i ≤ j →
      (build_propensity_list s).m_propensity[i]? = some p →
      (build_propensity_list s).m_propensity[j]? = some q →
      s.m_net.get_reaction_rate p.2 ≤ s.m_net.get_reaction_rate q.2) ∧
    (∀ k : reaction_rate_t,
      ((build_propensity_list s).m_propensity.map Prod.snd).filter
          (fun vd => decide (s.m_net.get_reaction_rate vd = k))
        = s.m_net.m_reactions.filter (fun vd => decide (s.m_net.get_reaction_rate vd = k))) := by
  have hperm := stable_sort_perm less
    (s.m_net.m_reactions.map (fun vd => (s.m_net.get_reaction_rate vd, vd)))
  have hmem : ∀ q ∈ stable_sort less
      (s.m_net.m_reactions.map (fun vd => (s.m_net.get_reaction_rate vd, vd))),
      q.1 = s.m_net.get_reaction_rate q.2 := by
    intro q hq
    have hq1 := hperm.subset hq
    simp only [List.mem_map] at hq1
    obtain ⟨vd, _, rfl⟩ := hq1
    rfl
  have hsnd := cumulate_snd (stable_sort less
    (s.m_net.m_reactions.map (fun vd => (s.m_net.get_reaction_rate vd, vd)))) 0 0 (fun _ => none)
  have hhandles : (build_propensity_list s).m_propensity.map Prod.snd
      = (stable_sort less
        (s.m_net.m_reactions.map (fun vd => (s.m_net.get_reaction_rate vd, vd)))).map Prod.snd :=
    hsnd
  have hrated : (s.m_net.m_reactions.map (fun vd => (s.m_net.get_reaction_rate vd, vd))).map
      Prod.snd = s.m_net.m_reactions := by
    simp [List.map_map, Function.comp_def]
  refine ⟨?_, ?_, ?_⟩
  · rw [hhandles]
    have h1 := hperm.map Prod.snd
    rw [hrated] at h1
    exact h1
  · intro i j p q hij hp hq
    have hp2 : ((build_propensity_list s).m_propensity.map Prod.snd)[i]? = some p.2 := by
      simp [hp]
    have hq2 : ((build_propensity_list s).m_propensity.map Prod.snd)[j]? = some q.2 := by
      simp [hq]
    rw [hhandles] at hp2 hq2
    simp only [List.getElem?_map, Option.map_eq_some'] at hp2 hq2
    obtain ⟨a, ha, ha2⟩ := hp2
    obtain ⟨b, hb, hb2⟩ := hq2
    rw [← ha2, ← hb2, ← hmem a (List.getElem?_mem ha), ← hmem b (List.getElem?_mem hb)]
    rcases Nat.eq_or_lt_of_le hij with heq | hlt
    · subst heq
      rw [ha] at hb
      simp only [Option.some.injEq] at hb
      rw [hb]
    · have hsorted := stable_sort_pairwise
        (s.m_net.m_reactions.map (fun vd => (s.m_net.get_reaction_rate vd, vd)))
      rw [List.pairwise_iff_getElem] at hsorted
      have hi : i < (stable_sort less
          (s.m_net.m_reactions.map (fun vd => (s.m_net.get_reaction_rate vd, vd)))).length := by
        by_contra hc
        rw [List.getElem?_eq_none (by omega)] at ha
        exact Option.noConfusion ha
      have hj : j < (stable_sort less
          (s.m_net.m_reactions.map (fun vd => (s.m_net.get_reaction_rate vd, vd)))).length := by
        by_contra hc
        rw [List.getElem?_eq_none (by omega)] at hb
        exact Option.noConfusion hb
      have := hsorted i j hi hj hlt
      rw [List.getElem?_eq_getElem hi] at ha
      rw [List.getElem?_eq_getElem hj] at hb
      simp only [Option.some.injEq] at ha hb
      rw [← ha, ← hb]
      exact this
  · intro k
    rw [hhandles, List.filter_map]
    have h1 : (stable_sort less
        (s.m_net.m_reactions.map (fun vd => (s.m_net.get_reaction_rate vd, vd)))).filter
          ((fun vd => decide (s.m_net.get_reaction_rate vd = k)) ∘ Prod.snd)
        = (stable_sort less
          (s.m_net.m_reactions.map (fun vd => (s.m_net.get_reaction_rate vd, vd)))).filter
          (fun y => decide (y.1 = k)) := by
      apply List.filter_congr
      intro q hq
      simp only [Function.comp_apply, hmem q hq]
    rw [h1, stable_sort_filter, List.filter_map, List.map_map]
    simp [Function.comp_def]

/-! ## The reverse map and the slot order -/

theorem cumulate_exact (l : List priority_t) :
    ∀ (sum : reaction_rate_t) (i : Nat) (pidx : pindices_t),
      (l.map Prod.snd).Nodup → (∀ p ∈ l, pidx p.2 = none) →
      ∀ (vd : v_desc_t) (j : Nat),
        (cumulate sum i l pidx).2 vd = some j ↔
          (pidx vd = some j ∨ (i ≤ j ∧ (l.map Prod.snd)[j - i]? = some vd)) := by
  induction l with
  | nil =>
    intro sum i pidx _ _ vd j
    simp [cumulate]
  | cons q qs ih =>
    intro sum i pidx hnodup hnone vd j
    simp only [List.map_cons, List.nodup_cons] at hnodup
    obtain ⟨hq_notin, hnodup1⟩ := hnodup
    have hq : pidx q.2 = none := hnone q (List.mem_cons_self q qs)
    have hins : ∀ w, map_insert pidx q.2 i w = if w = q.2 then some i else pidx w := by
      intro w
      simp only [map_insert, hq]
    have hnone1 : ∀ p ∈ qs, map_insert pidx q.2 i p.2 = none := by
      intro p hp
      have hne : p.2 ≠ q.2 := by
        intro heq
        apply hq_notin
        rw [← heq]
        exact List.mem_map.mpr ⟨p, hp, rfl⟩
      rw [hins, if_neg hne]
      exact hnone p (List.mem_cons_of_mem q hp)
    have step := ih (sum + q.1) (i + 1) (map_insert pidx q.2 i) hnodup1 hnone1 vd j
    simp only [cumulate, List.map_cons]
    rw [step, hins]
    constructor
    · rintro (h | ⟨hle, hget⟩)
      · by_cases hvd : vd = q.2
        · rw [if_pos hvd] at h
          simp only [Option.some.injEq] at h
          right
          refine ⟨by omega, ?_⟩
          rw [← h, Nat.sub_self, hvd]
          exact List.getElem?_cons_zero
        · rw [if_neg hvd] at h
          exact Or.inl h
      · right
        refine ⟨by omega, ?_⟩
        have : j - i = (j - (i + 1)) + 1 := by omega
        rw [this, List.getElem?_cons_succ]
        exact hget
    · rintro (h | ⟨hle, hget⟩)
      · left
        have hvd : vd ≠ q.2 := by
          intro heq
          rw [heq, hq] at h
          exact Option.noConfusion h
        rw [if_neg hvd]
        exact h
      · by_cases hji : j = i
        · left
          rw [hji, Nat.sub_self] at hget
          simp only [List.getElem?_cons_zero, Option.some.injEq] at hget
          rw [if_pos hget.symm, hji]
        · right
          refine ⟨by omega, ?_⟩
          have : j - i = (j - (i + 1)) + 1 := by omega
          rw [this, List.getElem?_cons_succ] at hget
          exact hget

/-- C16: the reverse map agrees with the slot order, and the slot order never changes. For a
`reaction_list` of distinct handles, after `build_propensity_list` the reverse map sends the
reaction of every slot `i` to `i`, and a handle is a key with value `i` exactly when it is the
handle of slot `i` (one key per slot); and every `update_reactions` call that returns leaves
the handle of every slot and the whole reverse map as they were. -/
theorem reverse_map_fixed (s : SSA_Direct) :
    (s.m_net.m_reactions.Nodup →
      (∀ (i : Nat) (p : priority_t), (build_propensity_list s).m_propensity[i]? = some p →
        (build_propensity_list s).m_pindices p.2 = some i) ∧
      (∀ (vd : v_desc_t) (i : Nat), (build_propensity_list s).m_pindices vd = some i ↔
        ((build_propensity_list s).m_propensity.map Prod.snd)[i]? = some vd)) ∧
    (∀ (fired : Nat) (affected : List v_desc_t) (check : Bool) (s1 : SSA_Direct),
      update_reactions s fired affected check = .ok s1 →
      s1.m_pindices = s.m_pindices ∧
      s1.m_propensity.map Prod.snd = s.m_propensity.map Prod.snd) := by
  constructor
  · intro hnodup
    have hperm := (stable_sort_perm less
      (s.m_net.m_reactions.map (fun vd => (s.m_net.get_reaction_rate vd, vd)))).map Prod.snd
    have hrated : (s.m_net.m_reactions.map (fun vd => (s.m_net.get_reaction_rate vd, vd))).map
        Prod.snd = s.m_net.m_reactions := by
      simp [List.map_map, Function.comp_def]
    rw [hrated] at hperm
    have hnd := hperm.nodup_iff.mpr hnodup
    have hexact := cumulate_exact (stable_sort less
      (s.m_net.m_reactions.map (fun vd => (s.m_net.get_reaction_rate vd, vd)))) 0 0
      (fun _ => none) hnd (fun _ _ => rfl)
    have hsnd := cumulate_snd (stable_sort less
      (s.m_net.m_reactions.map (fun vd => (s.m_net.get_reaction_rate vd, vd)))) 0 0
      (fun _ => none)
    have hiff : ∀ (vd : v_desc_t) (i : Nat), (build_propensity_list s).m_pindices vd = some i ↔
        ((build_propensity_list s).m_propensity.map Prod.snd)[i]? = some vd := by
      intro vd i
      simp only [build_propensity_list]
      rw [hsnd, hexact vd i]
      simp
    refine ⟨?_, hiff⟩
    intro i p hp
    rw [hiff]
    simp [hp]
  · intro fired affected check s1 h
    obtain ⟨⟨net2, prop2, hs1, _, hsnd⟩, _, _⟩ := update_reactions_inv s s1 fired affected check h
    subst hs1
    exact ⟨rfl, hsnd⟩

/-! ## `run` at its boundaries -/

theorem init_empty_eq : init cfg_ross (some net_empty) 10 100 1 = .ok init_empty := by
  with_unfolding_all rfl

theorem init_AB_zero_eq : init cfg_ross (some net_AB) 0 100 1 = .ok init_AB_zero := by
  with_unfolding_all rfl

theorem run_no_first_event (cfg : Config) (s : SSA_Direct)
    (h : (schedule cfg s 0).1 ≠ result_t.Success) : run cfg s = .error Err.NoFirstEvent := by
  simp only [run, run_state, h, ne_eq, not_false_eq_true, if_true]

/-- C18 (as stated, refuted): on the network without reactions `net_empty`, `init` succeeds,
`schedule` returns `Empty`, and `run` raises its error for a first event that cannot be
scheduled; it does not return `(0, 0)`. -/
theorem run_empty_raises :
    init cfg_ross (some net_empty) 10 100 1 = .ok init_empty ∧
    init_empty.m_propensity = [] ∧
    (schedule cfg_ross init_empty 0).1 = result_t.Empty ∧
    run cfg_ross init_empty = .error Err.NoFirstEvent ∧
    run cfg_ross init_empty ≠ .ok (0, 0) := by
  have hrun : run cfg_ross init_empty = .error Err.NoFirstEvent := by with_unfolding_all rfl
  refine ⟨init_empty_eq, by with_unfolding_all rfl, by with_unfolding_all rfl, hrun, ?_⟩
  rw [hrun]
  intro h
  exact Except.noConfusion h

/-- C18 (amended): for a scheduler initialised on a network with no reactions the propensity
vector is empty, `schedule` returns `Empty` and leaves the state as it is, and `run` raises its
error for a first event that cannot be scheduled. -/
theorem run_empty_network (cfg : Config) (net_ptr : Option Network) (max_iter : sim_iter_t)
    (max_time : sim_time_t) (rng_seed : Nat) (s0 : SSA_Direct)
    (hinit : init cfg net_ptr max_iter max_time rng_seed = .ok s0)
    (hempty : s0.m_net.m_reactions = []) :
    s0.m_propensity = [] ∧
    (∀ next_time : sim_time_t, schedule cfg s0 next_time = (result_t.Empty, next_time, s0)) ∧
    run cfg s0 = .error Err.NoFirstEvent := by
  obtain ⟨_, _, _, _, _, h6, _⟩ := init_inv cfg _ _ _ _ s0 hinit
  have hprop : s0.m_propensity = [] := by
    rw [h6]
    simp [build_propensity_list, hempty, stable_sort, cumulate]
  have hsched : ∀ next_time : sim_time_t,
      schedule cfg s0 next_time = (result_t.Empty, next_time, s0) := by
    intro next_time
    simp [schedule, hprop]
  refine ⟨hprop, hsched, ?_⟩
  apply run_no_first_event
  rw [hsched 0]
  intro h
  exact result_t.noConfusion h

theorem run_empty_network_witness :
    init cfg_ross (some net_empty) 10 100 1 = .ok init_empty ∧
    init_empty.m_net.m_reactions = [] ∧
    init_empty.m_propensity = [] ∧
    (∀ next_time : sim_time_t,
      schedule cfg_ross init_empty next_time = (result_t.Empty, next_time, init_empty)) ∧
    run cfg_ross init_empty = .error Err.NoFirstEvent :=
  ⟨init_empty_eq, by with_unfolding_all rfl,
    run_empty_network cfg_ross (some net_empty) 10 100 1 init_empty init_empty_eq
      (by with_unfolding_all rfl)⟩

theorem record_first_n_zero (s : SSA_Direct) : record_first_n s 0 = s := by
  unfold record_first_n
  split
  · rfl
  · cases hd : s.m_digests.drop 1 with
    | nil => simp [record_first_n_loop]
    | cons d ds => simp [record_first_n_loop]

/-- C19: for every scheduler initialised with `max_iter = 0` whose first `schedule` call
returns `Success`, `run` makes no successful `forward` call (it fires no reaction and records
nothing), leaves the network (species counts and cached rates), the propensity vector and the
digest list as `init` left them, and returns `(sim_iter, sim_time) = (0, 0)`. -/
theorem run_max_iter_zero (cfg : Config) (net_ptr : Option Network) (max_time : sim_time_t)
    (rng_seed : Nat) (s0 : SSA_Direct)
    (hinit : init cfg net_ptr 0 max_time rng_seed = .ok s0)
    (hsucc : (schedule cfg s0 0).1 = result_t.Success) :
    ∃ sN, run_state cfg s0 = .ok (sN, 0) ∧ run cfg s0 = .ok (0, 0) ∧
      sN.m_net = s0.m_net ∧ sN.m_propensity = s0.m_propensity ∧
      sN.m_digests = s0.m_digests ∧ sN.m_recorded = [] ∧
      sN.m_sim_iter = 0 ∧ sN.m_sim_time = 0 := by
  obtain ⟨_, i2, i3, i4, _, _, _, i8, _⟩ := init_inv cfg _ _ _ _ s0 hinit
  obtain ⟨c1, c2⟩ := schedule_keeps cfg s0 0
  obtain ⟨l1, _⟩ := schedule_limits cfg s0 0
  have hguard : (schedule cfg s0 0).2.2.m_sim_iter ≥ (schedule cfg s0 0).2.2.m_max_iter ∨
      (schedule cfg s0 0).2.1 > (schedule cfg s0 0).2.2.m_max_time := by
    left
    rw [c2, l1, i2, i4]
  have hfw := forward_guard_true cfg _ _ hguard
  have hfuel : (schedule cfg s0 0).2.2.m_max_iter - (schedule cfg s0 0).2.2.m_sim_iter + 1 = 1 := by
    rw [c2, l1, i2, i4]
  have hloop : run_loop cfg 1 (schedule cfg s0 0).2.2 (schedule cfg s0 0).2.1
      = some (.ok ((schedule cfg s0 0).2.2, 0)) := by
    simp only [run_loop, hfw]
  have hstate : run_state cfg s0 = .ok ((schedule cfg s0 0).2.2, 0) := by
    have hne : ¬ (schedule cfg s0 0).1 ≠ result_t.Success := fun h => h hsucc
    simp only [run_state, hne, if_false, hfuel, hloop]
    by_cases hr : cfg.WCS_HAS_ROSS = true
    · simp only [hr, if_true]
      rw [c2, i2, record_first_n_zero]
    · simp only [hr, Bool.false_eq_true, if_false]
  refine ⟨(schedule cfg s0 0).2.2, hstate, ?_, ?_, ?_, ?_, ?_, ?_, ?_⟩
  · simp only [run, hstate]
    rw [c1, c2, i2, i3]
  · rcases schedule_state cfg s0 0 with h | h <;> rw [h]
  · rcases schedule_state cfg s0 0 with h | h <;> rw [h]
  · rcases schedule_state cfg s0 0 with h | h <;> rw [h]
  · rcases schedule_state cfg s0 0 with h | h <;> rw [h] <;> exact i8
  · rw [c2, i2]
  · rw [c1, i3]

theorem run_max_iter_zero_witness :
    init cfg_ross (some net_AB) 0 100 1 = .ok init_AB_zero ∧
    (schedule cfg_ross init_AB_zero 0).1 = result_t.Success ∧
    ∃ sN, run_state cfg_ross init_AB_zero = .ok (sN, 0) ∧
      run cfg_ross init_AB_zero = .ok (0, 0) ∧
      sN.m_net = init_AB_zero.m_net ∧ sN.m_propensity = init_AB_zero.m_propensity ∧
      sN.m_digests = init_AB_zero.m_digests ∧ sN.m_recorded = [] ∧
      sN.m_sim_iter = 0 ∧ sN.m_sim_time = 0 :=
  ⟨init_AB_zero_eq, by with_unfolding_all rfl,
    run_max_iter_zero cfg_ross (some net_AB) 100 1 init_AB_zero init_AB_zero_eq
      (by with_unfolding_all rfl)⟩

/-! ## When `backward` raises -/

theorem record_first_n_loop_pos (num : Nat) :
    ∀ (ds : List Sim_State_Change) (i pos : Nat) (s : SSA_Direct),
      (record_first_n_loop num i pos ds s).1 = pos + min (num - i) ds.length := by
  intro ds
  induction ds with
  | nil => intro i pos s; simp [record_first_n_loop]
  | cons d ds ih =>
    intro i pos s
    simp only [record_first_n_loop]
    split
    · rename_i hge
      have hge1 : num ≤ i := hge
      have : num - i = 0 := by omega
      simp [this]
    · rename_i hlt
      have hlt1 : i < num := Nat.lt_of_not_le hlt
      rw [ih]
      simp only [List.length_cons, Nat.min_def]
      split <;> split <;> omega

/-- The digest list `record_first_n(num)` leaves: the list without its first
`min(num, length - 1)` digests. -/
theorem record_first_n_drop (s : SSA_Direct) (num : Nat) :
    (record_first_n s num).m_digests = s.m_digests.drop (min num (s.m_digests.length - 1)) := by
  unfold record_first_n
  split
  · rename_i hlen
    have : s.m_digests = [] := List.eq_nil_of_length_eq_zero (by omega)
    simp [this]
  · have h1 := (record_first_n_loop_frame num (s.m_digests.drop 1) 0 1 s).1
    have h2 := record_first_n_loop_pos num (s.m_digests.drop 1) 0 1 s
    simp only []
    rw [h1]
    simp only []
    rw [h2]
    simp only [List.length_drop, Nat.sub_zero]
    congr 1
    omega

theorem mem_drop_one_dropLast {α : Type} (l : List α) (a : α) (h : a ∈ l.dropLast.drop 1) :
    a ∈ l.drop 1 := by
  cases l with
  | nil => simp at h
  | cons x xs =>
    cases xs with
    | nil => simp at h
    | cons y ys =>
      simp only [List.dropLast_cons₂, List.drop_succ_cons, List.drop_zero] at h ⊢
      exact List.mem_of_mem_dropLast h

/-- Every reachable state of a build with `WCS_HAS_ROSS` has a digest list that is not empty,
holds only digests that can be undone after its first, and is no longer than `sim_iter + 1`. -/
theorem reachable_digests_ok (cfg : Config) (hross : cfg.WCS_HAS_ROSS = true) (s : SSA_Direct)
    (hs : Reachable cfg s) : digests_ok s := by
  induction hs with
  | init net_ptr max_iter max_time rng_seed s hinit =>
    obtain ⟨_, _, _, _, _, _, _, _, h9⟩ := init_inv cfg _ _ _ _ s hinit
    simp only [hross, if_true] at h9
    refine ⟨by rw [h9]; simp, ?_, ?_⟩
    · rw [h9]
      simp
    · rw [h9]
      simp
  | schedule s next_time _ ih =>
    rcases schedule_state cfg s next_time with h | h <;> rw [h] <;> exact ih
  | forward s s1 t b _ hfw ih =>
    cases b with
    | false =>
      rw [(forward_false_inv cfg s s1 t hfw).2]
      exact ih
    | true =>
      obtain ⟨h1, _, _, _, h5, _, _, _, k, f, net3, _, _, _, _, hpf, haff, hdig, _⟩ :=
        forward_true_frame cfg s s1 t hfw
      simp only [hross, if_true] at hdig
      obtain ⟨g1, g2, g3⟩ := ih
      refine ⟨by rw [hdig]; simp, ?_, ?_⟩
      · intro d hd
        rw [hdig] at hd
        rw [h5]
        cases hl : s.m_digests with
        | nil => exact absurd hl g1
        | cons x xs =>
          rw [hl] at hd g2
          simp only [List.cons_append, List.drop_succ_cons, List.drop_zero,
            List.mem_append, List.mem_singleton] at hd g2
          rcases hd with hd | hd
          · exact g2 d hd
          · rw [hd]
            exact ⟨hpf, haff, _, _, rfl⟩
      · rw [hdig, h1, List.length_append, List.length_singleton]
        exact Nat.succ_le_succ g3
  | backward s s1 t _ _ hbw ih =>
    obtain ⟨h1, _, h3, ⟨prior, hp, _⟩, h5, _⟩ := backward_inv s s1 t hbw
    obtain ⟨g1, g2, g3⟩ := ih
    refine ⟨?_, ?_, ?_⟩
    · intro hnil
      rw [hnil] at hp
      simp at hp
    · intro d hd
      rw [h3] at hd
      rw [h1]
      exact g2 d (mem_drop_one_dropLast _ _ hd)
    · rw [h3, List.length_dropLast]
      rw [← h5] at g3
      exact Nat.sub_le_of_le_add g3
  | record_first_n s num _ _ ih =>
    obtain ⟨_, h2, _, h4⟩ := record_first_n_digests s num
    have hdrop := record_first_n_drop s num
    have hiter := record_first_n_sim_iter s num
    obtain ⟨g1, g2, g3⟩ := ih
    refine ⟨?_, ?_, ?_⟩
    · intro hnil
      rw [hnil] at h4
      cases hl : s.m_digests.getLast? with
      | none => exact g1 (List.getLast?_eq_none_iff.mp hl)
      | some x => rw [hl] at h4; simp at h4
    · intro d hd
      rw [hdrop, List.drop_drop] at hd
      rw [h2]
      apply g2
      rw [Nat.add_comm] at hd
      rw [← List.drop_drop] at hd
      exact List.mem_of_mem_drop hd
    · rw [hdrop, hiter, List.length_drop]
      exact le_trans (Nat.sub_le _ _) g3

/-- C20: in every state reached from `init` by `schedule`, `forward`, `backward` and
`record_first_n` (build with `WCS_HAS_ROSS`), `backward` raises an error if and only if popping
the last digest leaves the digest list empty; otherwise it returns, writes the time of the
undone event to `t`, decrements `sim_iter` by 1, sets `sim_time` to the time of the digest that
is now last, and has popped the last digest. -/
theorem backward_raises_iff (cfg : Config) (hross : cfg.WCS_HAS_ROSS = true) (s : SSA_Direct)
    (hs : Reachable cfg s) :
    ((∃ e, backward s = .error e) ↔ s.m_digests.dropLast = []) ∧
    (s.m_digests.dropLast ≠ [] →
      ∃ (d prior : Sim_State_Change) (s1 : SSA_Direct),
        s.m_digests.getLast? = some d ∧ s.m_digests.dropLast.getLast? = some prior ∧
        backward s = .ok (d.m_sim_time, s1) ∧
        s1.m_sim_iter + 1 = s.m_sim_iter ∧ s1.m_sim_time = prior.m_sim_time ∧
        s1.m_digests = s.m_digests.dropLast) := by
  obtain ⟨hmap, _⟩ := reachable_well_formed cfg hross s hs
  obtain ⟨g1, g2, g3⟩ := reachable_digests_ok cfg hross s hs
  have hok : s.m_digests.dropLast ≠ [] →
      ∃ (d prior : Sim_State_Change) (s1 : SSA_Direct),
        s.m_digests.getLast? = some d ∧ s.m_digests.dropLast.getLast? = some prior ∧
        backward s = .ok (d.m_sim_time, s1) ∧
        s1.m_sim_iter + 1 = s.m_sim_iter ∧ s1.m_sim_time = prior.m_sim_time ∧
        s1.m_digests = s.m_digests.dropLast := by
    intro hbase
    cases hd : s.m_digests.getLast? with
    | none => exact absurd (List.getLast?_eq_none_iff.mp hd) g1
    | some d =>
      cases hp : s.m_digests.dropLast.getLast? with
      | none => exact absurd (List.getLast?_eq_none_iff.mp hp) hbase
      | some prior =>
        have hsplit : s.m_digests = s.m_digests.dropLast ++ [d] :=
          (List.dropLast_append_getLast? d hd).symm
        have hlen : s.m_digests.length = s.m_digests.dropLast.length + 1 := by
          conv_lhs => rw [hsplit]
          simp
        have hbl : 0 < s.m_digests.dropLast.length := List.length_pos.mpr hbase
        have hund : undoable s.m_pindices d := by
          apply g2
          rw [hsplit]
          cases hb : s.m_digests.dropLast with
          | nil => exact absurd hb hbase
          | cons x xs => simp
        have hiter : s.m_sim_iter ≠ 0 := by
          intro h0
          rw [h0, hlen] at g3
          omega
        obtain ⟨s1, hbw, h1, h2, h3, _⟩ := backward_spec s (map_ok_range s hmap)
          (map_ok_slots s hmap) s.m_digests.dropLast d prior hsplit hp hund hiter
        refine ⟨d, prior, s1, rfl, rfl, hbw, ?_, h2, h3⟩
        rw [h1]
        exact Nat.succ_pred_eq_of_ne_zero hiter
  refine ⟨?_, hok⟩
  constructor
  · rintro ⟨e, he⟩
    by_contra hbase
    obtain ⟨d, prior, s1, _, _, hbw, _⟩ := hok hbase
    rw [hbw] at he
    exact Except.noConfusion he
  · intro hbase
    cases hb : backward s with
    | error e => exact ⟨e, rfl⟩
    | ok r =>
      exfalso
      obtain ⟨_, _, h3, ⟨prior, hp, _⟩, _⟩ := backward_inv s r.2 r.1 hb
      rw [h3, hbase] at hp
      simp at hp

theorem backward_raises_iff_witness :
    cfg_ross.WCS_HAS_ROSS = true ∧ Reachable cfg_ross fwd2_AB ∧
    ((∃ e, backward fwd2_AB = .error e) ↔ fwd2_AB.m_digests.dropLast = []) ∧
    (fwd2_AB.m_digests.dropLast ≠ [] →
      ∃ (d prior : Sim_State_Change) (s1 : SSA_Direct),
        fwd2_AB.m_digests.getLast? = some d ∧ fwd2_AB.m_digests.dropLast.getLast? = some prior ∧
        backward fwd2_AB = .ok (d.m_sim_time, s1) ∧
        s1.m_sim_iter + 1 = fwd2_AB.m_sim_iter ∧ s1.m_sim_time = prior.m_sim_time ∧
        s1.m_digests = fwd2_AB.m_digests.dropLast) :=
  ⟨rfl, Reachable.forward fwd1_AB fwd2_AB 2 true fwd1_AB_reachable fwd2_AB_eq,
    backward_raises_iff cfg_ross rfl fwd2_AB
      (Reachable.forward fwd1_AB fwd2_AB 2 true fwd1_AB_reachable fwd2_AB_eq)⟩

/-! ## The calls of `forward` in a run -/

theorem schedule_success_next_time (cfg : Config) (s : SSA_Direct) (next_time : sim_time_t)
    (h : (schedule cfg s next_time).1 = result_t.Success) :
    (schedule cfg s next_time).2.1 = s.m_sim_time + (get_reaction_time cfg s).1 := by
  unfold schedule at h ⊢
  split at h
  · exact result_t.noConfusion h
  · rename_i hne
    simp only [hne, Bool.false_eq_true, if_false]
    split <;> rfl

theorem schedule_success_time_le (cfg : Config) (hlog : ∀ e, cfg.log (cfg.uniform e).1 ≤ 0)
    (s : SSA_Direct) (next_time : sim_time_t)
    (h : (schedule cfg s next_time).1 = result_t.Success) :
    (schedule cfg s next_time).2.2.m_sim_time ≤ (schedule cfg s next_time).2.1 := by
  rw [(schedule_keeps cfg s next_time).1, schedule_success_next_time cfg s next_time h]
  have hnot := schedule_success_inv cfg s next_time h
  rw [not_or] at hnot
  rcases get_reaction_time_nonneg cfg hlog s with hg | hg
  · exact absurd (le_of_eq hg.symm) hnot.1
  · linarith

theorem run_loop_calls_ordered (cfg : Config) (hlog : ∀ e, cfg.log (cfg.uniform e).1 ≤ 0) :
    ∀ (fuel : Nat) (s : SSA_Direct) (t : sim_time_t), s.m_sim_time ≤ t →
      (∀ c ∈ run_loop_calls cfg fuel s t,
        c.1.m_sim_time ≤ c.2 ∧ t ≤ c.2 ∧ s.m_sim_iter ≤ c.1.m_sim_iter) ∧
      (run_loop_calls cfg fuel s t).Pairwise
        (fun a b => a.2 ≤ b.2 ∧ a.1.m_sim_iter < b.1.m_sim_iter) := by
  intro fuel
  induction fuel with
  | zero =>
    intro s t _
    simp [run_loop_calls]
  | succ fuel ih =>
    intro s t hst
    simp only [run_loop_calls]
    have hhead : ∀ c ∈ [(s, t)], c.1.m_sim_time ≤ c.2 ∧ t ≤ c.2 ∧
        s.m_sim_iter ≤ c.1.m_sim_iter := by
      intro c hc
      simp only [List.mem_singleton] at hc
      subst hc
      exact ⟨hst, le_refl _, Nat.le_refl _⟩
    split
    · rename_i s1 hfw
      obtain ⟨f1, f2, _⟩ := forward_true_frame cfg s s1 t hfw
      split
      · exact ⟨hhead, by simp⟩
      · rename_i hsucc
        have hsucc1 : (schedule cfg s1 t).1 = result_t.Success := by
          by_contra hc
          exact hsucc hc
        obtain ⟨c1, c2⟩ := schedule_keeps cfg s1 t
        have hle := schedule_success_time_le cfg hlog s1 t hsucc1
        obtain ⟨r1, r2⟩ := ih (schedule cfg s1 t).2.2 (schedule cfg s1 t).2.1 hle
        have htt : t ≤ (schedule cfg s1 t).2.1 := by
          rw [c1, f2] at hle
          exact hle
        have hrest : ∀ c ∈ run_loop_calls cfg fuel (schedule cfg s1 t).2.2
            (schedule cfg s1 t).2.1, t ≤ c.2 ∧ s.m_sim_iter < c.1.m_sim_iter := by
          intro c hc
          obtain ⟨_, g2, g3⟩ := r1 c hc
          rw [c2, f1] at g3
          exact ⟨le_trans htt g2, Nat.lt_of_succ_le g3⟩
        constructor
        · intro c hc
          rcases List.mem_cons.mp hc with hc1 | hc1
          · exact hhead c (by rw [hc1]; exact List.mem_singleton_self _)
          · exact ⟨(r1 c hc1).1, (hrest c hc1).1, Nat.le_of_lt (hrest c hc1).2⟩
        · rw [List.pairwise_cons]
          exact ⟨hrest, r2⟩
    · exact ⟨hhead, by simp⟩

/-- C11: within one run events are ordered in time. With draws `u` in `(0, 1)` (and a
logarithm that is not positive there), every delay `get_reaction_time` computes from a draw is
`>= 0` (and so is every value it returns when `etime_ulimit >= 0`); every time a successful
`schedule` leaves in `next_time` is `>=` the current `sim_time`; and in the calls of `forward`
that `run` makes, each time passed is `>=` the `sim_time` before the call, the times passed
are non-decreasing and `sim_iter` is strictly increasing from call to call. -/
theorem run_events_ordered (cfg : Config)
    (hdraw : ∀ e, 0 < (cfg.uniform e).1 ∧ (cfg.uniform e).1 < 1)
    (hlog : ∀ u : ℚ, 0 < u → u < 1 → cfg.log u ≤ 0) :
    (∀ (s : SSA_Direct) (back : priority_t), s.m_propensity.getLast? = some back → 0 < back.1 →
      0 ≤ (get_reaction_time cfg s).1) ∧
    (∀ s : SSA_Direct, 0 ≤ s.m_net.m_etime_ulimit → 0 ≤ (get_reaction_time cfg s).1) ∧
    (∀ (s : SSA_Direct) (next_time : sim_time_t),
      (schedule cfg s next_time).1 = result_t.Success →
      (schedule cfg s next_time).2.2.m_sim_time ≤ (schedule cfg s next_time).2.1) ∧
    (∀ (s : SSA_Direct) (fuel : Nat), (schedule cfg s 0).1 = result_t.Success →
      (∀ c ∈ run_loop_calls cfg fuel (schedule cfg s 0).2.2 (schedule cfg s 0).2.1,
        c.1.m_sim_time ≤ c.2) ∧
      (run_loop_calls cfg fuel (schedule cfg s 0).2.2 (schedule cfg s 0).2.1).Pairwise
        (fun a b => a.2 ≤ b.2 ∧ a.1.m_sim_iter < b.1.m_sim_iter)) := by
  have hlog1 : ∀ e, cfg.log (cfg.uniform e).1 ≤ 0 :=
    fun e => hlog _ (hdraw e).1 (hdraw e).2
  refine ⟨?_, ?_, ?_, ?_⟩
  · intro s back hb hpos
    rcases get_reaction_time_nonneg cfg hlog1 s with hg | hg
    · have hnot : ¬ back.1 ≤ 0 := not_le.mpr hpos
      simp only [get_reaction_time, hb, hnot, if_false] at hg ⊢
      have := div_nonpos_of_nonpos_of_nonneg (hlog1 s.m_rgen_tm) (le_of_lt hpos)
      linarith
    · exact hg
  · intro s hu
    rcases get_reaction_time_nonneg cfg hlog1 s with hg | hg
    · rw [hg]
      exact hu
    · exact hg
  · intro s next_time h
    exact schedule_success_time_le cfg hlog1 s next_time h
  · intro s fuel h
    have hle := schedule_success_time_le cfg hlog1 s 0 h
    obtain ⟨r1, r2⟩ := run_loop_calls_ordered cfg hlog1 fuel _ _ hle
    exact ⟨fun c hc => (r1 c hc).1, r2⟩

theorem cfg_ross_draw (e : Nat) : 0 < (cfg_ross.uniform e).1 ∧ (cfg_ross.uniform e).1 < 1 := by
  simp only [cfg_ross]
  split <;> norm_num

theorem cfg_ross_log_unit : ∀ u : ℚ, 0 < u → u < 1 → cfg_ross.log u ≤ 0 := by
  intro u _ _
  norm_num [cfg_ross]

theorem run_events_ordered_witness :
    (∀ e, 0 < (cfg_ross.uniform e).1 ∧ (cfg_ross.uniform e).1 < 1) ∧
    (∀ u : ℚ, 0 < u → u < 1 → cfg_ross.log u ≤ 0) ∧
    (schedule cfg_ross init_AB 0).1 = result_t.Success ∧
    ((∀ c ∈ run_loop_calls cfg_ross 11 (schedule cfg_ross init_AB 0).2.2
        (schedule cfg_ross init_AB 0).2.1, c.1.m_sim_time ≤ c.2) ∧
      (run_loop_calls cfg_ross 11 (schedule cfg_ross init_AB 0).2.2
        (schedule cfg_ross init_AB 0).2.1).Pairwise
        (fun a b => a.2 ≤ b.2 ∧ a.1.m_sim_iter < b.1.m_sim_iter)) :=
  ⟨cfg_ross_draw, cfg_ross_log_unit, by with_unfolding_all rfl,
    (run_events_ordered cfg_ross cfg_ross_draw cfg_ross_log_unit).2.2.2 init_AB 11
      (by with_unfolding_all rfl)⟩

/-! ## The errors of `run` -/

theorem record_first_n_loop_recorded (num : Nat) :
    ∀ (ds : List Sim_State_Change) (i pos : Nat) (s : SSA_Direct),
      (record_first_n_loop num i pos ds s).2.m_recorded =
        s.m_recorded ++
          (ds.take (num - i)).map (fun d => (d.m_sim_time, d.m_reaction_fired)) := by
  intro ds
  induction ds with
  | nil => intro i pos s; simp [record_first_n_loop]
  | cons d ds ih =>
    intro i pos s
    simp only [record_first_n_loop]
    split
    · rename_i hge
      have hge1 : num ≤ i := hge
      have h0 : num - i = 0 := by omega
      simp [h0]
    · rename_i hlt
      have hlt1 : i < num := Nat.lt_of_not_le hlt
      have h1 : num - i = (num - (i + 1)) + 1 := by omega
      rw [ih, h1, List.take_succ_cons, List.map_cons]
      simp [record_at]

/-- C21: for a digest list `[d0, d1, ..., dm]`, `record_first_n(n)` hands to the recorder the
steps `(d_i.sim_time, d_i.fired)` of the digests `d1, ..., d_min(n, m)`, in this order, after
what was recorded before, and nothing else: the sentinel `d0` is not recorded, and on an empty
list nothing is recorded. -/
theorem record_first_n_records (s : SSA_Direct) (num : Nat) :
    (record_first_n s num).m_recorded =
        s.m_recorded ++
          ((s.m_digests.drop 1).take num).map (fun d => (d.m_sim_time, d.m_reaction_fired)) ∧
    ((s.m_digests.drop 1).take num).length = min num (s.m_digests.length - 1) ∧
    (∀ i : Nat, i < min num (s.m_digests.length - 1) →
      ((s.m_digests.drop 1).take num)[i]? = s.m_digests[i + 1]?) ∧
    (s.m_digests = [] → record_first_n s num = s) := by
  refine ⟨?_, ?_, ?_, ?_⟩
  · unfold record_first_n
    split
    · rename_i hlen
      have : s.m_digests = [] := List.eq_nil_of_length_eq_zero (by omega)
      simp [this]
    · simp only []
      rw [record_first_n_loop_recorded]
      simp
  · simp [List.length_take, List.length_drop]
  · intro i hi
    have hi1 : i < num := lt_of_lt_of_le hi (Nat.min_le_left _ _)
    rw [List.getElem?_take_of_lt hi1, List.getElem?_drop, Nat.add_comm]
  · intro h
    simp [record_first_n, h]

/-- C22 (as stated, refuted): in the state `fwd2_AB`, whose digest list is `[d0, d1, d2]`,
`record_first_n(1)` records the digest `d1` and leaves the list `[d1, d2]`: the recorded digest
`d1` remains in the list, as its first element. -/
theorem record_first_n_keeps_recorded :
    fwd2_AB.m_digests.length = 3 ∧
    ∃ d1 : Sim_State_Change, fwd2_AB.m_digests[1]? = some d1 ∧
      (record_first_n fwd2_AB 1).m_recorded =
        fwd2_AB.m_recorded ++ [(d1.m_sim_time, d1.m_reaction_fired)] ∧
      (record_first_n fwd2_AB 1).m_digests[0]? = some d1 ∧
      (record_first_n fwd2_AB 1).m_digests = fwd2_AB.m_digests.drop 1 :=
  ⟨by with_unfolding_all rfl, (fwd2_AB.m_digests[1]?).getD Sim_State_Change.empty,
    by with_unfolding_all rfl, by with_unfolding_all rfl, by with_unfolding_all rfl,
    by with_unfolding_all rfl⟩

/-- C22 (amended): with `k = min(n, m)` for a digest list `[d0, ..., dm]`, `record_first_n(n)`
erases the first `k` digests, which are the sentinel `d0` and the recorded digests
`d1, ..., d_(k-1)`; the last recorded digest `d_k` is not erased and becomes the first element
of the list, followed by the digests that were not recorded. -/
theorem record_first_n_erases (s : SSA_Direct) (num : Nat) :
    (record_first_n s num).m_digests
      = s.m_digests.drop (min num (s.m_digests.length - 1)) ∧
    (∀ i : Nat, (record_first_n s num).m_digests[i]?
      = s.m_digests[min num (s.m_digests.length - 1) + i]?) ∧
    (s.m_digests ≠ [] →
      ∃ d, s.m_digests[min num (s.m_digests.length - 1)]? = some d ∧
        (record_first_n s num).m_digests.head? = some d) ∧
    (0 < min num (s.m_digests.length - 1) →
      ((s.m_digests.drop 1).take num).getLast?
        = s.m_digests[min num (s.m_digests.length - 1)]?) := by
  have hdrop := record_first_n_drop s num
  refine ⟨hdrop, ?_, ?_, ?_⟩
  · intro i
    rw [hdrop, List.getElem?_drop]
  · intro hne
    have hlen : 0 < s.m_digests.length := List.length_pos.mpr hne
    have hk : min num (s.m_digests.length - 1) < s.m_digests.length := by
      have := Nat.min_le_right num (s.m_digests.length - 1)
      omega
    refine ⟨s.m_digests[min num (s.m_digests.length - 1)], List.getElem?_eq_getElem hk, ?_⟩
    rw [hdrop, List.head?_drop, List.getElem?_eq_getElem hk]
  · intro hpos
    have hlen : ((s.m_digests.drop 1).take num).length = min num (s.m_digests.length - 1) := by
      simp [List.length_take, List.length_drop]
    rw [List.getLast?_eq_getElem?, hlen]
    have hlt : min num (s.m_digests.length - 1) - 1 < num := by
      have := Nat.min_le_left num (s.m_digests.length - 1)
      omega
    rw [List.getElem?_take_of_lt hlt, List.getElem?_drop]
    congr 1
    omega

/-! ## The platform entropy -/

theorem schedule_entropy_free (r : Bool) (u : Nat → ℚ × Nat) (l : ℚ → ℚ) (ss : Nat → Nat → Nat)
    (e1 t1 e2 t2 : Nat) (s : SSA_Direct) (t : sim_time_t) :
    schedule ⟨r, u, l, ss, e1, t1⟩ s t = schedule ⟨r, u, l, ss, e2, t2⟩ s t := rfl

theorem forward_entropy_free (r : Bool) (u : Nat → ℚ × Nat) (l : ℚ → ℚ) (ss : Nat → Nat → Nat)
    (e1 t1 e2 t2 : Nat) (s : SSA_Direct) (t : sim_time_t) :
    forward ⟨r, u, l, ss, e1, t1⟩ s t = forward ⟨r, u, l, ss, e2, t2⟩ s t := rfl

theorem run_loop_entropy_free (r : Bool) (u : Nat → ℚ × Nat) (l : ℚ → ℚ)
    (ss : Nat → Nat → Nat) (e1 t1 e2 t2 : Nat) :
    ∀ (fuel : Nat) (s : SSA_Direct) (t : sim_time_t),
      run_loop ⟨r, u, l, ss, e1, t1⟩ fuel s t = run_loop ⟨r, u, l, ss, e2, t2⟩ fuel s t := by
  intro fuel
  induction fuel with
  | zero => intro s t; rfl
  | succ n ih =>
    intro s t
    simp only [run_loop]
    rw [forward_entropy_free r u l ss e1 t1 e2 t2]
    cases forward ⟨r, u, l, ss, e2, t2⟩ s t with
    | error e => rfl
    | ok p =>
      obtain ⟨b, s1⟩ := p
      cases b with
      | false => rfl
      | true =>
        simp only []
        rw [schedule_entropy_free r u l ss e1 t1 e2 t2, ih]

theorem run_loop_calls_entropy_free (r : Bool) (u : Nat → ℚ × Nat) (l : ℚ → ℚ)
    (ss : Nat → Nat → Nat) (e1 t1 e2 t2 : Nat) :
    ∀ (fuel : Nat) (s : SSA_Direct) (t : sim_time_t),
      run_loop_calls ⟨r, u, l, ss, e1, t1⟩ fuel s t
        = run_loop_calls ⟨r, u, l, ss, e2, t2⟩ fuel s t := by
  intro fuel
  induction fuel with
  | zero => intro s t; rfl
  | succ n ih =>
    intro s t
    simp only [run_loop_calls]
    rw [forward_entropy_free r u l ss e1 t1 e2 t2]
    cases forward ⟨r, u, l, ss, e2, t2⟩ s t with
    | error e => rfl
    | ok p =>
      obtain ⟨b, s1⟩ := p
      cases b with
      | false => rfl
      | true =>
        simp only []
        rw [schedule_entropy_free r u l ss e1 t1 e2 t2, ih]

theorem run_state_entropy_free (r : Bool) (u : Nat → ℚ × Nat) (l : ℚ → ℚ)
    (ss : Nat → Nat → Nat) (e1 t1 e2 t2 : Nat) (s : SSA_Direct) :
    run_state ⟨r, u, l, ss, e1, t1⟩ s = run_state ⟨r, u, l, ss, e2, t2⟩ s := by
  simp only [run_state]
  rw [schedule_entropy_free r u l ss e1 t1 e2 t2, run_loop_entropy_free r u l ss e1 t1 e2 t2]

/-- The platform entropy is not used for a non-zero seed. Take two builds that agree in the
build flag, the draw function, the logarithm and the seeding function and may differ in what
the entropy source of the platform gives. For every non-zero seed, `init` with the same seed,
`max_iter` and `max_time` on the same network gives the same result in both; `schedule` and
`forward` do not read the entropy, the loop of `run` makes the same `forward` calls, and `run`
ends in the same final state and returns the same pair. -/
theorem same_seed_same_run (cfg1 cfg2 : Config)
    (hross : cfg1.WCS_HAS_ROSS = cfg2.WCS_HAS_ROSS) (hu : cfg1.uniform = cfg2.uniform)
    (hlog : cfg1.log = cfg2.log) (hss : cfg1.seed_seq = cfg2.seed_seq)
    (net_ptr : Option Network) (max_iter : sim_iter_t) (max_time : sim_time_t) (rng_seed : Nat)
    (hseed : rng_seed ≠ 0) :
    init cfg1 net_ptr max_iter max_time rng_seed = init cfg2 net_ptr max_iter max_time rng_seed ∧
    (∀ (s : SSA_Direct) (t : sim_time_t), schedule cfg1 s t = schedule cfg2 s t) ∧
    (∀ (s : SSA_Direct) (t : sim_time_t), forward cfg1 s t = forward cfg2 s t) ∧
    (∀ (fuel : Nat) (s : SSA_Direct) (t : sim_time_t),
      run_loop_calls cfg1 fuel s t = run_loop_calls cfg2 fuel s t) ∧
    (∀ s1 s2 : SSA_Direct, init cfg1 net_ptr max_iter max_time rng_seed = .ok s1 →
      init cfg2 net_ptr max_iter max_time rng_seed = .ok s2 →
      s1 = s2 ∧ run_state cfg1 s1 = run_state cfg2 s2 ∧ run cfg1 s1 = run cfg2 s2 ∧
      ∀ (r1 r2 : SSA_Direct) (n1 n2 : Nat), run_state cfg1 s1 = .ok (r1, n1) →
        run_state cfg2 s2 = .ok (r2, n2) →
        r1.m_recorded = r2.m_recorded ∧ r1.m_digests = r2.m_digests ∧ n1 = n2) := by
  obtain ⟨r1, u1, l1, ss1, e1, t1⟩ := cfg1
  obtain ⟨r2, u2, l2, ss2, e2, t2⟩ := cfg2
  simp only [] at hross hu hlog hss
  subst hross hu hlog hss
  have hinit : init ⟨r1, u1, l1, ss1, e1, t1⟩ net_ptr max_iter max_time rng_seed
      = init ⟨r1, u1, l1, ss1, e2, t2⟩ net_ptr max_iter max_time rng_seed := by
    simp only [init, hseed, if_false]
  have hstate := run_state_entropy_free r1 u1 l1 ss1 e1 t1 e2 t2
  refine ⟨hinit, fun s t => rfl, fun s t => rfl,
    run_loop_calls_entropy_free r1 u1 l1 ss1 e1 t1 e2 t2, ?_⟩
  intro s1 s2 h1 h2
  rw [hinit, h2] at h1
  simp only [Except.ok.injEq] at h1
  subst h1
  refine ⟨rfl, hstate _, ?_, ?_⟩
  · simp only [run, hstate]
  · intro q1 q2 n1 n2 g1 g2
    rw [hstate, g2] at g1
    simp only [Except.ok.injEq, Prod.mk.injEq] at g1
    obtain ⟨g3, g4⟩ := g1
    subst g3 g4
    exact ⟨rfl, rfl, rfl⟩

theorem same_seed_same_run_witness :
    cfg_ross.WCS_HAS_ROSS = cfg_ross_alt.WCS_HAS_ROSS ∧
    cfg_ross.entropy_evt ≠ cfg_ross_alt.entropy_evt ∧ (1 : Nat) ≠ 0 ∧
    init cfg_ross (some net_AB) 10 100 1 = .ok init_AB ∧
    init cfg_ross_alt (some net_AB) 10 100 1 = .ok init_AB ∧
    run cfg_ross init_AB = run cfg_ross_alt init_AB := by
  have h := same_seed_same_run cfg_ross cfg_ross_alt rfl rfl rfl rfl (some net_AB) 10 100 1
    (by decide)
  have h2 : init cfg_ross_alt (some net_AB) 10 100 1 = .ok init_AB := by
    rw [← h.1]
    exact init_AB_eq
  exact ⟨rfl, by decide, by decide, init_AB_eq, h2,
    (h.2.2.2.2 init_AB init_AB init_AB_eq h2).2.2.1⟩

/-! ## The fragment size of the trajectory recorder -/

theorem frag_size_max_pos : frag_size_max ≠ 0 := by
  decide

/-- The three outcomes of `set_outfile`, by the value `m_frag_size` receives first. -/
theorem set_outfile_cases (b : Trajectory_Config) (tr : Trajectory) (outfile : String)
    (f : frag_size_t) :
    (b.WCS_HAS_CEREAL = true →
      Trajectory.set_outfile b tr outfile f =
        if (if outfile = "" then 0 else f) = frag_size_max then .error Err.InvalidFragmentSize
        else if (if outfile = "" then 0 else f) = 0 then
          .ok { tr with
            m_outfile_stem :=
              (b.extract_file_component outfile).1 ++ (b.extract_file_component outfile).2.1
            m_outfile_ext := (b.extract_file_component outfile).2.2
            m_frag_size := frag_size_max }
        else
          .ok { tr with
            m_outfile_stem :=
              (b.extract_file_component outfile).1 ++ (b.extract_file_component outfile).2.1
            m_outfile_ext := (b.extract_file_component outfile).2.2
            m_frag_size := f }) ∧
    (b.WCS_HAS_CEREAL = false →
      Trajectory.set_outfile b tr outfile f =
        if f > 0 then .error Err.CerealRequired
        else
          .ok { tr with
            m_outfile_stem :=
              (b.extract_file_component outfile).1 ++ (b.extract_file_component outfile).2.1
            m_outfile_ext := (b.extract_file_component outfile).2.2
            m_frag_size := frag_size_max }) := by
  constructor
  · intro hb
    simp only [Trajectory.set_outfile, hb, if_true]
    by_cases he : outfile = ""
    · simp [he, frag_size_max_pos.symm]
    · simp only [he, if_false]
  · intro hb
    simp only [Trajectory.set_outfile, hb, Bool.false_eq_true, if_false]
    by_cases h1 : f > 0
    · simp [h1]
    · have h0 : f = 0 := Nat.eq_zero_of_not_pos h1
      simp [h0, frag_size_max_pos.symm]

/-- C24: in a build with `WCS_HAS_CEREAL`, `set_outfile(outfile, 0)` returns for every
`outfile` and stores the largest value of the fragment-size type as the fragment size. In
every build, whenever `set_outfile(outfile, f)` returns, the stored fragment size is that
largest value if `f = 0` or `outfile` is empty, and `f` otherwise; so it is never `0`. -/
theorem set_outfile_zero_disables (b : Trajectory_Config) (tr : Trajectory) :
    (b.WCS_HAS_CEREAL = true → ∀ outfile : String,
      ∃ tr1, Trajectory.set_outfile b tr outfile 0 = .ok tr1 ∧ tr1.m_frag_size = frag_size_max) ∧
    (∀ (outfile : String) (f : frag_size_t) (tr1 : Trajectory),
      Trajectory.set_outfile b tr outfile f = .ok tr1 →
      tr1.m_frag_size = (if f = 0 ∨ outfile = "" then frag_size_max else f) ∧
      tr1.m_frag_size ≠ 0) := by
  constructor
  · intro hb outfile
    rw [(set_outfile_cases b tr outfile 0).1 hb]
    simp [frag_size_max_pos.symm]
  · intro outfile f tr1 h
    cases hb : b.WCS_HAS_CEREAL with
    | true =>
      rw [(set_outfile_cases b tr outfile f).1 hb] at h
      by_cases he : outfile = ""
      · simp only [he, if_true, frag_size_max_pos.symm, if_false, Except.ok.injEq] at h
        subst h
        simp [frag_size_max_pos, he]
      · simp only [he, if_false] at h
        by_cases h1 : f = frag_size_max
        · simp [h1] at h
        · by_cases h2 : f = 0
          · simp only [h2, frag_size_max_pos.symm, if_false, if_true, Except.ok.injEq] at h
            subst h
            simp [frag_size_max_pos, h2]
          · simp only [h1, h2, if_false, Except.ok.injEq] at h
            subst h
            simp [h2, he]
    | false =>
      rw [(set_outfile_cases b tr outfile f).2 hb] at h
      by_cases h1 : f > 0
      · simp [h1] at h
      · have h0 : f = 0 := Nat.eq_zero_of_not_pos h1
        simp only [h1, if_false, Except.ok.injEq] at h
        subst h
        simp [h0, frag_size_max_pos]

/-- C25 (as stated, refuted): in a build with `WCS_HAS_CEREAL`, `set_outfile` with the empty
path and the largest value of the fragment-size type returns; it raises no error. -/
theorem set_outfile_max_empty_path :
    traj_cereal.WCS_HAS_CEREAL = true ∧
    Trajectory.set_outfile traj_cereal traj_new "" frag_size_max
      = .ok { traj_new with m_frag_size := frag_size_max } := by
  refine ⟨rfl, ?_⟩
  rw [(set_outfile_cases traj_cereal traj_new "" frag_size_max).1 rfl]
  simp [frag_size_max_pos.symm, traj_cereal, traj_new]

/-- C25 (amended): when `f` is the largest value of the fragment-size type, `set_outfile(path, f)`
raises the fragment-size error for every non-empty path in a build with `WCS_HAS_CEREAL`; for
the empty path it returns there, with that largest value stored; and in a build without
`WCS_HAS_CEREAL` it raises the error that asks for a build with fragment support. -/
theorem set_outfile_max (b : Trajectory_Config) (tr : Trajectory) (path : String) :
    (b.WCS_HAS_CEREAL = true → path ≠ "" →
      Trajectory.set_outfile b tr path frag_size_max = .error Err.InvalidFragmentSize) ∧
    (b.WCS_HAS_CEREAL = true → path = "" →
      ∃ tr1, Trajectory.set_outfile b tr path frag_size_max = .ok tr1 ∧
        tr1.m_frag_size = frag_size_max) ∧
    (b.WCS_HAS_CEREAL = false →
      Trajectory.set_outfile b tr path frag_size_max = .error Err.CerealRequired) := by
  refine ⟨?_, ?_, ?_⟩
  · intro hb hne
    rw [(set_outfile_cases b tr path frag_size_max).1 hb]
    simp [hne]
  · intro hb he
    rw [(set_outfile_cases b tr path frag_size_max).1 hb]
    simp [he, frag_size_max_pos.symm]
  · intro hb
    rw [(set_outfile_cases b tr path frag_size_max).2 hb]
    have : frag_size_max > 0 := Nat.pos_of_ne_zero frag_size_max_pos
    simp [this]

/-! ## The zero that `update_reactions` writes and loses -/

theorem rates_only_check {n1 n2 : Network} (h : rates_only n1 n2) (vd : v_desc_t) :
    n2.check_reaction vd = n1.check_reaction vd := by
  unfold rates_only at h
  rw [h]
  rfl

theorem refresh_rate_failed (net : Network) (vd : v_desc_t)
    (hc : net.check_reaction vd = false) : refresh_rate net vd true = (0, net) := by
  simp [refresh_rate, hc]

theorem refresh_rate_stale (net : Network) (vd0 vd : v_desc_t)
    (hc : net.check_reaction vd = false) :
    (refresh_rate net vd0 true).2.m_rate vd = net.m_rate vd := by
  by_cases h : vd = vd0
  · subst h
    rw [refresh_rate_failed net vd hc]
  · exact refresh_rate_rate_ne net vd0 true vd h

theorem update_affected_stale (pindices : pindices_t) (vd : v_desc_t) :
    ∀ (affected : List v_desc_t) (net : Network) (prop : List priority_t) (pm : Nat)
      (net2 : Network) (prop2 : List priority_t) (pm2 : Nat),
      update_affected pindices true affected net prop pm = .ok (net2, prop2, pm2) →
      net.check_reaction vd = false → net2.m_rate vd = net.m_rate vd := by
  intro affected
  induction affected with
  | nil =>
    intro net prop pm net2 prop2 pm2 h _
    simp only [update_affected, Except.ok.injEq, Prod.mk.injEq] at h
    rw [h.1]
  | cons vd0 rest ih =>
    intro net prop pm net2 prop2 pm2 h hc
    simp only [update_affected] at h
    split at h
    · exact Except.noConfusion h
    · split at h
      · exact Except.noConfusion h
      · have hc1 : (refresh_rate net vd0 true).2.check_reaction vd = false := by
          rw [rates_only_check (refresh_rate_rates_only net vd0 true) vd]
          exact hc
        rw [ih _ _ _ _ _ _ h hc1]
        exact refresh_rate_stale net vd0 vd hc

/-- A reaction that fails `check_reaction` keeps its cached rate through `update_reactions`
with `check_reaction = true`. -/
theorem update_reactions_stale (s s1 : SSA_Direct) (fired : Nat) (affected : List v_desc_t)
    (h : update_reactions s fired affected true = .ok s1) (vd : v_desc_t)
    (hc : s.m_net.check_reaction vd = false) : s1.m_net.m_rate vd = s.m_net.m_rate vd := by
  simp only [update_reactions] at h
  split at h
  · exact Except.noConfusion h
  · rename_i f hf
    split at h
    · exact Except.noConfusion h
    · split at h
      · exact Except.noConfusion h
      · rename_i net2 prop2 pm2 hrun
        split at h
        · exact Except.noConfusion h
        · simp only [Except.ok.injEq] at h
          rw [← h]
          simp only []
          have hc1 : (refresh_rate s.m_net f.2 true).2.check_reaction vd = false := by
            rw [rates_only_check (refresh_rate_rates_only s.m_net f.2 true) vd]
            exact hc
          rw [update_affected_stale _ vd _ _ _ _ _ _ _ hrun hc1]
          exact refresh_rate_stale s.m_net f.2 vd hc

theorem recumulate_congr (rate : v_desc_t → reaction_rate_t) :
    ∀ (l1 l2 : List priority_t) (sum : reaction_rate_t), l1.map Prod.snd = l2.map Prod.snd →
      recumulate rate sum l1 = recumulate rate sum l2 := by
  intro l1
  induction l1 with
  | nil =>
    intro l2 sum h
    cases l2 with
    | nil => rfl
    | cons q qs => simp at h
  | cons p ps ih =>
    intro l2 sum h
    cases l2 with
    | nil => simp at h
    | cons q qs =>
      simp only [List.map_cons, List.cons.injEq] at h
      simp only [recumulate, h.1]
      rw [ih qs _ h.2]

theorem cumulative_from_eq_recumulate (rate : v_desc_t → reaction_rate_t) :
    ∀ (l : List priority_t) (prev : reaction_rate_t), cumulative_from rate prev l →
      l = recumulate rate prev l := by
  intro l
  induction l with
  | nil => intro prev _; rfl
  | cons p ps ih =>
    intro prev h
    obtain ⟨h1, h2⟩ := h
    simp only [recumulate]
    rw [← h1]
    exact congrArg (List.cons p) (ih p.1 h2)

/-- The vector `update_reactions` leaves in a state that satisfies the cumulative invariant:
it satisfies the invariant for the cached rates after the call and keeps the handles. -/
theorem update_reactions_cumulative (s : SSA_Direct) (fired : Nat)
    (affected : List v_desc_t) (check : Bool)
    (hinv : slot_invariant s.m_net.m_rate s.m_propensity)
    (hmap : pindices_consistent s)
    (hfired : fired < s.m_propensity.length)
    (haff : ∀ vd ∈ affected, s.m_pindices vd ≠ none) :
    ∃ s1, update_reactions s fired affected check = .ok s1 ∧
      cumulative_from s1.m_net.m_rate 0 s1.m_propensity ∧
      s1.m_propensity.map Prod.snd = s.m_propensity.map Prod.snd := by
  obtain ⟨net2, prop2, pm, sum, hrun, hsnd, htake, hrate, _, hsum⟩ :=
    update_reactions_run s fired affected check hmap hfired haff
  have hcum : cumulative_from net2.m_rate 0
      (prop2.take pm ++ recumulate net2.m_rate sum (prop2.drop pm)) := by
    rw [cumulative_from_append]
    constructor
    · rw [htake]
      have h0 := (slot_invariant_iff _ _).mp hinv
      rw [← List.take_append_drop pm s.m_propensity, cumulative_from_append] at h0
      apply cumulative_from_congr s.m_net.m_rate net2.m_rate _ 0 _ h0.1
      intro p hp
      obtain ⟨j, hj, hpj⟩ := mem_take_getElem? _ _ _ hp
      by_contra hne
      obtain ⟨i, hi, hle⟩ := hrate p.2 (fun h => hne h.symm)
      obtain ⟨j1, hj1, hj1le⟩ := hmap.1 j p hpj
      rw [hj1] at hi
      simp only [Option.some.injEq] at hi
      omega
    · rw [← hsum]
      exact cumulative_from_recumulate _ _ _
  refine ⟨_, hrun, hcum, ?_⟩
  simp only [List.map_append, recumulate_snd]
  rw [← List.map_append, List.take_append_drop, hsnd]

/-- C26: in `update_reactions` with `check_reaction = true`, the zero written for a reaction
that fails `Network::check_reaction` does not survive the call. In a state that satisfies the
cumulative invariant and whose reverse map agrees with the slot order, the call returns, and
for every reaction `vd` that fails the check (so for a fired or affected one): the rate
computed for it is `0` and the network is left as it is (`set_reaction_rate` is not invoked),
its cached rate after the call is the one before, and the final cumulative value of its slot is
the value of the previous slot plus that unchanged cached rate. The whole vector after the call
is the running sum of the cached rates over the handles, and its total is their sum. -/
theorem update_reactions_loses_zero (s : SSA_Direct) (fired : Nat) (affected : List v_desc_t)
    (hinv : slot_invariant s.m_net.m_rate s.m_propensity)
    (hmap : pindices_consistent s)
    (hfired : fired < s.m_propensity.length)
    (haff : ∀ vd ∈ affected, s.m_pindices vd ≠ none) :
    ∃ s1, update_reactions s fired affected true = .ok s1 ∧
      (∀ vd : v_desc_t, s.m_net.check_reaction vd = false →
        (∀ net : Network, rates_only s.m_net net → refresh_rate net vd true = (0, net)) ∧
        s1.m_net.m_rate vd = s.m_net.m_rate vd ∧
        ∀ (i : Nat) (p : priority_t), s1.m_propensity[i]? = some p → p.2 = vd →
          p.1 = prev_first s1.m_propensity i + s.m_net.m_rate vd) ∧
      s1.m_propensity = recumulate s1.m_net.m_rate 0 s.m_propensity ∧
      (∀ b, s1.m_propensity.getLast? = some b →
        b.1 = (s1.m_propensity.map (fun p => s1.m_net.m_rate p.2)).sum) := by
  obtain ⟨s1, hrun, hcum, hsnd⟩ :=
    update_reactions_cumulative s fired affected true hinv hmap hfired haff
  have hslot := (slot_invariant_iff _ _).mpr hcum
  refine ⟨s1, hrun, ?_, ?_, ?_⟩
  · intro vd hc
    have hstale := update_reactions_stale s s1 fired affected hrun vd hc
    refine ⟨?_, hstale, ?_⟩
    · intro net hnet
      apply refresh_rate_failed
      rw [rates_only_check hnet vd]
      exact hc
    · intro i p hp hvd
      rw [hslot i p hp, hvd, hstale]
  · rw [← recumulate_congr s1.m_net.m_rate _ _ 0 hsnd]
    exact cumulative_from_eq_recumulate _ _ _ hcum
  · intro b hb
    have h1 := cumulative_from_total _ _ _ hcum
    have h2 := last_first_of_getLast? _ 0 b hb
    simp only [] at h2
    rw [← h2, h1, zero_add]

theorem update_reactions_loses_zero_witness :
    slot_invariant state_AB_noA.m_net.m_rate state_AB_noA.m_propensity ∧
    pindices_consistent state_AB_noA ∧
    1 < state_AB_noA.m_propensity.length ∧
    (∀ vd ∈ [0], state_AB_noA.m_pindices vd ≠ none) ∧
    state_AB_noA.m_net.check_reaction 0 = false ∧
    state_AB_noA.m_net.m_rate 0 = 1 ∧
    ∃ s1, update_reactions state_AB_noA 1 [0] true = .ok s1 ∧
      (∀ vd : v_desc_t, state_AB_noA.m_net.check_reaction vd = false →
        (∀ net : Network, rates_only state_AB_noA.m_net net →
          refresh_rate net vd true = (0, net)) ∧
        s1.m_net.m_rate vd = state_AB_noA.m_net.m_rate vd ∧
        ∀ (i : Nat) (p : priority_t), s1.m_propensity[i]? = some p → p.2 = vd →
          p.1 = prev_first s1.m_propensity i + state_AB_noA.m_net.m_rate vd) ∧
      s1.m_propensity = recumulate s1.m_net.m_rate 0 state_AB_noA.m_propensity ∧
      (∀ b, s1.m_propensity.getLast? = some b →
        b.1 = (s1.m_propensity.map (fun p => s1.m_net.m_rate p.2)).sum) :=
  ⟨state_AB_slot_invariant, state_AB_pindices_consistent, by decide,
    by intro vd h; simp at h; subst h; simp [state_AB_noA, state_AB],
    by decide, by with_unfolding_all rfl,
    update_reactions_loses_zero state_AB_noA 1 [0] state_AB_slot_invariant
      state_AB_pindices_consistent (by decide)
      (by intro vd h; simp at h; subst h; simp [state_AB_noA, state_AB])⟩

/-! ## Monotone cumulative values and the rate of the chosen reaction -/

theorem pairwise_first_getElem? (l : List priority_t)
    (h : l.Pairwise (fun a b => a.1 ≤ b.1)) : cumulative_monotone l := by
  intro i j p q hij hp hq
  have hi : i < l.length := by
    by_contra hc
    rw [List.getElem?_eq_none (by omega)] at hp
    exact Option.noConfusion hp
  have hj : j < l.length := by
    by_contra hc
    rw [List.getElem?_eq_none (by omega)] at hq
    exact Option.noConfusion hq
  rw [List.getElem?_eq_getElem hi] at hp
  rw [List.getElem?_eq_getElem hj] at hq
  simp only [Option.some.injEq] at hp hq
  rcases Nat.eq_or_lt_of_le hij with heq | hlt
  · subst heq
    rw [← hp, ← hq]
  · rw [List.pairwise_iff_getElem] at h
    rw [← hp, ← hq]
    exact h i j hi hj hlt

theorem cumulative_from_pairwise (rate : v_desc_t → reaction_rate_t) :
    ∀ (l : List priority_t) (prev : reaction_rate_t), cumulative_from rate prev l →
      (∀ p ∈ l, 0 ≤ rate p.2) →
      (∀ p ∈ l, prev ≤ p.1) ∧ l.Pairwise (fun a b => a.1 ≤ b.1) := by
  intro l
  induction l with
  | nil => intro prev _ _; simp
  | cons x xs ih =>
    intro prev h hnn
    obtain ⟨h1, h2⟩ := h
    have hx : 0 ≤ rate x.2 := hnn x (List.mem_cons_self x xs)
    have hpx : prev ≤ x.1 := by
      rw [h1]
      linarith
    obtain ⟨g1, g2⟩ := ih x.1 h2 (fun p hp => hnn p (List.mem_cons_of_mem x hp))
    constructor
    · intro p hp
      rcases List.mem_cons.mp hp with hp1 | hp1
      · rw [hp1]
        exact hpx
      · exact le_trans hpx (g1 p hp1)
    · rw [List.pairwise_cons]
      exact ⟨g1, g2⟩

/-- A vector that satisfies the cumulative invariant for non-negative rates has non-negative,
non-decreasing cumulative values. -/
theorem slot_invariant_monotone (rate : v_desc_t → reaction_rate_t) (prop : List priority_t)
    (hinv : slot_invariant rate prop) (hnn : ∀ p ∈ prop, 0 ≤ rate p.2) :
    cumulative_monotone prop ∧ ∀ p ∈ prop, 0 ≤ p.1 := by
  obtain ⟨h1, h2⟩ := cumulative_from_pairwise rate prop 0 ((slot_invariant_iff _ _).mp hinv) hnn
  exact ⟨pairwise_first_getElem? prop h2, h1⟩

/-- The slot `choose_reaction` returns on a vector with non-decreasing cumulative values: its
cumulative value is above the scaled draw and those of the slots before it are not. -/
theorem choose_reaction_slot (cfg : Config) (s s1 : SSA_Direct) (back : priority_t) (k : Nat)
    (hback : s.m_propensity.getLast? = some back)
    (hmono : cumulative_monotone s.m_propensity)
    (h : choose_reaction cfg s = .ok (k, s1)) :
    (∃ p, s.m_propensity[k]? = some p ∧
      round_double ((cfg.uniform s.m_rgen_evt).1 * back.1) < p.1) ∧
    (∀ (j : Nat) (q : priority_t), j < k → s.m_propensity[j]? = some q →
      q.1 ≤ round_double ((cfg.uniform s.m_rgen_evt).1 * back.1)) := by
  have hspec := @upper_bound_spec priority_t reaction_rate_t s.m_propensity
    (round_double ((cfg.uniform s.m_rgen_evt).1 * back.1)) (fun lhs rhs => decide (lhs < rhs.1))
    (by
      intro i j e1 e2 hij h1 h2 hc
      simp only [decide_eq_true_eq] at hc ⊢
      exact lt_of_lt_of_le hc (hmono i j e1 e2 hij h1 h2))
  simp only [choose_reaction, hback] at h
  generalize upper_bound s.m_propensity (round_double ((cfg.uniform s.m_rgen_evt).1 * back.1) : reaction_rate_t)
    (fun lhs rhs => decide (lhs < rhs.1)) = it at hspec h
  obtain ⟨hle, hlo, hhi⟩ := hspec
  split at h
  · exact Except.noConfusion h
  · rename_i hne
    simp only [Except.ok.injEq, Prod.mk.injEq] at h
    have hk := h.1
    have hlt : k < s.m_propensity.length := by omega
    refine ⟨⟨s.m_propensity[k], List.getElem?_eq_getElem hlt, ?_⟩, ?_⟩
    · have := hhi k _ (by omega) (List.getElem?_eq_getElem hlt)
      simpa using this
    · intro j q hj hq
      have := hlo j q (by omega) hq
      simpa using this

/-- C27: `choose_reaction` never selects a reaction with zero propensity. For every propensity
vector that satisfies the cumulative invariant with non-negative cached rates and every draw
`u >= 0`, if `choose_reaction` returns slot `k` then `entry[k].first - entry[k-1].first > 0`
(with `entry[-1] = 0`), and the cached rate of the chosen reaction is strictly positive. -/
theorem choose_reaction_positive_rate (cfg : Config) (s s1 : SSA_Direct) (k : Nat)
    (hinv : slot_invariant s.m_net.m_rate s.m_propensity)
    (hnn : ∀ p ∈ s.m_propensity, 0 ≤ s.m_net.m_rate p.2)
    (hu : 0 ≤ (cfg.uniform s.m_rgen_evt).1)
    (h : choose_reaction cfg s = .ok (k, s1)) :
    ∃ p, s.m_propensity[k]? = some p ∧ 0 < p.1 - prev_first s.m_propensity k ∧
      0 < s.m_net.m_rate p.2 := by
  obtain ⟨hmono, hpos⟩ := slot_invariant_monotone _ _ hinv hnn
  cases hback : s.m_propensity.getLast? with
  | none =>
    simp only [choose_reaction, hback] at h
    exact Except.noConfusion h
  | some back =>
    obtain ⟨⟨p, hp, hpt⟩, hbelow⟩ := choose_reaction_slot cfg s s1 back k hback hmono h
    have hb0 : 0 ≤ back.1 := hpos back (List.mem_of_mem_getLast? hback)
    have hrn : 0 ≤ round_double ((cfg.uniform s.m_rgen_evt).1 * back.1) :=
      round_double_nonneg _ (mul_nonneg hu hb0)
    have hprev : prev_first s.m_propensity k
        ≤ round_double ((cfg.uniform s.m_rgen_evt).1 * back.1) := by
      cases k with
      | zero => exact hrn
      | succ j =>
        have hj : j < s.m_propensity.length := by
          by_contra hc
          rw [List.getElem?_eq_none (by omega)] at hp
          exact Option.noConfusion hp
        have hq := hbelow j s.m_propensity[j] (Nat.lt_succ_self j) (List.getElem?_eq_getElem hj)
        simp only [prev_first, List.getElem?_eq_getElem hj]
        exact hq
    have hdiff : 0 < p.1 - prev_first s.m_propensity k := by linarith
    refine ⟨p, hp, hdiff, ?_⟩
    have := hinv k p hp
    linarith

theorem choose_reaction_positive_rate_witness :
    slot_invariant state_AB.m_net.m_rate state_AB.m_propensity ∧
    (∀ p ∈ state_AB.m_propensity, 0 ≤ state_AB.m_net.m_rate p.2) ∧
    0 ≤ (cfg_ross.uniform state_AB.m_rgen_evt).1 ∧
    choose_reaction cfg_ross state_AB
      = .ok (0, { state_AB with m_rgen_evt := (cfg_ross.uniform state_AB.m_rgen_evt).2 }) ∧
    ∃ p, state_AB.m_propensity[0]? = some p ∧ 0 < p.1 - prev_first state_AB.m_propensity 0 ∧
      0 < state_AB.m_net.m_rate p.2 := by
  have hnn : ∀ p ∈ state_AB.m_propensity, 0 ≤ state_AB.m_net.m_rate p.2 := by
    intro p hp
    simp only [state_AB, List.mem_cons, List.mem_singleton, List.not_mem_nil, or_false] at hp
    rcases hp with hp | hp <;> subst hp <;> simp [state_AB, net_AB]
  have hu : 0 ≤ (cfg_ross.uniform state_AB.m_rgen_evt).1 := by
    simp only [cfg_ross]
    split <;> norm_num
  have hch : choose_reaction cfg_ross state_AB
      = .ok (0, { state_AB with m_rgen_evt := (cfg_ross.uniform state_AB.m_rgen_evt).2 }) := by
    with_unfolding_all rfl
  exact ⟨state_AB_slot_invariant, hnn, hu, hch,
    choose_reaction_positive_rate cfg_ross state_AB _ 0 state_AB_slot_invariant hnn hu hch⟩

/-! ## The cumulative invariant in every reachable state -/

theorem update_reactions_slot_invariant (s s1 : SSA_Direct) (fired : Nat)
    (affected : List v_desc_t) (check : Bool)
    (hinv : slot_invariant s.m_net.m_rate s.m_propensity)
    (hmap : pindices_consistent s)
    (h : update_reactions s fired affected check = .ok s1) :
    slot_invariant s1.m_net.m_rate s1.m_propensity := by
  obtain ⟨_, ⟨f, hf, _⟩, haff⟩ := update_reactions_inv s s1 fired affected check h
  have hfired : fired < s.m_propensity.length := by
    by_contra hc
    rw [List.getElem?_eq_none (by omega)] at hf
    exact Option.noConfusion hf
  obtain ⟨s2, hrun, hcum, _⟩ :=
    update_reactions_cumulative s fired affected check hinv hmap hfired haff
  rw [h] at hrun
  simp only [Except.ok.injEq] at hrun
  rw [hrun]
  exact (slot_invariant_iff _ _).mpr hcum

theorem cumulate_cumulative_from (rate : v_desc_t → reaction_rate_t) :
    ∀ (l : List priority_t) (sum : reaction_rate_t) (i : Nat) (pidx : pindices_t),
      (∀ q ∈ l, q.1 = rate q.2) → cumulative_from rate sum (cumulate sum i l pidx).1 := by
  intro l
  induction l with
  | nil => intro sum i pidx _; simp [cumulate, cumulative_from]
  | cons p ps ih =>
    intro sum i pidx h
    simp only [cumulate, cumulative_from]
    refine ⟨?_, ih _ _ _ (fun q hq => h q (List.mem_cons_of_mem p hq))⟩
    rw [h p (List.mem_cons_self p ps)]

/-- The vector `build_propensity_list` leaves satisfies the cumulative invariant for the
cached rates. -/
theorem build_slot_invariant (s : SSA_Direct) :
    slot_invariant s.m_net.m_rate (build_propensity_list s).m_propensity := by
  rw [slot_invariant_iff]
  simp only [build_propensity_list]
  apply cumulate_cumulative_from
  intro q hq
  have hq1 := (stable_sort_perm less
    (s.m_net.m_reactions.map (fun vd => (s.m_net.get_reaction_rate vd, vd)))).subset hq
  simp only [List.mem_map] at hq1
  obtain ⟨vd, _, hvd⟩ := hq1
  rw [← hvd]
  rfl

theorem fire_rate (net net3 : Network) (r : v_desc_t) (h : net.fire r = .ok net3) :
    net3.m_rate = net.m_rate := by
  simp only [Network.fire] at h
  split at h
  · simp only [Except.ok.injEq] at h
    rw [← h]
  · exact Except.noConfusion h

/-- The call of `update_reactions` inside a `backward` call that returns. -/
theorem backward_update (s s1 : SSA_Direct) (t : sim_time_t) (h : backward s = .ok (t, s1)) :
    ∃ (d : Sim_State_Change) (fired : Nat) (s2 : SSA_Direct),
      update_reactions { s with m_net := undo_reaction s.m_net d.m_reaction_fired } fired
        d.m_reactions_affected false = .ok s2 ∧
      s1.m_net = s2.m_net ∧ s1.m_propensity = s2.m_propensity := by
  simp only [backward] at h
  split at h
  · exact Except.noConfusion h
  · rename_i d hd
    split at h
    · exact Except.noConfusion h
    · rename_i fired hfired
      split at h
      · exact Except.noConfusion h
      · split at h
        · exact Except.noConfusion h
        · rename_i s2 hupd
          have hload := load_rgen_state_frame s2 d
          split at h
          · exact Except.noConfusion h
          · split at h
            · exact Except.noConfusion h
            · simp only [Except.ok.injEq, Prod.mk.injEq] at h
              obtain ⟨_, hs1⟩ := h
              refine ⟨d, fired, s2, hupd, ?_, ?_⟩
              · rw [← hs1, hload]
              · rw [← hs1, hload]

theorem record_first_n_net (s : SSA_Direct) (num : Nat) :
    (record_first_n s num).m_net = s.m_net := by
  unfold record_first_n
  split
  · rfl
  · have h := (record_first_n_loop_frame num (s.m_digests.drop 1) 0 1 s).1
    simp only []
    rw [h]

/-- Every reachable state satisfies the cumulative invariant for its cached rates. -/
theorem reachable_slot_invariant (cfg : Config) (s : SSA_Direct) (hs : Reachable cfg s) :
    slot_invariant s.m_net.m_rate s.m_propensity := by
  induction hs with
  | init net_ptr max_iter max_time rng_seed s hinit =>
    obtain ⟨_, _, _, _, _, h6, _⟩ := init_inv cfg _ _ _ _ s hinit
    rw [h6]
    exact build_slot_invariant s
  | schedule s next_time _ ih =>
    rcases schedule_state cfg s next_time with h | h <;> rw [h] <;> exact ih
  | forward s s1 t b hs hfw ih =>
    cases b with
    | false =>
      rw [(forward_false_inv cfg s s1 t hfw).2]
      exact ih
    | true =>
      obtain ⟨_, k, f, net3, s4, _, _, hfire, hupd, hs1⟩ := forward_true_inv cfg s s1 t hfw
      have hmap := reachable_pindices_consistent cfg s hs
      have h4 : slot_invariant s4.m_net.m_rate s4.m_propensity := by
        refine update_reactions_slot_invariant _ s4 k _ true ?_ ?_ hupd
        · show slot_invariant net3.m_rate s.m_propensity
          rw [fire_rate _ _ _ hfire]
          exact ih
        · exact pindices_consistent_of_eq s _ rfl rfl hmap
      rw [hs1]
      split
      · exact h4
      · exact h4
  | backward s s1 t _ hs hbw ih =>
    obtain ⟨d, fired, s2, hupd, h1, h2⟩ := backward_update s s1 t hbw
    have hmap := reachable_pindices_consistent cfg s hs
    have h4 : slot_invariant s2.m_net.m_rate s2.m_propensity := by
      refine update_reactions_slot_invariant _ s2 fired _ false ?_ ?_ hupd
      · exact ih
      · exact pindices_consistent_of_eq s _ rfl rfl hmap
    rw [h1, h2]
    exact h4
  | record_first_n s num _ _ ih =>
    obtain ⟨_, _, h3, _⟩ := record_first_n_digests s num
    rw [h3, record_first_n_net]
    exact ih

/-! ## Sampling during `run` -/

theorem build_handles_mem (s : SSA_Direct) (p : priority_t)
    (hp : p ∈ (build_propensity_list s).m_propensity) : p.2 ∈ s.m_net.m_reactions := by
  have h1 : p.2 ∈ (build_propensity_list s).m_propensity.map Prod.snd :=
    List.mem_map_of_mem Prod.snd hp
  simp only [build_propensity_list] at h1
  rw [cumulate_snd] at h1
  have h2 := ((stable_sort_perm less
    (s.m_net.m_reactions.map (fun vd => (s.m_net.get_reaction_rate vd, vd)))).map
      Prod.snd).subset h1
  simpa [List.map_map, Function.comp_def] using h2

/-- C29: the cumulative propensity vector is monotone when the cached rates are non-negative.
After `build_propensity_list` the cumulative values are non-decreasing in the slot index if the
cached rates of the reactions are non-negative; after an `update_reactions` call, made in a
state that satisfies the cumulative invariant and whose reverse map agrees with the slot
order, they are non-decreasing if the cached rates are non-negative after the call; and both
conditions on the state hold in every reachable state, so in every reachable state with
non-negative cached rates the cumulative values are non-decreasing. -/
theorem cumulative_values_monotone (cfg : Config) (s : SSA_Direct) :
    ((∀ vd ∈ s.m_net.m_reactions, 0 ≤ s.m_net.get_reaction_rate vd) →
      cumulative_monotone (build_propensity_list s).m_propensity) ∧
    (∀ (fired : Nat) (affected : List v_desc_t) (check : Bool) (s1 : SSA_Direct),
      slot_invariant s.m_net.m_rate s.m_propensity → pindices_consistent s →
      update_reactions s fired affected check = .ok s1 →
      (∀ p ∈ s1.m_propensity, 0 ≤ s1.m_net.m_rate p.2) →
      cumulative_monotone s1.m_propensity) ∧
    (Reachable cfg s →
      slot_invariant s.m_net.m_rate s.m_propensity ∧ pindices_consistent s ∧
      ((∀ p ∈ s.m_propensity, 0 ≤ s.m_net.m_rate p.2) →
        cumulative_monotone s.m_propensity)) := by
  refine ⟨?_, ?_, ?_⟩
  · intro hnn
    exact (slot_invariant_monotone _ _ (build_slot_invariant s)
      (fun p hp => hnn p.2 (build_handles_mem s p hp))).1
  · intro fired affected check s1 hinv hmap hrun hnn
    exact (slot_invariant_monotone _ _
      (update_reactions_slot_invariant s s1 fired affected check hinv hmap hrun) hnn).1
  · intro hs
    have hinv := reachable_slot_invariant cfg s hs
    exact ⟨hinv, reachable_pindices_consistent cfg s hs,
      fun hnn => (slot_invariant_monotone _ _ hinv hnn).1⟩

/-- C30: the digest-list invariant of a build with `WCS_HAS_ROSS`. In every state reached
from `init` by `schedule` and `forward` calls, `backward` calls that return and
`record_first_n` calls, the digest list is not empty, its length is at most `sim_iter + 1`, and
the time stored in its last digest is the `sim_time` of the scheduler. -/
theorem digest_list_invariant (cfg : Config) (hross : cfg.WCS_HAS_ROSS = true) (s : SSA_Direct)
    (hs : Reachable cfg s) :
    s.m_digests ≠ [] ∧ s.m_digests.length ≤ s.m_sim_iter + 1 ∧
    ∃ d, s.m_digests.getLast? = some d ∧ d.m_sim_time = s.m_sim_time := by
  obtain ⟨g1, _, g3⟩ := reachable_digests_ok cfg hross s hs
  obtain ⟨_, hlast⟩ := reachable_well_formed cfg hross s hs
  exact ⟨g1, g3, hlast⟩

theorem digest_list_invariant_witness :
    cfg_ross.WCS_HAS_ROSS = true ∧ Reachable cfg_ross fwd1_AB ∧
    fwd1_AB.m_digests.length = 2 ∧
    fwd1_AB.m_digests ≠ [] ∧ fwd1_AB.m_digests.length ≤ fwd1_AB.m_sim_iter + 1 ∧
    ∃ d, fwd1_AB.m_digests.getLast? = some d ∧ d.m_sim_time = fwd1_AB.m_sim_time :=
  ⟨rfl, fwd1_AB_reachable, by with_unfolding_all rfl,
    digest_list_invariant cfg_ross rfl fwd1_AB fwd1_AB_reachable⟩

/-! ## The digest list `record_first_n` leaves -/

/-- C31: for a non-empty digest list `[d0, d1, ..., dm]` and every `n`, with `k = min(n, m)`,
`record_first_n(n)` leaves the list `[d_k, ..., d_m]`, the list without its first `k` elements:
the list shrinks by `k` and stays non-empty; for `k > 0` its new first element is `d_k`, the
last of the digests recorded by the call; and for `k = 0` the list is unchanged. -/
theorem record_first_n_leaves (s : SSA_Direct) (num : Nat) (d0 : Sim_State_Change)
    (ds : List Sim_State_Change) (hlist : s.m_digests = d0 :: ds) :
    (record_first_n s num).m_digests = (d0 :: ds).drop (min num ds.length) ∧
    (record_first_n s num).m_digests.length + min num ds.length = ds.length + 1 ∧
    (record_first_n s num).m_digests ≠ [] ∧
    (0 < min num ds.length →
      ∃ dk, ds[min num ds.length - 1]? = some dk ∧
        (record_first_n s num).m_digests.head? = some dk ∧
        (ds.take num).getLast? = some dk ∧
        (record_first_n s num).m_digests = dk :: ds.drop (min num ds.length)) ∧
    (min num ds.length = 0 → (record_first_n s num).m_digests = d0 :: ds) := by
  have hk : min num ds.length ≤ ds.length := Nat.min_le_right _ _
  have hdrop : (record_first_n s num).m_digests = (d0 :: ds).drop (min num ds.length) := by
    rw [record_first_n_drop, hlist]
    simp
  have hlen : (record_first_n s num).m_digests.length + min num ds.length = ds.length + 1 := by
    rw [hdrop, List.length_drop, List.length_cons]
    omega
  refine ⟨hdrop, hlen, ?_, ?_, ?_⟩
  · intro hnil
    rw [hnil] at hlen
    simp only [List.length_nil] at hlen
    omega
  · intro hpos
    have hidx : min num ds.length - 1 < ds.length := by omega
    have hsucc : min num ds.length = (min num ds.length - 1) + 1 := by omega
    have hdk : ds[min num ds.length - 1]? = some ds[min num ds.length - 1] :=
      List.getElem?_eq_getElem hidx
    have hrest : (record_first_n s num).m_digests
        = ds[min num ds.length - 1] :: ds.drop (min num ds.length) := by
      rw [hdrop]
      conv_lhs => rw [hsucc, List.drop_succ_cons]
      rw [List.drop_eq_getElem_cons hidx, ← hsucc]
    refine ⟨ds[min num ds.length - 1], hdk, ?_, ?_, hrest⟩
    · rw [hrest]
      rfl
    · have htl : (ds.take num).length = min num ds.length := by
        simp [List.length_take]
      have hlt : min num ds.length - 1 < num := by
        have := Nat.min_le_left num ds.length
        omega
      rw [List.getLast?_eq_getElem?, htl, List.getElem?_take_of_lt hlt]
      exact hdk
  · intro h0
    rw [hdrop, h0]
    rfl

theorem record_first_n_leaves_witness :
    fwd2_AB.m_digests
      = (fwd2_AB.m_digests.head?).getD Sim_State_Change.empty :: fwd2_AB.m_digests.drop 1 ∧
    (fwd2_AB.m_digests.drop 1).length = 2 ∧
    (record_first_n fwd2_AB 1).m_digests
      = ((fwd2_AB.m_digests.head?).getD Sim_State_Change.empty :: fwd2_AB.m_digests.drop 1).drop
          (min 1 (fwd2_AB.m_digests.drop 1).length) ∧
    (record_first_n fwd2_AB 1).m_digests.length + min 1 (fwd2_AB.m_digests.drop 1).length
      = (fwd2_AB.m_digests.drop 1).length + 1 ∧
    (record_first_n fwd2_AB 1).m_digests ≠ [] :=
  ⟨by with_unfolding_all rfl, by with_unfolding_all rfl,
    (record_first_n_leaves fwd2_AB 1 _ _ (by with_unfolding_all rfl)).1,
    (record_first_n_leaves fwd2_AB 1 _ _ (by with_unfolding_all rfl)).2.1,
    (record_first_n_leaves fwd2_AB 1 _ _ (by with_unfolding_all rfl)).2.2.1⟩

end wcs
